import Mathlib

/-!
# GR4V1TYOS `kernel.c`: the virtual filesystem and its persistence format

A shallow embedding of the in-memory directory tree of `src/kernel.c`, of its
path resolver, of the serializer (`save_dir_to_file`), of the loader
(`load_filesystem`) and of the shell commands that act on the current
directory.

## Modelling conventions

* A C string is a `List Char` (`CStr`): one `Char` stands for one non-NUL byte,
  the terminating NUL is implicit.
* `Directory*` values are *index paths* from the root (`List Nat`): the empty
  path is `root`, and `p ++ [i]` is `subdirs[i]` of the directory at `p`.  The
  `parent` field of a directory is therefore its path without the last index;
  the root (empty path) has no parent.
* The arrays `subdirs[MAX_DIRS]` and `files[MAX_FILES]`, together with their
  counters `dir_count` / `file_count`, are lists, and so is the registry
  `apps[256]` with `app_count`.  A store `a[count++] = x` is an append.
  Capacity is enforced exactly where the source has a guard (`cmd_mkdir`,
  `cmd_write`); an unguarded store is an append that can make the list longer
  than the C array.  The model follows the code as long as no list is longer
  than its array (`within_bounds`, at most 256 records in the registry): a
  store past `subdirs[127]` lands in `files[]`, one past `files[255]` in the
  counters, and from there on the behaviour of the program is undefined.  The
  counter after such a store is the only thing the theorems on those cases
  state.
* `strncpy(dst, src, n-1); dst[n-1] = 0` and `snprintf(dst, n, ...)` keep the
  first `n-1` bytes (`List.take`).  `sscanf("%[^\n]")` and `strcpy` copy
  without a bound and are modelled without one: the model follows the code as
  long as the path of a record has at most 1023 bytes and its file name at
  most 255 (`text_fits`).
* `save_filesystem` is `save_dir_to_file root "/"`; the text it writes is the
  value of that function.  Text read from a stream (`fgets`) is given as an
  argument: the disk file to `load_filesystem`, standard input to `cmd_write`.
* Reading a buffer that was never written is undefined: `load_filesystem`
  returns `none` when a record line carries no path (`sscanf` stores nothing).
-/

namespace GR4V1TYOS

/-- A NUL-terminated C string, without its terminator. -/
abbrev CStr := List Char

def MAX_NAME : Nat := 64
def MAX_CONTENT : Nat := 4096
def MAX_FILES : Nat := 256
def MAX_DIRS : Nat := 128

/-- `struct File`: a name buffer and a heap-allocated content string. -/
structure File where
  name : CStr
  content : CStr
deriving DecidableEq

/-- `struct Directory`: name, child directories and files in stored order.
The `parent` pointer is the position of the node in the tree. -/
inductive Directory where
  | mk (name : CStr) (subdirs : List Directory) (files : List File)

namespace Directory

def name : Directory → CStr
  | mk n _ _ => n

def subdirs : Directory → List Directory
  | mk _ s _ => s

def files : Directory → List File
  | mk _ _ f => f

/-- `dir_count`. -/
def dir_count (d : Directory) : Nat := d.subdirs.length

/-- `file_count`. -/
def file_count (d : Directory) : Nat := d.files.length

end Directory

/-- `struct App`; `builtin` is the C `int` flag (1 = builtin, 0 = installed). -/
structure App where
  name : CStr
  desc : CStr
  code : CStr
  builtin : Nat
deriving DecidableEq

/-- The globals `root`, `current_dir` (as an index path from `root`) and the
app registry `apps[0 .. app_count)`. -/
structure State where
  root : Directory
  current_dir : List Nat
  apps : List App

/-! ## Utilities -/

/-- `create_dir(name, parent)`: the name is cut to `MAX_NAME-1` bytes, both
counters are zero.  The parent is the position where the caller stores it. -/
def create_dir (name : CStr) : Directory :=
  Directory.mk (name.take (MAX_NAME - 1)) [] []

/-- `create_file(name, content)`: the name is cut to `MAX_NAME-1` bytes, the
content is copied whole. -/
def create_file (name content : CStr) : File :=
  { name := name.take (MAX_NAME - 1), content := content }

/-- Dereference a directory pointer: follow the child indices from `d`. -/
def getDir : Directory → List Nat → Option Directory
  | d, [] => some d
  | d, i :: p =>
    match d.subdirs[i]? with
    | some c => getDir c p
    | none => none

/-- Write through a directory pointer: replace the node at the index path by
`f` of it, leaving every other node as it is. -/
def modifyDir (f : Directory → Directory) : Directory → List Nat → Directory
  | d, [] => f d
  | d, i :: p =>
    match d.subdirs[i]? with
    | some c => Directory.mk d.name (d.subdirs.set i (modifyDir f c p)) d.files
    | none => d

/-- The store `d->subdirs[d->dir_count++] = nd`, as the code does it while
`dir_count < MAX_DIRS`. -/
def push_subdir (nd : Directory) (d : Directory) : Directory :=
  Directory.mk d.name (d.subdirs ++ [nd]) d.files

/-- The store `d->files[d->file_count++] = nf`, as the code does it while
`file_count < MAX_FILES`. -/
def push_file (nf : File) (d : Directory) : Directory :=
  Directory.mk d.name d.subdirs (d.files ++ [nf])

/-- The scan `for i < dir_count: if strcmp(subdirs[i]->name, token) == 0`:
index of the first child directory with exactly that name. -/
def find_subdir (token : CStr) : List Directory → Option Nat
  | [] => none
  | d :: ds => if d.name = token then some 0 else (find_subdir token ds).map (· + 1)

/-- The scan `for i < file_count: if strcmp(files[i]->name, name) == 0`:
index of the first file with exactly that name. -/
def find_file (name : CStr) : List File → Option Nat
  | [] => none
  | f :: fs => if f.name = name then some 0 else (find_file name fs).map (· + 1)

/-- The path `print_path_recursive` prints for the directory reached from `d`
(printed so far: `acc`) by the index path: `/` for the root, then every name
followed by `/`. -/
def print_path_from : Directory → List Nat → CStr → Option CStr
  | _, [], acc => some acc
  | d, i :: p, acc =>
    match d.subdirs[i]? with
    | some c => print_path_from c p (acc ++ c.name ++ ['/'])
    | none => none

/-- `print_path_recursive(d)` for the directory at index path `p`. -/
def print_path_recursive (root : Directory) (p : List Nat) : Option CStr :=
  print_path_from root p ['/']

/-! ## Virtual disk: save -/

/-- One iteration of the second loop of `save_dir_to_file`: the `FILE` line
with the path cut by `snprintf` to 1023 bytes, the content, a newline when the
content is non-empty and does not end in one, and the `END` line. -/
def save_file_record (path : CStr) (f : File) : CStr :=
  ['F', 'I', 'L', 'E', ' '] ++ (path ++ f.name).take 1023 ++ ['\n'] ++
    (if f.content.length > 0 then
      f.content ++ (if f.content.getLast? ≠ some '\n' then ['\n'] else [])
    else []) ++
    ['E', 'N', 'D', '\n']

/-- The second loop of `save_dir_to_file`, over `files[0 .. file_count)`. -/
def save_files (path : CStr) : List File → CStr
  | [] => []
  | f :: fs => save_file_record path f ++ save_files path fs

mutual
/-- `save_dir_to_file(f, dir, path)`: the text written to `f`. -/
def save_dir_to_file : Directory → CStr → CStr
  | Directory.mk _ subdirs files, path => save_subdirs subdirs path ++ save_files path files
/-- The first loop of `save_dir_to_file`, over `subdirs[0 .. dir_count)`:
`fullpath` is `path`, the child name and `/`, cut by `snprintf` to 1023 bytes. -/
def save_subdirs : List Directory → CStr → CStr
  | [], _ => []
  | d :: ds, path =>
    ['D', 'I', 'R', ' '] ++ (path ++ d.name ++ ['/']).take 1023 ++ ['\n'] ++
      save_dir_to_file d ((path ++ d.name ++ ['/']).take 1023) ++ save_subdirs ds path
end

/-- `save_filesystem()`: the text written to the disk file. -/
def save_filesystem (root : Directory) : CStr :=
  save_dir_to_file root ['/']

/-! ## Path resolution -/

/-- Scan for `strtok`: the pending token that starts the string (up to the
first delimiter) and the tokens after it. -/
def strtok_scan (delim : Char) : CStr → CStr × List CStr
  | [] => ([], [])
  | c :: cs =>
    let r := strtok_scan delim cs
    if c = delim then ([], if r.1 = [] then r.2 else r.1 :: r.2)
    else (c :: r.1, r.2)

/-- The tokens returned by `strtok(s, "/")` and the following
`strtok(NULL, "/")` calls: the maximal runs of bytes other than the
delimiter, in order. -/
def strtok_all (delim : Char) (s : CStr) : List CStr :=
  let r := strtok_scan delim s
  if r.1 = [] then r.2 else r.1 :: r.2

/-- One iteration of `while (token)` in `find_or_create_dir_by_path`, on the
pair (tree, `cur`): descend into the first child named `token`, or create it,
store it at the end of the children of `cur` and descend into it.  The store
is not guarded: the definition follows the code while `cur` has fewer than
`MAX_DIRS` subdirectories. -/
def find_or_create_step (st : Directory × List Nat) (token : CStr) : Directory × List Nat :=
  match getDir st.1 st.2 with
  | none => st
  | some d =>
    match find_subdir token d.subdirs with
    | some i => (st.1, st.2 ++ [i])
    | none => (modifyDir (push_subdir (create_dir token)) st.1 st.2, st.2 ++ [d.dir_count])

/-- `find_or_create_dir_by_path(path)`: the tree afterwards and the returned
directory.  `tmp` holds the first 1023 bytes of `path`.  No directory on the
way is tested for room, see `find_or_create_step`. -/
def find_or_create_dir_by_path (path : CStr) (root : Directory) : Directory × List Nat :=
  if path = [] then (root, [])
  else if path = ['/'] then (root, [])
  else
    let tmp := path.take 1023
    let p := if tmp.head? = some '/' then tmp.tail else tmp
    (strtok_all '/' p).foldl find_or_create_step (root, [])

/-! ## Virtual disk: load -/

/-- The lines successive `fgets(line, size, f)` calls return on the rest of a
stream: each ends after a newline, after `size-1` bytes, or at end of input.
`line` is the part of the current line read so far. -/
def fgets_all (size : Nat) : CStr → CStr → List CStr
  | [], line => if line = [] then [] else [line]
  | c :: cs, line =>
    if c = '\n' ∨ line.length + 2 ≥ size then (line ++ [c]) :: fgets_all size cs []
    else fgets_all size cs (line ++ [c])

/-- `strncmp(line, lit, strlen(lit)) == 0`: `line` begins with `lit`. -/
def strncmp_eq (line lit : CStr) : Bool := lit.isPrefixOf line

/-- `sscanf(s, "%[^\n]", path)`: the non-empty run of bytes before the first
newline; `none` when the run is empty, in which case `path` is not written.
The conversion has no width: the run fits `char path[1024]` when it has at
most 1023 bytes, and this is the range in which the definition follows the
code. -/
def sscanf_line (s : CStr) : Option CStr :=
  if s.takeWhile (· ≠ '\n') = [] then none else some (s.takeWhile (· ≠ '\n'))

/-- `last = strrchr(path, c)` followed by `*last = 0`: the part before the last
`c` and the part after it (`last+1`); `none` when `c` does not occur. -/
def strrchr_split (c : Char) : CStr → Option (CStr × CStr)
  | [] => none
  | x :: xs =>
    match strrchr_split c xs with
    | some r => some (x :: r.1, r.2)
    | none => if x = c then some ([], xs) else none

/-- The tail of the `FILE` branch of `load_filesystem`, after the content
loop: split the path at its last `/`, resolve the directory part (`"/"` when
it is empty) and store a new file there.  A path without `/` is skipped.
`strcpy(filename, last+1)` fits `char filename[256]` when the part after the
last `/` has at most 255 bytes, and the store is not guarded: the definition
follows the code in that range and while the directory has fewer than
`MAX_FILES` files. -/
def load_file_record (path content : CStr) (root : Directory) : Directory :=
  match strrchr_split '/' path with
  | none => root
  | some r =>
    let t := find_or_create_dir_by_path (if r.1.length > 0 then r.1 else ['/']) root
    modifyDir (push_file (create_file r.2 content)) t.1 t.2

mutual
/-- The outer loop `while (fgets(line, sizeof(line), f))` of `load_filesystem`
over the remaining lines of the disk file.  The result is `none` when a record
line carries no path: `sscanf` then stores nothing and the code goes on to read
the uninitialised buffer `path`. -/
def load_lines : List CStr → Directory → Option Directory
  | [], root => some root
  | line :: rest, root =>
    if strncmp_eq line ['D', 'I', 'R', ' '] then
      match sscanf_line (line.drop 4) with
      | none => none
      | some path => load_lines rest (find_or_create_dir_by_path path root).1
    else if strncmp_eq line ['F', 'I', 'L', 'E', ' '] then
      match sscanf_line (line.drop 5) with
      | none => none
      | some path => load_content path [] rest root
    else load_lines rest root
/-- The inner loop of the `FILE` branch: accumulate lines into `content` while
they fit, until a line that begins with `END` or the end of input; then store
the file and go back to the outer loop. -/
def load_content (path content : CStr) : List CStr → Directory → Option Directory
  | [], root => some (load_file_record path content root)
  | line :: rest, root =>
    if strncmp_eq line ['E', 'N', 'D'] then load_lines rest (load_file_record path content root)
    else if content.length + line.length + 1 < MAX_CONTENT then
      load_content path (content ++ line) rest root
    else load_content path content rest root
end

/-- `load_filesystem()`: `disk` is the content of the disk file, `none` when
it cannot be opened. -/
def load_filesystem (disk : Option CStr) (root : Directory) : Option Directory :=
  match disk with
  | none => some root
  | some text => load_lines (fgets_all 8192 text []) root

/-! ## Filesystem commands -/

/-- The directory `current_dir` points to. -/
def cur_dir (st : State) : Option Directory := getDir st.root st.current_dir

/-- `list_dir()`: the directory names and the file names it prints, in
stored order. -/
def list_dir (st : State) : List CStr × List CStr :=
  match cur_dir st with
  | none => ([], [])
  | some d => (d.subdirs.map Directory.name, d.files.map File.name)

/-- `cmd_back()`: move to the parent unless at the root. -/
def cmd_back (st : State) : State :=
  if st.current_dir = [] then st else { st with current_dir := st.current_dir.dropLast }

/-- `cmd_cd(name)`. -/
def cmd_cd (name : CStr) (st : State) : State :=
  if name = ['.', '.'] then cmd_back st
  else
    match cur_dir st with
    | none => st
    | some d =>
      match find_subdir name d.subdirs with
      | some i => { st with current_dir := st.current_dir ++ [i] }
      | none => st

/-- `cmd_mkdir(name)`. -/
def cmd_mkdir (name : CStr) (st : State) : State :=
  match cur_dir st with
  | none => st
  | some d =>
    if d.dir_count ≥ MAX_DIRS then st
    else { st with root := modifyDir (push_subdir (create_dir name)) st.root st.current_dir }

/-- The input loop of `cmd_write` over the `fgets(line, 512, stdin)` lines:
stop at a line `END\n` or `END\r\n` (or at end of input), append every other
line that still fits into `buffer`. -/
def read_until_END : List CStr → CStr → CStr
  | [], buffer => buffer
  | line :: rest, buffer =>
    if strncmp_eq line ['E', 'N', 'D', '\n'] || strncmp_eq line ['E', 'N', 'D', '\r', '\n'] then buffer
    else if buffer.length + line.length + 1 < MAX_CONTENT then read_until_END rest (buffer ++ line)
    else read_until_END rest buffer

/-- `c = getchar(); if (c != '\n' && c != EOF) ungetc(c, stdin)`. -/
def skip_newline : CStr → CStr
  | '\n' :: r => r
  | s => s

/-- The `buffer` that `cmd_write` builds from standard input. -/
def read_content (stdin : CStr) : CStr :=
  read_until_END (fgets_all 512 (skip_newline stdin) []) []

/-- The end of `cmd_write`: `create_file(name, buffer)` stored after the last
file of the current directory. -/
def cmd_write_store (name buffer : CStr) (st : State) : State :=
  { st with root := modifyDir (push_file (create_file name buffer)) st.root st.current_dir }

/-- `cmd_write(name)`, with the text available on standard input. -/
def cmd_write (name stdin : CStr) (st : State) : State :=
  match cur_dir st with
  | none => st
  | some d =>
    if d.file_count ≥ MAX_FILES then st
    else cmd_write_store name (read_content stdin) st

/-- The scan of `cmd_cat`: the first file with exactly that name. -/
def cat_lookup (name : CStr) : List File → Option File
  | [] => none
  | f :: fs => if f.name = name then some f else cat_lookup name fs

/-- `read_file(name)`, the lookup of `cmd_cat`: the content of the file it
selects in the current directory, `none` when it prints "File not found.". -/
def read_file (name : CStr) (st : State) : Option CStr :=
  match cur_dir st with
  | none => none
  | some d => (cat_lookup name d.files).map File.content

/-- `cmd_cat(name)`: the text printed. -/
def cmd_cat (name : CStr) (st : State) : CStr :=
  match read_file name st with
  | some c =>
    "---- ".toList ++ name ++ " ----\n".toList ++
      (if c.length > 0 then c else "(empty)\n".toList) ++ "---- end ----\n".toList
  | none => "File not found.\n".toList

/-- The removal in `cmd_rm`: drop `files[i]` and shift the later files left. -/
def remove_file_at (i : Nat) (d : Directory) : Directory :=
  Directory.mk d.name d.subdirs (d.files.eraseIdx i)

/-- `cmd_rm(name)`. -/
def cmd_rm (name : CStr) (st : State) : State :=
  match cur_dir st with
  | none => st
  | some d =>
    match find_file name d.files with
    | some i => { st with root := modifyDir (remove_file_at i) st.root st.current_dir }
    | none => st

/-- The state of `main` before `load_filesystem`: `root = create_dir("/", NULL)`,
`current_dir = root`, no app registered. -/
def init_state : State :=
  { root := create_dir ['/'], current_dir := [], apps := [] }

/-- `delete_dir_node(node)`: every child directory and file below `node` is
freed and both counters are reset; the node itself stays. -/
def delete_dir_node (node : Directory) : Directory :=
  Directory.mk node.name [] []

/-- The removal in `cmd_rmdir`: `subdirs[i]` is emptied by `delete_dir_node`
and freed, the later children are shifted left. -/
def remove_subdir_at (i : Nat) (d : Directory) : Directory :=
  Directory.mk d.name (d.subdirs.eraseIdx i) d.files

/-- `cmd_rmdir(name)`. -/
def cmd_rmdir (name : CStr) (st : State) : State :=
  match cur_dir st with
  | none => st
  | some d =>
    match find_subdir name d.subdirs with
    | some i => { st with root := modifyDir (remove_subdir_at i) st.root st.current_dir }
    | none => st

/-- The loop `for (i = 0; i < app_count; i++) if (!apps[i].builtin) { shift
left; app_count--; i--; }` of `cmd_wipe` and `install_app_command`, from index
`i`; every iteration removes a record or moves on, so `fuel` iterations
suffice when `fuel` is the number of records. -/
def purge_installed_from : Nat → Nat → List App → List App
  | 0, _, apps => apps
  | fuel + 1, i, apps =>
    match apps[i]? with
    | none => apps
    | some a =>
      if a.builtin = 0 then purge_installed_from fuel i (apps.eraseIdx i)
      else purge_installed_from fuel (i + 1) apps

/-- The whole removal loop, from index 0. -/
def purge_installed (apps : List App) : List App :=
  purge_installed_from apps.length 0 apps

/-- `cmd_wipe()`; `confirm` is the word read by `scanf("%15s", confirm)`. -/
def cmd_wipe (confirm : CStr) (st : State) : State :=
  if confirm ≠ ['y', 'e', 's'] then st
  else
    { root := Directory.mk st.root.name [] [], current_dir := [],
      apps := purge_installed st.apps }

/-! ## App system -/

/-- `register_app(name, desc, code, builtin)`: the record stored at
`apps[app_count++]`; each field keeps what fits its buffer.  `app_count` is
not tested: the definition follows the code while the registry `apps[256]`
has fewer than 256 records. -/
def register_app (name desc code : CStr) (builtin : Nat) (apps : List App) : List App :=
  apps ++ [{ name := name.take 63, desc := desc.take 255, code := code.take (MAX_CONTENT - 1),
             builtin := builtin }]

/-- `init_builtin_apps()`. -/
def init_builtin_apps (apps : List App) : List App :=
  register_app "about".toList "About GR4V1TYOS".toList "BUILTIN_ABOUT".toList 1
    (register_app "numbergame".toList "Number Guess Game (1-100)".toList
      "BUILTIN_NUMBERGAME".toList 1
      (register_app "notepad".toList "Notepad (saves as a file in current dir)".toList
        "BUILTIN_NOTEPAD".toList 1
        (register_app "calculator".toList "Interactive calculator (+ - * /)".toList
          "BUILTIN_CALC".toList 1 apps)))

/-- `strncat(dst, src, size - strlen(dst) - 1)` on a buffer of `size` bytes. -/
def strncat_bounded (size : Nat) (dst src : CStr) : CStr :=
  dst ++ src.take (size - dst.length - 1)

/-- The test `strcmp(strrchr(name, '.'), ".savapp") == 0` of
`load_installed_apps_from_vfs`: the name has a `.` and its part from the last
`.` on is `.savapp`. -/
def ext_is_savapp (name : CStr) : Bool :=
  match strrchr_split '.' name with
  | none => false
  | some r => decide ('.' :: r.2 = ['.', 's', 'a', 'v', 'a', 'p', 'p'])

/-- The inner loop of the `CODE=` branch over the following `strtok` lines:
append each line and a newline to `code` until a line equal to `ENDAPP`. -/
def app_code_lines : CStr → List CStr → CStr
  | code, [] => code
  | code, next :: rest =>
    if next = ['E', 'N', 'D', 'A', 'P', 'P'] then code
    else
      app_code_lines
        (strncat_bounded MAX_CONTENT (strncat_bounded MAX_CONTENT code next) ['\n']) rest

/-- The loop `while (line)` of `load_installed_apps_from_vfs` over the
`strtok(copy, "\n")` lines of one file, with the buffers `name` and `desc`
filled so far: the final `name`, `desc` and `code`. -/
def parse_savapp_lines : List CStr → CStr → CStr → CStr × CStr × CStr
  | [], name, desc => (name, desc, [])
  | line :: rest, name, desc =>
    if strncmp_eq line "APP_NAME=".toList then parse_savapp_lines rest ((line.drop 9).take 63) desc
    else if strncmp_eq line "APP_DESC=".toList then
      parse_savapp_lines rest name ((line.drop 9).take 255)
    else if strncmp_eq line "CODE=".toList then
      (name, desc,
        app_code_lines
          (strncat_bounded MAX_CONTENT (strncat_bounded MAX_CONTENT [] (line.drop 5)) ['\n']) rest)
    else parse_savapp_lines rest name desc

/-- The loop of `load_installed_apps_from_vfs` over the files of `/apps`: a
file whose name ends in `.savapp` and whose content gives a non-empty name is
registered as an installed app. -/
def load_apps_from_files : List File → List App → List App
  | [], apps => apps
  | f :: fs, apps =>
    if ext_is_savapp f.name then
      if (parse_savapp_lines (strtok_all '\n' f.content) [] []).1.length > 0 then
        load_apps_from_files fs
          (register_app (parse_savapp_lines (strtok_all '\n' f.content) [] []).1
            (parse_savapp_lines (strtok_all '\n' f.content) [] []).2.1
            (parse_savapp_lines (strtok_all '\n' f.content) [] []).2.2 0 apps)
      else load_apps_from_files fs apps
    else load_apps_from_files fs apps

/-- `load_installed_apps_from_vfs()`; `/apps` is created when it is missing. -/
def load_installed_apps_from_vfs (st : State) : State :=
  match getDir (find_or_create_dir_by_path "/apps".toList st.root).1
      (find_or_create_dir_by_path "/apps".toList st.root).2 with
  | none => { st with root := (find_or_create_dir_by_path "/apps".toList st.root).1 }
  | some appdir =>
    { st with root := (find_or_create_dir_by_path "/apps".toList st.root).1,
              apps := load_apps_from_files appdir.files st.apps }

/-- `find_app_by_name(name)`: the first record with that name. -/
def find_app_by_name (name : CStr) : List App → Option App
  | [] => none
  | a :: as => if a.name = name then some a else find_app_by_name name as

/-- The text `run_app_command(name)` prints when it reads no input: for an
unknown name, for an installed app whose code begins with `PRINT:`, and for an
installed app with any other code except the notepad script.  The built-in
apps and the notepad script are not covered (`none`). -/
def run_app_output (name : CStr) (st : State) : Option CStr :=
  match find_app_by_name name st.apps with
  | none => some ("App '".toList ++ name ++ "' not found.\n".toList)
  | some a =>
    if a.builtin ≠ 0 then none
    else if strncmp_eq a.code "PRINT:".toList then some (a.code.drop 6 ++ ['\n'])
    else if strncmp_eq a.code "SCRIPT:NOTEPAD".toList then none
    else some ("--- App Output ---\n".toList ++ a.code ++ "\n--- End ---\n".toList)

/-- The canned content `install_app_command` writes for a known package. -/
def package_content (packname : CStr) : Option CStr :=
  if packname = "hello".toList then
    some "APP_NAME=hello\nAPP_DESC=Simple Hello App\nCODE=PRINT:Hello from installed Hello App!\nENDAPP\n".toList
  else if packname = "simple-notepad".toList then
    some "APP_NAME=snotepad\nAPP_DESC=Simple installed notepad (saves to given filename)\nCODE=SCRIPT:NOTEPAD default_note.txt\nENDAPP\n".toList
  else none

/-- `install_app_command(packname)`.  Neither the store of `/apps` in the root
nor the store of the new file in `/apps` is guarded: the definition follows
the code while the root has room for `/apps` and `/apps` has fewer than
`MAX_FILES` files. -/
def install_app_command (packname : CStr) (st : State) : State :=
  match getDir (find_or_create_dir_by_path "/apps".toList st.root).1
      (find_or_create_dir_by_path "/apps".toList st.root).2 with
  | none => { st with root := (find_or_create_dir_by_path "/apps".toList st.root).1 }
  | some appdir =>
    if appdir.files.any (fun f => decide (f.name = (packname ++ ".savapp".toList).take 127)) then
      { st with root := (find_or_create_dir_by_path "/apps".toList st.root).1 }
    else
      match package_content packname with
      | none => { st with root := (find_or_create_dir_by_path "/apps".toList st.root).1 }
      | some content =>
        load_installed_apps_from_vfs
          { st with
            root := modifyDir
              (push_file (create_file ((packname ++ ".savapp".toList).take 127) content))
              (find_or_create_dir_by_path "/apps".toList st.root).1
              (find_or_create_dir_by_path "/apps".toList st.root).2,
            apps := purge_installed st.apps }

/-- `strstr(s, needle) != NULL`. -/
def strstr_found (needle : CStr) : CStr → Bool
  | [] => needle.isPrefixOf []
  | c :: cs => needle.isPrefixOf (c :: cs) || strstr_found needle cs

/-- The `APP_NAME` parse of `uninstall_app_command`: what follows `APP_NAME=`
on the first line that begins with it (127 bytes at most), empty when there is
no such line. -/
def savapp_name : List CStr → CStr
  | [] => []
  | line :: rest =>
    if strncmp_eq line "APP_NAME=".toList then (line.drop 9).take 127 else savapp_name rest

/-- The scan of `uninstall_app_command` over the files of `/apps`: index of
the first file whose name contains `.savapp` and whose `APP_NAME` is
`appname`. -/
def uninstall_file_index (appname : CStr) : List File → Option Nat
  | [] => none
  | f :: fs =>
    if strstr_found ".savapp".toList f.name &&
        decide ((savapp_name (strtok_all '\n' f.content)).length > 0) &&
        decide (savapp_name (strtok_all '\n' f.content) = appname) then some 0
    else (uninstall_file_index appname fs).map (· + 1)

/-- The registry loop of `uninstall_app_command`: drop the first installed
record named `appname`. -/
def remove_installed_record (appname : CStr) : List App → List App
  | [] => []
  | a :: as =>
    if a.builtin = 0 ∧ a.name = appname then as else a :: remove_installed_record appname as

/-- `uninstall_app_command(appname)`. -/
def uninstall_app_command (appname : CStr) (st : State) : State :=
  match getDir (find_or_create_dir_by_path "/apps".toList st.root).1
      (find_or_create_dir_by_path "/apps".toList st.root).2 with
  | none => { st with root := (find_or_create_dir_by_path "/apps".toList st.root).1 }
  | some appdir =>
    match uninstall_file_index appname appdir.files with
    | none => { st with root := (find_or_create_dir_by_path "/apps".toList st.root).1 }
    | some i =>
      { st with
        root := modifyDir (remove_file_at i)
          (find_or_create_dir_by_path "/apps".toList st.root).1
          (find_or_create_dir_by_path "/apps".toList st.root).2,
        apps := remove_installed_record appname st.apps }

/-- The state of `main` when the prompt first appears, without a disk file:
the empty root, the four built-in apps, and `/apps` created by
`load_installed_apps_from_vfs`. -/
def startup_state : State :=
  load_installed_apps_from_vfs { init_state with apps := init_builtin_apps [] }

/-! ## The tree with its parent pointers

The same program with the `parent` field of `struct Directory` kept: every
node carries the address `malloc` returned for it, and `parent` holds the
address passed to `create_dir`. -/

/-- `struct Directory` at the address `addr`, with its `parent` pointer
(`none` is `NULL`). -/
inductive PDir where
  | mk (addr : Nat) (parent : Option Nat) (name : CStr) (subdirs : List PDir) (files : List File)

namespace PDir

def addr : PDir → Nat
  | mk a _ _ _ _ => a

def parent : PDir → Option Nat
  | mk _ p _ _ _ => p

def name : PDir → CStr
  | mk _ _ n _ _ => n

def subdirs : PDir → List PDir
  | mk _ _ _ s _ => s

def files : PDir → List File
  | mk _ _ _ _ f => f

/-- `dir_count`. -/
def dir_count (d : PDir) : Nat := d.subdirs.length

end PDir

/-- The globals `root` and `current_dir` (as an index path from `root`), and
the number of directories allocated so far: `malloc` returns a fresh address,
here the next number. -/
structure PState where
  root : PDir
  current_dir : List Nat
  next : Nat

/-- `create_dir(name, parent)` when `malloc` returns `addr`. -/
def create_dir_p (name : CStr) (parent : Option Nat) (addr : Nat) : PDir :=
  PDir.mk addr parent (name.take (MAX_NAME - 1)) [] []

/-- Read through a directory pointer given as an index path. -/
def getP : PDir → List Nat → Option PDir
  | d, [] => some d
  | d, i :: p =>
    match d.subdirs[i]? with
    | some c => getP c p
    | none => none

/-- Write through a directory pointer given as an index path. -/
def modifyP (f : PDir → PDir) : PDir → List Nat → PDir
  | d, [] => f d
  | d, i :: p =>
    match d.subdirs[i]? with
    | some c => PDir.mk d.addr d.parent d.name (d.subdirs.set i (modifyP f c p)) d.files
    | none => d

mutual
/-- The directory a pointer value designates: the index path of the node
stored at address `a`. -/
def path_of_addr (a : Nat) : PDir → Option (List Nat)
  | PDir.mk addr _ _ subdirs _ => if addr = a then some [] else path_of_addr_list a subdirs 0
/-- The search of `path_of_addr` among children, the first of them being child
number `i`. -/
def path_of_addr_list (a : Nat) : List PDir → Nat → Option (List Nat)
  | [], _ => none
  | d :: ds, i =>
    match path_of_addr a d with
    | some p => some (i :: p)
    | none => path_of_addr_list a ds (i + 1)
end

/-- The store `d->subdirs[d->dir_count++] = nd`, as the code does it while
`dir_count < MAX_DIRS`. -/
def push_subdir_p (nd : PDir) (d : PDir) : PDir :=
  PDir.mk d.addr d.parent d.name (d.subdirs ++ [nd]) d.files

/-- The store `d->files[d->file_count++] = nf`, as the code does it while
`file_count < MAX_FILES`. -/
def push_file_p (nf : File) (d : PDir) : PDir :=
  PDir.mk d.addr d.parent d.name d.subdirs (d.files ++ [nf])

/-- The scan `for i < dir_count: if strcmp(subdirs[i]->name, token) == 0`. -/
def find_subdir_p (token : CStr) : List PDir → Option Nat
  | [] => none
  | d :: ds => if d.name = token then some 0 else (find_subdir_p token ds).map (· + 1)

/-- `print_path_recursive(d)`: `/` when `d->parent` is `NULL`, otherwise the
path printed for the directory `d->parent` points to, then the name and `/`.
`fuel` bounds the number of parent links followed; `none` when it runs out or
a parent pointer designates no directory of the tree. -/
def print_path_recursive_p : Nat → PDir → PDir → Option CStr
  | 0, _, _ => none
  | fuel + 1, root, d =>
    match d.parent with
    | none => some ['/']
    | some a =>
      match (path_of_addr a root).bind (getP root) with
      | none => none
      | some pd => (print_path_recursive_p fuel root pd).map (fun s => s ++ d.name ++ ['/'])

/-- The `fullpath` that `save_dir_to_file(f, root, path)` formats, and writes
in the `DIR` record, for the directory at the index path: at every level
`path`, the child name and `/`, cut by `snprintf` to 1023 bytes.  The root has
no record. -/
def dir_record_path : Directory → CStr → List Nat → Option CStr
  | _, _, [] => none
  | d, path, i :: p =>
    match d.subdirs[i]? with
    | none => none
    | some c =>
      match p with
      | [] => some ((path ++ c.name ++ ['/']).take 1023)
      | _ :: _ => dir_record_path c ((path ++ c.name ++ ['/']).take 1023) p

/-- One iteration of `while (token)` in `find_or_create_dir_by_path`, on the
triple (tree, `cur`, addresses used): descend into the first child named
`token`, or `create_dir(token, cur)`, store it at the end of the children of
`cur` and descend into it.  The store is not guarded: the definition follows
the code while `cur` has fewer than `MAX_DIRS` subdirectories. -/
def find_or_create_step_p (st : PDir × List Nat × Nat) (token : CStr) : PDir × List Nat × Nat :=
  match getP st.1 st.2.1 with
  | none => st
  | some d =>
    match find_subdir_p token d.subdirs with
    | some i => (st.1, st.2.1 ++ [i], st.2.2)
    | none =>
      (modifyP (push_subdir_p (create_dir_p token (some d.addr) st.2.2)) st.1 st.2.1,
        st.2.1 ++ [d.dir_count], st.2.2 + 1)

/-- `find_or_create_dir_by_path(path)`: the tree afterwards, the returned
directory and the addresses used. -/
def find_or_create_dir_by_path_p (path : CStr) (root : PDir) (next : Nat) :
    PDir × List Nat × Nat :=
  if path = [] then (root, [], next)
  else if path = ['/'] then (root, [], next)
  else
    let tmp := path.take 1023
    let p := if tmp.head? = some '/' then tmp.tail else tmp
    (strtok_all '/' p).foldl find_or_create_step_p (root, [], next)

/-- The tail of the `FILE` branch of `load_filesystem`, in the same range as
`load_file_record`. -/
def load_file_record_p (path content : CStr) (root : PDir) (next : Nat) : PDir × Nat :=
  match strrchr_split '/' path with
  | none => (root, next)
  | some r =>
    let t := find_or_create_dir_by_path_p (if r.1.length > 0 then r.1 else ['/']) root next
    (modifyP (push_file_p (create_file r.2 content)) t.1 t.2.1, t.2.2)

mutual
/-- The outer loop of `load_filesystem`; `none` when a record line carries no
path. -/
def load_lines_p : List CStr → PDir → Nat → Option (PDir × Nat)
  | [], root, next => some (root, next)
  | line :: rest, root, next =>
    if strncmp_eq line ['D', 'I', 'R', ' '] then
      match sscanf_line (line.drop 4) with
      | none => none
      | some path =>
        load_lines_p rest (find_or_create_dir_by_path_p path root next).1
          (find_or_create_dir_by_path_p path root next).2.2
    else if strncmp_eq line ['F', 'I', 'L', 'E', ' '] then
      match sscanf_line (line.drop 5) with
      | none => none
      | some path => load_content_p path [] rest root next
    else load_lines_p rest root next
/-- The inner loop of the `FILE` branch. -/
def load_content_p (path content : CStr) : List CStr → PDir → Nat → Option (PDir × Nat)
  | [], root, next => some (load_file_record_p path content root next)
  | line :: rest, root, next =>
    if strncmp_eq line ['E', 'N', 'D'] then
      load_lines_p rest (load_file_record_p path content root next).1
        (load_file_record_p path content root next).2
    else if content.length + line.length + 1 < MAX_CONTENT then
      load_content_p path (content ++ line) rest root next
    else load_content_p path content rest root next
end

/-- `load_filesystem()`. -/
def load_filesystem_p (disk : Option CStr) (st : PState) : Option PState :=
  match disk with
  | none => some st
  | some text =>
    (load_lines_p (fgets_all 8192 text []) st.root st.next).map
      (fun r => { st with root := r.1, next := r.2 })

/-- `cmd_back()`: follow the parent pointer of the current directory. -/
def cmd_back_p (st : PState) : PState :=
  match getP st.root st.current_dir with
  | none => st
  | some d =>
    match d.parent with
    | none => st
    | some a =>
      match path_of_addr a st.root with
      | some q => { st with current_dir := q }
      | none => st

/-- `cmd_cd(name)`. -/
def cmd_cd_p (name : CStr) (st : PState) : PState :=
  if name = ['.', '.'] then cmd_back_p st
  else
    match getP st.root st.current_dir with
    | none => st
    | some d =>
      match find_subdir_p name d.subdirs with
      | some i => { st with current_dir := st.current_dir ++ [i] }
      | none => st

/-- `cmd_mkdir(name)`: `create_dir(name, current_dir)`. -/
def cmd_mkdir_p (name : CStr) (st : PState) : PState :=
  match getP st.root st.current_dir with
  | none => st
  | some d =>
    if d.dir_count ≥ MAX_DIRS then st
    else
      { st with
        root := modifyP (push_subdir_p (create_dir_p name (some d.addr) st.next)) st.root
          st.current_dir
        next := st.next + 1 }

/-- The removal in `cmd_rmdir`. -/
def remove_subdir_at_p (i : Nat) (d : PDir) : PDir :=
  PDir.mk d.addr d.parent d.name (d.subdirs.eraseIdx i) d.files

/-- `cmd_rmdir(name)`. -/
def cmd_rmdir_p (name : CStr) (st : PState) : PState :=
  match getP st.root st.current_dir with
  | none => st
  | some d =>
    match find_subdir_p name d.subdirs with
    | some i => { st with root := modifyP (remove_subdir_at_p i) st.root st.current_dir }
    | none => st

/-- `cmd_wipe()` on the tree: the root keeps its address and name and loses
every child. -/
def cmd_wipe_p (confirm : CStr) (st : PState) : PState :=
  if confirm ≠ ['y', 'e', 's'] then st
  else
    { st with
      root := PDir.mk st.root.addr st.root.parent st.root.name [] []
      current_dir := [] }

/-- The state of `main` before `load_filesystem`:
`root = create_dir("/", NULL)`, `current_dir = root`. -/
def init_pstate : PState :=
  { root := create_dir_p ['/'] none 0, current_dir := [], next := 1 }

/-- An operation on the tree: a call of `find_or_create_dir_by_path`,
`load_filesystem` with the content of the disk file, or a shell command. -/
inductive POp where
  | find_or_create (path : CStr)
  | load (disk : Option CStr)
  | mkdir (name : CStr)
  | rmdir (name : CStr)
  | wipe (confirm : CStr)
  | cd (name : CStr)
  | back

/-- One operation; `none` when `load_filesystem` reads a record line without
a path. -/
def run_pop (st : PState) : POp → Option PState
  | POp.find_or_create path =>
    some { st with
      root := (find_or_create_dir_by_path_p path st.root st.next).1
      next := (find_or_create_dir_by_path_p path st.root st.next).2.2 }
  | POp.load disk => load_filesystem_p disk st
  | POp.mkdir name => some (cmd_mkdir_p name st)
  | POp.rmdir name => some (cmd_rmdir_p name st)
  | POp.wipe confirm => some (cmd_wipe_p confirm st)
  | POp.cd name => some (cmd_cd_p name st)
  | POp.back => some (cmd_back_p st)

/-- A sequence of operations. -/
def run_pops : List POp → PState → Option PState
  | [], st => some st
  | op :: ops, st => (run_pop st op).bind (run_pops ops)

/-! ## Notepad save and the command loop -/

/-- The overwrite of the notepad save: `files[i]->content` is freed and set to
a copy of `buffer`; the name stays. -/
def overwrite_file_at (i : Nat) (buffer : CStr) (d : Directory) : Directory :=
  match d.files[i]? with
  | some f => Directory.mk d.name d.subdirs (d.files.set i { name := f.name, content := buffer })
  | none => d

/-- The save at the end of `app_builtin_notepad` and of the `SCRIPT:NOTEPAD`
branch of `run_app_command`: the first file of the current directory named
`filename` gets `buffer` as content; when there is none,
`create_file(filename, buffer)` is stored after the last file.  That store is
not guarded: the definition follows the code while the current directory has
fewer than `MAX_FILES` files. -/
def notepad_save (filename buffer : CStr) (st : State) : State :=
  match cur_dir st with
  | none => st
  | some d =>
    match find_file filename d.files with
    | some i => { st with root := modifyDir (overwrite_file_at i buffer) st.root st.current_dir }
    | none =>
      { st with
        root := modifyDir (push_file (create_file filename buffer)) st.root st.current_dir }

/-- `app_builtin_notepad()`; `filename` is the word read by
`scanf("%127s", filename)`, `stdin` the input after it. -/
def app_builtin_notepad (filename stdin : CStr) (st : State) : State :=
  notepad_save filename (read_content stdin) st

/-- The `SCRIPT:NOTEPAD` branch of `run_app_command`: the file name is what
follows the tag in `code` (255 bytes at most), without leading blanks and
tabs; nothing is saved when it is empty. -/
def run_installed_notepad (code stdin : CStr) (st : State) : State :=
  if ((code.drop 14).take 255).dropWhile (fun c => c = ' ' || c = '\t') = [] then st
  else
    notepad_save (((code.drop 14).take 255).dropWhile (fun c => c = ' ' || c = '\t'))
      (read_content stdin) st

/-- `run_app_command(name)`: the state afterwards.  Only the two notepad paths
touch the tree; `filename` is the word the built-in notepad reads first. -/
def run_app_command (name filename stdin : CStr) (st : State) : State :=
  match find_app_by_name name st.apps with
  | none => st
  | some a =>
    if a.builtin ≠ 0 then
      if a.code = "BUILTIN_CALC".toList then st
      else if a.code = "BUILTIN_NOTEPAD".toList then app_builtin_notepad filename stdin st
      else st
    else if strncmp_eq a.code "PRINT:".toList then st
    else if strncmp_eq a.code "SCRIPT:NOTEPAD".toList then run_installed_notepad a.code stdin st
    else st

/-- A command of the shell loop of `main` that can change the state, with the
words and text it reads. -/
inductive ShellCmd where
  | cd (name : CStr)
  | back
  | mkdir (name : CStr)
  | rmdir (name : CStr)
  | write (name stdin : CStr)
  | rm (name : CStr)
  | wipe (confirm : CStr)
  | install (packname : CStr)
  | uninstall (appname : CStr)

/-- The dispatch of `main` for one command. -/
def run_shell_cmd (st : State) : ShellCmd → State
  | ShellCmd.cd name => cmd_cd name st
  | ShellCmd.back => cmd_back st
  | ShellCmd.mkdir name => cmd_mkdir name st
  | ShellCmd.rmdir name => cmd_rmdir name st
  | ShellCmd.write name stdin => cmd_write name stdin st
  | ShellCmd.rm name => cmd_rm name st
  | ShellCmd.wipe confirm => cmd_wipe confirm st
  | ShellCmd.install packname => install_app_command packname st
  | ShellCmd.uninstall appname => uninstall_app_command appname st

/-- The state after a sequence of commands. -/
def run_shell (cmds : List ShellCmd) (st : State) : State :=
  cmds.foldl run_shell_cmd st

/-! ## Shell sessions -/

/-- A shell command that builds the tree: `mkdir <name>`, `write <name>` with
the text then typed on standard input, `cd <name>`, `back`. -/
inductive Op where
  | mkdir (name : CStr)
  | write (name stdin : CStr)
  | cd (name : CStr)
  | back

/-- The dispatch of `main` for one command. -/
def run_op (st : State) : Op → State
  | Op.mkdir name => cmd_mkdir name st
  | Op.write name stdin => cmd_write name stdin st
  | Op.cd name => cmd_cd name st
  | Op.back => cmd_back st

/-- The state after a sequence of commands. -/
def run_ops (ops : List Op) (st : State) : State :=
  ops.foldl run_op st

/-! ## Recursive form of the resolver loop -/

/-- The `while (token)` loop of `find_or_create_dir_by_path` seen from the
directory `cur` points to: that directory after the remaining tokens have been
resolved below it, and the index path walked from it. -/
def resolve_below : List CStr → Directory → Directory × List Nat
  | [], d => (d, [])
  | tok :: toks, d =>
    match find_subdir tok d.subdirs with
    | some i =>
      match d.subdirs[i]? with
      | some c =>
        (Directory.mk d.name (d.subdirs.set i (resolve_below toks c).1) d.files,
          i :: (resolve_below toks c).2)
      | none => (d, [i])
    | none =>
      (Directory.mk d.name (d.subdirs ++ [(resolve_below toks (create_dir tok)).1]) d.files,
        d.dir_count :: (resolve_below toks (create_dir tok)).2)

/-! ## Definitions that follow the specification -/

/-- File record as the specification words it: the line `FILE ` + path + name,
the content verbatim, one extra newline exactly when the content is non-empty
and does not end in a newline, and the line `END`. -/
def spec_file_record (path : CStr) (f : File) : CStr :=
  "FILE ".toList ++ (path ++ f.name) ++ "\n".toList ++ f.content ++
    (if f.content ≠ [] ∧ f.content.getLast? ≠ some '\n' then "\n".toList else []) ++
    "END\n".toList

mutual
/-- Serialized text as the specification words it: for each child directory in
stored order the line `DIR ` + path + name + `/` followed by the output for the
child under the extended path, then the file records in stored order. -/
def spec_serialize : Directory → CStr → CStr
  | Directory.mk _ subdirs files, path =>
    spec_serialize_dirs subdirs path ++ files.flatMap (spec_file_record path)
/-- The directory part of `spec_serialize`. -/
def spec_serialize_dirs : List Directory → CStr → CStr
  | [], _ => []
  | d :: ds, path =>
    "DIR ".toList ++ (path ++ d.name ++ ['/']) ++ "\n".toList ++
      spec_serialize d (path ++ d.name ++ ['/']) ++ spec_serialize_dirs ds path
end

mutual
/-- Every path the serializer formats below `path` fits the 1024-byte buffer
`fullpath`: it has at most 1023 bytes. -/
def paths_fit : Directory → CStr → Bool
  | Directory.mk _ subdirs files, path =>
    paths_fit_dirs subdirs path && files.all (fun f => (path ++ f.name).length ≤ 1023)
/-- The directory part of `paths_fit`. -/
def paths_fit_dirs : List Directory → CStr → Bool
  | [], _ => true
  | d :: ds, path =>
    (path ++ d.name ++ ['/']).length ≤ 1023 && paths_fit d (path ++ d.name ++ ['/']) &&
      paths_fit_dirs ds path
end

/-- The non-empty `/`-separated segments of a path, in the words of the
specification: split on `/`, ignore empty segments. -/
def path_segments (path : CStr) : List CStr :=
  (path.splitOn '/').filter (fun seg => !seg.isEmpty)

/-! ## Conditions of the round trip -/

/-- The lines of a text, each with its closing newline (the last one without,
when the text does not end in a newline). -/
def content_lines : CStr → List CStr
  | [] => []
  | c :: cs =>
    if c = '\n' then ['\n'] :: content_lines cs
    else
      match content_lines cs with
      | [] => [[c]]
      | l :: ls => (c :: l) :: ls

/-- A directory name the persisted format can carry: non-empty, without `/`
and newline, at most 63 bytes. -/
def dir_name_ok (n : CStr) : Bool :=
  !n.isEmpty && !n.contains '/' && !n.contains '\n' && decide (n.length ≤ 63)

/-- A file name the persisted format can carry: without `/` and newline, at
most 63 bytes. -/
def file_name_ok (n : CStr) : Bool :=
  !n.contains '/' && !n.contains '\n' && decide (n.length ≤ 63)

/-- A file content the persisted format can carry: at most `MAX_CONTENT - 2`
bytes, empty or closed by a newline, and no line of it begins with `END`. -/
def content_ok (c : CStr) : Bool :=
  decide (c.length + 2 ≤ MAX_CONTENT) && (c.isEmpty || c.getLast? == some '\n') &&
    (content_lines c).all (fun l => !strncmp_eq l ['E', 'N', 'D'])

/-- A file the persisted format can carry below `path`. -/
def file_ok (path : CStr) (f : File) : Bool :=
  file_name_ok f.name && decide ((path ++ f.name).length ≤ 1023) && content_ok f.content

mutual
/-- The tree below the directory with absolute path `path` can be carried by
the persisted format: in every directory the child directories have distinct
names, every name is free of `/` and newline and has at most 63 bytes
(directory names are non-empty), every formatted path has at most 1023 bytes,
and every content satisfies `content_ok`. -/
def roundtrip_ok : Directory → CStr → Bool
  | Directory.mk _ subdirs files, path =>
    decide (subdirs.map Directory.name).Nodup && roundtrip_ok_dirs subdirs path &&
      files.all (file_ok path)
/-- The directory part of `roundtrip_ok`. -/
def roundtrip_ok_dirs : List Directory → CStr → Bool
  | [], _ => true
  | d :: ds, path =>
    dir_name_ok d.name && decide ((path ++ d.name ++ ['/']).length ≤ 1023) &&
      roundtrip_ok d (path ++ d.name ++ ['/']) && roundtrip_ok_dirs ds path
end

/-- The absolute path the serializer formats for the directory reached from
the root through the names `ns`: `/`, then every name followed by `/`. -/
def abs_path (ns : List CStr) : CStr :=
  '/' :: ns.flatMap (fun n => n ++ ['/'])

/-- The index path `ptr` leads from `d` through child directories that are,
at every level, the first child with the name given by `ns`. -/
def walks : List CStr → List Nat → Directory → Prop
  | [], [], _ => True
  | n :: ns, i :: ptr, d =>
    find_subdir n d.subdirs = some i ∧ ∃ c, d.subdirs[i]? = some c ∧ walks ns ptr c
  | _, _, _ => False

/-- The names on the way to a directory are non-empty and free of `/` and
newline. -/
def names_ok (ns : List CStr) : Prop := ∀ n ∈ ns, n ≠ [] ∧ '/' ∉ n ∧ '\n' ∉ n

/-! ## Reading the disk file record by record -/

/-- The loops of `load_filesystem` are back in the outer loop when the lines
are used up: `true` in the first argument means that the scan is inside the
content loop of a `FILE` record. -/
def outer_at_end : Bool → List CStr → Bool
  | b, [] => !b
  | false, l :: ls =>
    if strncmp_eq l ['D', 'I', 'R', ' '] then outer_at_end false ls
    else if strncmp_eq l ['F', 'I', 'L', 'E', ' '] then outer_at_end true ls
    else outer_at_end false ls
  | true, l :: ls =>
    if strncmp_eq l ['E', 'N', 'D'] then outer_at_end false ls else outer_at_end true ls

/-- The content the inner loop of `load_filesystem` has accumulated after the
given lines, none of which ends the loop: a line is appended when it still
fits. -/
def accumulate_content : CStr → List CStr → CStr
  | content, [] => content
  | content, line :: rest =>
    if content.length + line.length + 1 < MAX_CONTENT then accumulate_content (content ++ line) rest
    else accumulate_content content rest

/-! ## Loading the same text twice -/

/-- What one record of the disk file makes the loader do: resolve a directory
path, or store a file with a path and a content. -/
inductive LoadOp where
  | dir (path : CStr)
  | file (path content : CStr)

/-- The effect of one record on the tree, as in `load_filesystem`. -/
def apply_load_op (r : Directory) : LoadOp → Directory
  | LoadOp.dir p => (find_or_create_dir_by_path p r).1
  | LoadOp.file p c => load_file_record p c r

mutual
/-- The records the outer loop of `load_filesystem` finds in the lines;
`none` when a record line carries no path. -/
def parse_lines : List CStr → Option (List LoadOp)
  | [] => some []
  | line :: rest =>
    if strncmp_eq line ['D', 'I', 'R', ' '] then
      match sscanf_line (line.drop 4) with
      | none => none
      | some path => (parse_lines rest).map (fun ops => LoadOp.dir path :: ops)
    else if strncmp_eq line ['F', 'I', 'L', 'E', ' '] then
      match sscanf_line (line.drop 5) with
      | none => none
      | some path => parse_content path [] rest
    else parse_lines rest
/-- The records found from inside the content loop of a `FILE` record. -/
def parse_content (path content : CStr) : List CStr → Option (List LoadOp)
  | [] => some [LoadOp.file path content]
  | line :: rest =>
    if strncmp_eq line ['E', 'N', 'D'] then
      (parse_lines rest).map (fun ops => LoadOp.file path content :: ops)
    else if content.length + line.length + 1 < MAX_CONTENT then
      parse_content path (content ++ line) rest
    else parse_content path content rest
end

/-- The directory path a record resolves: the path of a `DIR` record, the part
before the last `/` of the path of a `FILE` record (nothing for a `FILE` path
without `/`). -/
def load_op_dir_path : LoadOp → CStr
  | LoadOp.dir p => p
  | LoadOp.file p _ =>
    match strrchr_split '/' p with
    | none => []
    | some r => r.1

/-- The tokens the resolver walks for a record. -/
def load_op_tokens : LoadOp → List CStr
  | LoadOp.dir p => strtok_all '/' (p.take 1023)
  | LoadOp.file p _ =>
    match strrchr_split '/' p with
    | none => []
    | some r => strtok_all '/' ((if r.1.length > 0 then r.1 else ['/']).take 1023)

/-- The file a record stores, if any. -/
def load_op_file : LoadOp → Option File
  | LoadOp.dir _ => none
  | LoadOp.file p c =>
    match strrchr_split '/' p with
    | none => none
    | some r => some (create_file r.2 c)

/-- Resolve the tokens below `r`, creating what is missing, and store the
file, if there is one, in the directory reached. -/
def apply_step (r : Directory) (toks : List CStr) (f : Option File) : Directory :=
  match f with
  | none => (resolve_below toks r).1
  | some nf => modifyDir (push_file nf) (resolve_below toks r).1 (resolve_below toks r).2

mutual
/-- The tree `t` with, in every directory that `s` also has at the same
position, the files of `s` appended to its own. -/
def merge_files : Directory → Directory → Directory
  | Directory.mk n ts fs, s => Directory.mk n (merge_files_list ts s.subdirs) (fs ++ s.files)
/-- Children of `merge_files`, position by position. -/
def merge_files_list : List Directory → List Directory → List Directory
  | [], _ => []
  | t :: ts, [] => t :: ts
  | t :: ts, s :: ss => merge_files t s :: merge_files_list ts ss
end

mutual
/-- The tree in which every directory holds its file list twice in a row. -/
def double_files : Directory → Directory
  | Directory.mk n ts fs => Directory.mk n (double_files_list ts) (fs ++ fs)
/-- Children of `double_files`. -/
def double_files_list : List Directory → List Directory
  | [] => []
  | t :: ts => double_files t :: double_files_list ts
end

mutual
/-- The directory structure alone: the tree without its files. -/
def strip_files : Directory → Directory
  | Directory.mk n ts _ => Directory.mk n (strip_files_list ts) []
/-- Children of `strip_files`. -/
def strip_files_list : List Directory → List Directory
  | [] => []
  | t :: ts => strip_files t :: strip_files_list ts
end

mutual
/-- The directories of `s` are directories of `t`, at the same positions and
with the same names; `t` may have more children, and files are not compared. -/
def sub_tree : Directory → Directory → Prop
  | Directory.mk n ss _, t => n = t.name ∧ sub_tree_list ss t.subdirs
/-- Children of `sub_tree`, position by position. -/
def sub_tree_list : List Directory → List Directory → Prop
  | [], _ => True
  | _ :: _, [] => False
  | s :: ss, t :: ts => sub_tree s t ∧ sub_tree_list ss ts
end

/-! ## Parent pointers: the invariant -/

mutual
/-- The tree without addresses and parent pointers. -/
def erase : PDir → Directory
  | PDir.mk _ _ n subdirs files => Directory.mk n (erase_list subdirs) files
/-- Children of `erase`. -/
def erase_list : List PDir → List Directory
  | [] => []
  | d :: ds => erase d :: erase_list ds
end

mutual
/-- Every child, at every depth, records as parent the address of the
directory whose child list holds it. -/
def parent_ok : PDir → Prop
  | PDir.mk a _ _ subdirs _ => parent_ok_list a subdirs
/-- The children of the directory at address `a`. -/
def parent_ok_list (a : Nat) : List PDir → Prop
  | [] => True
  | c :: cs => (c.parent = some a ∧ parent_ok c) ∧ parent_ok_list a cs
end

mutual
/-- The addresses of all directories of a tree. -/
def addrs : PDir → List Nat
  | PDir.mk a _ _ subdirs _ => a :: addrs_list subdirs
/-- The addresses below a child list. -/
def addrs_list : List PDir → List Nat
  | [] => []
  | c :: cs => addrs c ++ addrs_list cs
end

/-- The invariant of the tree: the root has no parent, every other directory
has as parent the directory that holds it, and no two directories share an
address (all addresses are among those handed out). -/
def tree_inv (root : PDir) (next : Nat) : Prop :=
  root.parent = none ∧ parent_ok root ∧ (addrs root).Nodup ∧ ∀ a ∈ addrs root, a < next

/-! ## Registry records and capacity -/

/-- The record `load_installed_apps_from_vfs` registers for one file of
`/apps`: none unless the name ends in `.savapp` and the content gives a
non-empty name. -/
def savapp_record (f : File) : Option App :=
  if ext_is_savapp f.name = true ∧
      (parse_savapp_lines (strtok_all '\n' f.content) [] []).1.length > 0 then
    some { name := (parse_savapp_lines (strtok_all '\n' f.content) [] []).1.take 63,
           desc := (parse_savapp_lines (strtok_all '\n' f.content) [] []).2.1.take 255,
           code := (parse_savapp_lines (strtok_all '\n' f.content) [] []).2.2.take
             (MAX_CONTENT - 1),
           builtin := 0 }
  else none

mutual
/-- Every directory of the tree fits the arrays `subdirs[MAX_DIRS]` and
`files[MAX_FILES]`. -/
def within_bounds : Directory → Bool
  | Directory.mk _ subdirs files =>
    decide (subdirs.length ≤ MAX_DIRS) && decide (files.length ≤ MAX_FILES) &&
      within_bounds_list subdirs
/-- Children of `within_bounds`. -/
def within_bounds_list : List Directory → Bool
  | [] => true
  | d :: ds => within_bounds d && within_bounds_list ds
end

/-! ## Executions that stay inside the buffers and arrays

The unguarded copies and stores of the source are modelled without their
bounds, so the model follows the code only while they fit.  The predicates
below say when they do. -/

/-- The record fits the buffers of `load_filesystem`: its path fits
`char path[1024]` and, for a `FILE` record, the part after the last `/` fits
`char filename[256]`. -/
def load_op_fits : LoadOp → Bool
  | LoadOp.dir p => decide (p.length ≤ 1023)
  | LoadOp.file p _ =>
    decide (p.length ≤ 1023) &&
      (match strrchr_split '/' p with
      | none => true
      | some r => decide (r.2.length ≤ 255))

/-- Every record line of the text carries a path, and every record fits the
buffers of `load_filesystem`. -/
def text_fits (text : CStr) : Bool :=
  match parse_lines (fgets_all 8192 text []) with
  | none => false
  | some ops => ops.all load_op_fits

/-- The text an operation reads fits the buffers. -/
def pop_text_fits : POp → Bool
  | POp.load (some text) => text_fits text
  | _ => true

/-- Every operation of the sequence returns, reads a text that fits the
buffers, and leaves every directory with at most `MAX_DIRS` subdirectories and
`MAX_FILES` files: as the operations that add children never remove one, no
store went past an array. -/
def pops_fit : List POp → PState → Bool
  | [], _ => true
  | op :: ops, st =>
    match run_pop st op with
    | none => false
    | some st2 => pop_text_fits op && within_bounds (erase st2.root) && pops_fit ops st2

/-! ## Concrete scenarios -/

/-- A name of 63 bytes, the longest `create_dir` stores. -/
def name63 : CStr := List.replicate 63 'a'

/-- The absolute path of a directory nested below `k` directories that are all
called `name63`: `/` followed by `k` times `name63/`. -/
def deep_path (k : Nat) : CStr := '/' :: (List.replicate k (name63 ++ ['/'])).flatten

/-- The state after `mkdir docs`, `cd docs`, `write a.txt` with the text
`hello` closed by `END`, and `cd ..`, from the initial state. -/
def docs_state : State :=
  cmd_cd "..".toList
    (cmd_write "a.txt".toList "\nhello\nEND\n".toList
      (cmd_cd "docs".toList (cmd_mkdir "docs".toList init_state)))

/-- A root that holds one file named `x` and no directory. -/
def file_x_root : Directory :=
  Directory.mk ['/'] [] [⟨['x'], "text\n".toList⟩]

/-- The state after `write note` with the lines `line1`, `line2`, `END`
followed by `write note` with the lines `overwritten`, `END`. -/
def note_state : State :=
  cmd_write "note".toList "\noverwritten\nEND\n".toList
    (cmd_write "note".toList "\nline1\nline2\nEND\n".toList init_state)

/-- A current directory that holds the files `a`, `b`, `a` in this order. -/
def files_aba_state : State :=
  { root := Directory.mk ['/'] [Directory.mk ['d'] [] []]
      [⟨['a'], ['1']⟩, ⟨['b'], ['2']⟩, ⟨['a'], ['3']⟩],
    current_dir := [], apps := [] }

/-- The commands of the `docs` scenario. -/
def docs_ops : List Op :=
  [Op.mkdir "docs".toList, Op.cd "docs".toList, Op.write "a.txt".toList "\nhello\nEND\n".toList,
    Op.cd "..".toList]

/-- A current directory `/` that holds the directories `x`, `y`, `x`, the
first `x` with a nested directory and files, and one file. -/
def dirs_xyx_state : State :=
  { root := Directory.mk ['/']
      [Directory.mk ['x'] [Directory.mk ['n'] [] [⟨['g'], ['1']⟩]] [⟨['f'], ['2']⟩],
        Directory.mk ['y'] [] [], Directory.mk ['x'] [] [⟨['h'], ['3']⟩]]
      [⟨['k'], ['4']⟩],
    current_dir := [], apps := [] }

/-- The state after `install hello`, `install simple-notepad`, `cd apps`,
`rm hello.savapp` and `uninstall snotepad`, from startup. -/
def uninstall_scenario : State :=
  uninstall_app_command "snotepad".toList
    (cmd_rm "hello.savapp".toList
      (cmd_cd "apps".toList
        (install_app_command "simple-notepad".toList
          (install_app_command "hello".toList startup_state))))
/-- A state whose `/apps` directory holds the single file `hello.savapp` with
the content `APP_NAME=hello`, `APP_DESC=x`, `CODE=PRINT:hi`, `ENDAPP`, and
whose registry is empty. -/
def hello_app_state : State :=
  { root := Directory.mk ['/']
      [Directory.mk "apps".toList []
        [⟨"hello.savapp".toList, "APP_NAME=hello\nAPP_DESC=x\nCODE=PRINT:hi\nENDAPP\n".toList⟩]] [],
    current_dir := [], apps := [] }

/-- A persisted text of one record: `DIR /` followed by a name of 64 bytes `a`
and the closing `/`. -/
def long_dir_text : CStr := "DIR /".toList ++ List.replicate 64 'a' ++ "/\n".toList

/-- A persisted text with the directory `docs` and the file `a.txt` in it. -/
def docs_text : CStr := "DIR /\nDIR /docs/\nFILE /docs/a.txt\nhello\nEND\n".toList

/-- The commands `mkdir` and `cd` with a name of 63 bytes, `k` times over: a
chain of `k` nested directories. -/
def chain_ops : Nat → List POp
  | 0 => []
  | k + 1 => chain_ops k ++ [POp.mkdir name63, POp.cd name63]

/-- The state after `chain_ops k` from the initial state. -/
def chain_state : Nat → PState
  | 0 => init_pstate
  | k + 1 => cmd_cd_p name63 (cmd_mkdir_p name63 (chain_state k))

/-- The operations `mkdir docs`, `cd docs`, `mkdir sub` and a load of a text
with the record `DIR /docs/sub/deep/`. -/
def docs_pops : List POp :=
  [POp.mkdir "docs".toList, POp.cd "docs".toList, POp.mkdir "sub".toList,
    POp.load (some "DIR /docs/sub/deep/\n".toList)]

/-- A root with 128 subdirectories named `d` and 256 files named `f`: both
arrays are full. -/
def full_root : Directory :=
  Directory.mk ['/'] (List.replicate 128 (Directory.mk ['d'] [] []))
    (List.replicate 256 ⟨['f'], []⟩)

/-- The state with `full_root` as tree and as current directory. -/
def full_state : State := { root := full_root, current_dir := [], apps := [] }

/-- A state whose directory `/apps` holds 256 files named `f`. -/
def full_apps_state : State :=
  { root := Directory.mk ['/'] [Directory.mk "apps".toList [] (List.replicate 256 ⟨['f'], []⟩)] [],
    current_dir := [], apps := [] }

/-- The commands `rmdir apps`, 128 times `mkdir d`, and `install hello`. -/
def fill_root_cmds : List ShellCmd :=
  ShellCmd.rmdir "apps".toList :: List.replicate 128 (ShellCmd.mkdir ['d']) ++
    [ShellCmd.install "hello".toList]

/-- The commands `rmdir apps`, 128 times `mkdir d`, and `write f` with the
text `text`: the root then has 128 subdirectories and one file. -/
def full_dirs_session : List ShellCmd :=
  ShellCmd.rmdir "apps".toList :: List.replicate 128 (ShellCmd.mkdir ['d']) ++
    [ShellCmd.write ['f'] "\ntext\nEND\n".toList]

/-- The state of `main` after `init_builtin_apps`, with a tree whose `/apps`
holds 253 files `a.savapp` with the content `APP_NAME=a`. -/
def many_apps_state : State :=
  { root := Directory.mk ['/']
      [Directory.mk "apps".toList []
        (List.replicate 253 ⟨"a.savapp".toList, "APP_NAME=a\n".toList⟩)] [],
    current_dir := [], apps := init_builtin_apps [] }

/-- A disk text with 253 records of the file `/apps/a.savapp` with the content
`APP_NAME=a`. -/
def many_apps_text : CStr :=
  (List.replicate 253 "FILE /apps/a.savapp\nAPP_NAME=a\nEND\n".toList).flatten

/-! # Theorems -/

/-! ## Directory pointers -/

@[simp] theorem Directory.mk_eta (d : Directory) : Directory.mk d.name d.subdirs d.files = d := by
  cases d; rfl

@[simp] theorem Directory.name_mk (n : CStr) (s : List Directory) (f : List File) :
    (Directory.mk n s f).name = n := rfl

@[simp] theorem Directory.subdirs_mk (n : CStr) (s : List Directory) (f : List File) :
    (Directory.mk n s f).subdirs = s := rfl

@[simp] theorem Directory.files_mk (n : CStr) (s : List Directory) (f : List File) :
    (Directory.mk n s f).files = f := rfl

@[simp] theorem getDir_nil (d : Directory) : getDir d [] = some d := rfl

theorem getDir_cons (d : Directory) (i : Nat) (p : List Nat) :
    getDir d (i :: p) = (d.subdirs[i]?).bind (fun c => getDir c p) := by
  simp only [getDir]
  cases d.subdirs[i]? <;> rfl

theorem getDir_append (d : Directory) (p q : List Nat) :
    getDir d (p ++ q) = (getDir d p).bind (fun c => getDir c q) := by
  induction p generalizing d with
  | nil => simp
  | cons i p ih =>
    simp only [List.cons_append, getDir_cons]
    cases d.subdirs[i]? with
    | none => rfl
    | some c => simpa using ih c

@[simp] theorem modifyDir_nil (f : Directory → Directory) (d : Directory) :
    modifyDir f d [] = f d := rfl

theorem modifyDir_append (f : Directory → Directory) (d : Directory) (p q : List Nat) :
    modifyDir f d (p ++ q) = modifyDir (fun c => modifyDir f c q) d p := by
  induction p generalizing d with
  | nil => simp
  | cons i p ih =>
    simp only [List.cons_append, modifyDir]
    cases d.subdirs[i]? with
    | none => rfl
    | some c => simp [ih c]

theorem getDir_modifyDir (f : Directory → Directory) (root : Directory) (p : List Nat)
    (d : Directory) (h : getDir root p = some d) :
    getDir (modifyDir f root p) p = some (f d) := by
  induction p generalizing root with
  | nil => simp at h; simp [h]
  | cons i p ih =>
    simp only [getDir, modifyDir] at h ⊢
    cases hc : root.subdirs[i]? with
    | none => simp [hc] at h
    | some c =>
      simp only [hc] at h ⊢
      have hi : i < root.subdirs.length := by
        rcases List.getElem?_eq_some_iff.mp hc with ⟨hi, _⟩
        exact hi
      simp [List.getElem?_set_self hi, ih c h]

theorem modifyDir_congr (f g : Directory → Directory) (root : Directory) (p : List Nat)
    (d : Directory) (h : getDir root p = some d) (hfg : f d = g d) :
    modifyDir f root p = modifyDir g root p := by
  induction p generalizing root with
  | nil => simp at h; simp [h, hfg]
  | cons i p ih =>
    simp only [getDir, modifyDir] at h ⊢
    cases hc : root.subdirs[i]? with
    | none => rfl
    | some c =>
      simp only [hc] at h ⊢
      rw [ih c h]

theorem modifyDir_self (f : Directory → Directory) (root : Directory) (p : List Nat)
    (d : Directory) (h : getDir root p = some d) (hf : f d = d) :
    modifyDir f root p = root := by
  induction p generalizing root with
  | nil => simp at h; simp [h, hf]
  | cons i p ih =>
    simp only [getDir, modifyDir] at h ⊢
    cases hc : root.subdirs[i]? with
    | none => rfl
    | some c =>
      simp only [hc] at h ⊢
      rw [ih c h]
      have : root.subdirs.set i c = root.subdirs := by
        apply List.ext_getElem?
        intro j
        by_cases hj : i = j
        · subst hj
          rcases List.getElem?_eq_some_iff.mp hc with ⟨hi, _⟩
          simp [List.getElem?_set_self hi, hc]
        · simp [List.getElem?_set_ne hj]
      simp [this]

theorem modifyDir_modifyDir (f g : Directory → Directory) (root : Directory) (p : List Nat) :
    modifyDir g (modifyDir f root p) p = modifyDir (fun d => g (f d)) root p := by
  induction p generalizing root with
  | nil => rfl
  | cons i p ih =>
    simp only [modifyDir]
    cases hc : root.subdirs[i]? with
    | none => simp [modifyDir, hc]
    | some c =>
      rcases List.getElem?_eq_some_iff.mp hc with ⟨hi, _⟩
      simp [modifyDir, List.getElem?_set_self hi, ih c]

/-! ## Path resolver: the loop and its recursive form -/

theorem find_subdir_some (tok : CStr) (ds : List Directory) (i : Nat)
    (h : find_subdir tok ds = some i) :
    ∃ c, ds[i]? = some c ∧ c.name = tok ∧ ∀ j, j < i → ∀ c', ds[j]? = some c' → c'.name ≠ tok := by
  induction ds generalizing i with
  | nil => simp [find_subdir] at h
  | cons d ds ih =>
    simp only [find_subdir] at h
    by_cases hd : d.name = tok
    · simp only [hd, if_true, Option.some.injEq] at h
      subst h
      exact ⟨d, by simp, hd, by intro j hj; omega⟩
    · simp only [hd, if_false, Option.map_eq_some'] at h
      obtain ⟨k, hk, rfl⟩ := h
      obtain ⟨c, hc, hn, hlt⟩ := ih k hk
      refine ⟨c, by simpa using hc, hn, ?_⟩
      intro j hj c' hc'
      cases j with
      | zero => simp at hc'; rw [← hc']; exact hd
      | succ j => exact hlt j (by omega) c' (by simpa using hc')

theorem find_subdir_none (tok : CStr) (ds : List Directory) :
    find_subdir tok ds = none ↔ ∀ c ∈ ds, c.name ≠ tok := by
  induction ds with
  | nil => simp [find_subdir]
  | cons d ds ih =>
    simp only [find_subdir, List.mem_cons, forall_eq_or_imp]
    by_cases hd : d.name = tok
    · simp [hd]
    · simp [hd, ih]

theorem foldl_find_or_create_step (toks : List CStr) (root : Directory) (cur : List Nat)
    (d : Directory) (h : getDir root cur = some d) :
    toks.foldl find_or_create_step (root, cur) =
      (modifyDir (fun _ => (resolve_below toks d).1) root cur, cur ++ (resolve_below toks d).2) := by
  induction toks generalizing root cur d with
  | nil =>
    simp only [List.foldl_nil, resolve_below, List.append_nil]
    rw [modifyDir_self _ root cur d h rfl]
  | cons tok toks ih =>
    simp only [List.foldl_cons]
    cases hf : find_subdir tok d.subdirs with
    | some i =>
      obtain ⟨c, hc, -, -⟩ := find_subdir_some tok d.subdirs i hf
      have hstep : find_or_create_step (root, cur) tok = (root, cur ++ [i]) := by
        simp [find_or_create_step, h, hf]
      have hget : getDir root (cur ++ [i]) = some c := by
        simp [getDir_append, h, getDir_cons, hc]
      rw [hstep, ih root (cur ++ [i]) c hget, modifyDir_append]
      simp only [resolve_below, hf, hc, List.append_assoc, List.singleton_append]
      congr 1
      apply modifyDir_congr _ _ root cur d h
      simp [modifyDir, hc]
    | none =>
      have hstep : find_or_create_step (root, cur) tok =
          (modifyDir (push_subdir (create_dir tok)) root cur, cur ++ [d.dir_count]) := by
        simp [find_or_create_step, h, hf]
      have hget : getDir (modifyDir (push_subdir (create_dir tok)) root cur)
          (cur ++ [d.dir_count]) = some (create_dir tok) := by
        simp [getDir_append, getDir_modifyDir _ root cur d h, getDir_cons, push_subdir,
          Directory.dir_count]
      rw [hstep, ih _ (cur ++ [d.dir_count]) (create_dir tok) hget, modifyDir_append,
        modifyDir_modifyDir]
      simp only [resolve_below, hf, List.append_assoc, List.singleton_append]
      congr 1
      apply modifyDir_congr _ _ root cur d h
      simp [modifyDir, push_subdir, Directory.dir_count]

/-- The tokens `find_or_create_dir_by_path` walks: those of the first 1023
bytes of the path, after one leading `/` has been skipped. -/
theorem find_or_create_dir_by_path_eq (path : CStr) (root : Directory) :
    find_or_create_dir_by_path path root =
      if path = [] ∨ path = ['/'] then (root, [])
      else resolve_below
        (strtok_all '/' (if (path.take 1023).head? = some '/' then (path.take 1023).tail
          else path.take 1023)) root := by
  unfold find_or_create_dir_by_path
  by_cases h1 : path = []
  · simp [h1]
  · by_cases h2 : path = ['/']
    · simp [h2]
    · simp only [h1, h2, if_false, or_self]
      rw [foldl_find_or_create_step _ root [] root rfl]
      simp

/-! ## Tokens and segments -/

theorem splitOn_eq_strtok_scan (s : CStr) :
    ∃ rest, s.splitOn '/' = (strtok_scan '/' s).1 :: rest ∧
      rest.filter (fun seg => !seg.isEmpty) = (strtok_scan '/' s).2 := by
  induction s with
  | nil => exact ⟨[], by simp [List.splitOn, strtok_scan], rfl⟩
  | cons x xs ih =>
    obtain ⟨rest, h1, h2⟩ := ih
    simp only [List.splitOn] at h1 ⊢
    rw [List.splitOnP_cons, h1]
    by_cases hx : x = '/'
    · subst hx
      refine ⟨(strtok_scan '/' xs).1 :: rest, by simp [strtok_scan], ?_⟩
      simp only [strtok_scan, if_true, List.filter_cons, h2]
      cases h : (strtok_scan '/' xs).1 <;> simp
    · refine ⟨rest, by simp [strtok_scan, hx], ?_⟩
      simp [strtok_scan, hx, h2]

theorem strtok_all_eq_path_segments (s : CStr) : strtok_all '/' s = path_segments s := by
  obtain ⟨rest, h1, h2⟩ := splitOn_eq_strtok_scan s
  simp only [strtok_all, path_segments, h1, List.filter_cons, h2]
  cases h : (strtok_scan '/' s).1 <;> simp

theorem strtok_all_slash_cons (xs : CStr) : strtok_all '/' ('/' :: xs) = strtok_all '/' xs := by
  simp [strtok_all, strtok_scan]

theorem strtok_all_skip_slash (tmp : CStr) :
    strtok_all '/' (if tmp.head? = some '/' then tmp.tail else tmp) = strtok_all '/' tmp := by
  cases tmp with
  | nil => simp
  | cons x xs =>
    by_cases hx : x = '/'
    · subst hx; simp [strtok_all_slash_cons]
    · simp [hx]

/-- `find_or_create_dir_by_path` resolves the tokens of the first 1023 bytes
of its argument, starting at the root. -/
theorem find_or_create_dir_by_path_resolve (path : CStr) (root : Directory) :
    find_or_create_dir_by_path path root =
      resolve_below (strtok_all '/' (path.take 1023)) root := by
  rw [find_or_create_dir_by_path_eq, strtok_all_skip_slash]
  by_cases h : path = [] ∨ path = ['/']
  · rcases h with h | h <;> subst h <;> rfl
  · simp [h]

theorem strtok_scan_take (s : CStr) (n : Nat) :
    (strtok_scan '/' (s.take n)).1.length ≤ (strtok_scan '/' s).1.length ∧
      ∀ t ∈ (strtok_scan '/' (s.take n)).2, ∃ u ∈ (strtok_scan '/' s).2, t.length ≤ u.length := by
  induction s generalizing n with
  | nil => simp [strtok_scan]
  | cons x xs ih =>
    cases n with
    | zero => simp [strtok_scan]
    | succ n =>
      obtain ⟨h1, h2⟩ := ih n
      simp only [List.take_succ_cons, strtok_scan]
      by_cases hx : x = '/'
      · simp only [hx, if_true, List.length_nil, le_refl, true_and]
        intro t ht
        by_cases he : (strtok_scan '/' (xs.take n)).1 = []
        · simp only [he, if_true] at ht
          obtain ⟨u, hu, hle⟩ := h2 t ht
          refine ⟨u, ?_, hle⟩
          split
          · exact hu
          · exact List.mem_cons_of_mem _ hu
        · simp only [he, if_false, List.mem_cons] at ht
          rcases ht with ht | ht
          · subst ht
            have hne : (strtok_scan '/' xs).1 ≠ [] := by
              intro h0
              rw [h0] at h1
              exact he (List.length_eq_zero.mp (Nat.le_zero.mp h1))
            exact ⟨(strtok_scan '/' xs).1, by simp [hne], h1⟩
          · obtain ⟨u, hu, hle⟩ := h2 t ht
            refine ⟨u, ?_, hle⟩
            split
            · exact hu
            · exact List.mem_cons_of_mem _ hu
      · simp only [hx, if_false, List.length_cons]
        exact ⟨by omega, h2⟩

theorem strtok_all_take_bound (s : CStr) (n k : Nat)
    (h : ∀ t ∈ strtok_all '/' s, t.length ≤ k) :
    ∀ t ∈ strtok_all '/' (s.take n), t.length ≤ k := by
  obtain ⟨h1, h2⟩ := strtok_scan_take s n
  intro t ht
  simp only [strtok_all] at h ht
  have hu : ∀ u ∈ (strtok_scan '/' s).2, u.length ≤ k := by
    intro u hu
    apply h
    split
    · exact hu
    · exact List.mem_cons_of_mem _ hu
  have hhead : (strtok_scan '/' s).1.length ≤ k := by
    by_cases he : (strtok_scan '/' s).1 = []
    · simp [he]
    · apply h
      simp [he]
  by_cases he : (strtok_scan '/' (s.take n)).1 = []
  · simp only [he, if_true] at ht
    obtain ⟨u, hu', hle⟩ := h2 t ht
    exact le_trans hle (hu u hu')
  · simp only [he, if_false, List.mem_cons] at ht
    rcases ht with ht | ht
    · subst ht; exact le_trans h1 hhead
    · obtain ⟨u, hu', hle⟩ := h2 t ht
      exact le_trans hle (hu u hu')

/-! ## Path resolver: idempotence -/

theorem resolve_below_name (toks : List CStr) (d : Directory) :
    (resolve_below toks d).1.name = d.name := by
  cases toks with
  | nil => rfl
  | cons tok toks =>
    simp only [resolve_below]
    cases find_subdir tok d.subdirs with
    | none => rfl
    | some i =>
      simp only []
      cases d.subdirs[i]? <;> rfl

theorem find_subdir_set (tok : CStr) (ds : List Directory) (i : Nat) (c : Directory)
    (h : find_subdir tok ds = some i) (hc : c.name = tok) :
    find_subdir tok (ds.set i c) = some i := by
  induction ds generalizing i with
  | nil => simp [find_subdir] at h
  | cons d ds ih =>
    simp only [find_subdir] at h
    by_cases hd : d.name = tok
    · simp only [hd, if_true, Option.some.injEq] at h
      subst h
      simp [find_subdir, hc]
    · simp only [hd, if_false, Option.map_eq_some'] at h
      obtain ⟨k, hk, rfl⟩ := h
      simp [find_subdir, hd, ih k hk]

theorem find_subdir_append_new (tok : CStr) (ds : List Directory) (c : Directory)
    (h : find_subdir tok ds = none) (hc : c.name = tok) :
    find_subdir tok (ds ++ [c]) = some ds.length := by
  induction ds with
  | nil => simp [find_subdir, hc]
  | cons d ds ih =>
    simp only [find_subdir] at h
    by_cases hd : d.name = tok
    · simp [hd] at h
    · simp only [hd, if_false, Option.map_eq_none'] at h
      simp [find_subdir, hd, ih h]

theorem resolve_below_idem (toks : List CStr) (d : Directory)
    (h : ∀ t ∈ toks, t.length ≤ 63) :
    resolve_below toks (resolve_below toks d).1 = resolve_below toks d := by
  induction toks generalizing d with
  | nil => rfl
  | cons tok toks ih =>
    have htok : tok.length ≤ 63 := h tok (List.mem_cons_self _ _)
    have hrest : ∀ t ∈ toks, t.length ≤ 63 := fun t ht => h t (List.mem_cons_of_mem _ ht)
    cases hf : find_subdir tok d.subdirs with
    | some i =>
      obtain ⟨c, hc, hn, -⟩ := find_subdir_some tok d.subdirs i hf
      have hi : i < d.subdirs.length := (List.getElem?_eq_some_iff.mp hc).1
      have hname : (resolve_below toks c).1.name = tok := by rw [resolve_below_name, hn]
      have h1 : resolve_below (tok :: toks) d =
          (Directory.mk d.name (d.subdirs.set i (resolve_below toks c).1) d.files,
            i :: (resolve_below toks c).2) := by
        simp [resolve_below, hf, hc]
      rw [h1]
      simp [resolve_below, find_subdir_set tok d.subdirs i _ hf hname,
        List.getElem?_set_self hi, ih c hrest]
    | none =>
      have hname : (resolve_below toks (create_dir tok)).1.name = tok := by
        rw [resolve_below_name]
        simp only [create_dir, Directory.name_mk, MAX_NAME]
        exact List.take_of_length_le htok
      have h1 : resolve_below (tok :: toks) d =
          (Directory.mk d.name (d.subdirs ++ [(resolve_below toks (create_dir tok)).1]) d.files,
            d.dir_count :: (resolve_below toks (create_dir tok)).2) := by
        simp [resolve_below, hf]
      rw [h1]
      simp [resolve_below, find_subdir_append_new tok d.subdirs _ hf hname,
        ih (create_dir tok) hrest, Directory.dir_count]

/-- C4, as stated, fails: with a path of 64 bytes `a` on the empty root, the
first call creates a directory (its name cut to 63 bytes) and returns child 0;
the second call does not find a child named by the 64-byte token, creates a
second directory and returns child 1. -/
theorem C4_counterexample :
    (find_or_create_dir_by_path (List.replicate 64 'a') init_state.root).2 = [0] ∧
    (find_or_create_dir_by_path (List.replicate 64 'a') init_state.root).1.dir_count = 1 ∧
    (find_or_create_dir_by_path (List.replicate 64 'a')
      (find_or_create_dir_by_path (List.replicate 64 'a') init_state.root).1).2 = [1] ∧
    (find_or_create_dir_by_path (List.replicate 64 'a')
      (find_or_create_dir_by_path (List.replicate 64 'a') init_state.root).1).1.dir_count = 2 := by
  decide!

/-- C4 (amended): for every tree and every path string whose non-empty
`/`-separated segments have at most 63 bytes (the length of a stored name),
calling `find_or_create_dir_by_path(p)` a second time returns the same
directory as the first call and leaves the tree unchanged: the second call
creates no node. -/
theorem C4_find_or_create_idempotent (root : Directory) (p : CStr)
    (h : ∀ seg ∈ path_segments p, seg.length ≤ 63) :
    find_or_create_dir_by_path p (find_or_create_dir_by_path p root).1 =
      find_or_create_dir_by_path p root := by
  rw [find_or_create_dir_by_path_resolve, find_or_create_dir_by_path_resolve]
  apply resolve_below_idem
  apply strtok_all_take_bound
  rw [strtok_all_eq_path_segments]
  exact h

/-- C4 witness: the path `/docs/new//deep` on the tree of the `docs` scenario. -/
theorem C4_witness :
    (∀ seg ∈ path_segments "/docs/new//deep".toList, seg.length ≤ 63) ∧
    find_or_create_dir_by_path "/docs/new//deep".toList
        (find_or_create_dir_by_path "/docs/new//deep".toList docs_state.root).1 =
      find_or_create_dir_by_path "/docs/new//deep".toList docs_state.root :=
  ⟨by decide, C4_find_or_create_idempotent docs_state.root "/docs/new//deep".toList (by decide)⟩

/-! ## Path resolver: equal segments -/

/-- C5, as stated, fails: `a` and 1023 bytes `/` followed by `a` have the same
non-empty segments, but only the first 1023 bytes of a path are copied into
`tmp`, so the second path has no token: on the empty root the first call
creates and returns child 0, the second returns the root and creates
nothing. -/
theorem C5_counterexample :
    path_segments ['a'] = path_segments (List.replicate 1023 '/' ++ ['a']) ∧
    find_or_create_dir_by_path ['a'] init_state.root ≠
      find_or_create_dir_by_path (List.replicate 1023 '/' ++ ['a']) init_state.root := by
  refine ⟨by decide!, fun h => ?_⟩
  have h2 := congrArg Prod.snd h
  revert h2
  decide!

/-- C5 (amended): for every tree and any two path strings of at most 1023
bytes whose sequences of non-empty `/`-separated segments are equal,
`find_or_create_dir_by_path` returns the same directory and produces the same
resulting tree; for the empty string and for `/` it returns the root and
changes nothing. -/
theorem C5_find_or_create_segments (root : Directory) (p q : CStr)
    (hp : p.length ≤ 1023) (hq : q.length ≤ 1023)
    (h : path_segments p = path_segments q) :
    find_or_create_dir_by_path p root = find_or_create_dir_by_path q root ∧
    find_or_create_dir_by_path [] root = (root, []) ∧
    find_or_create_dir_by_path ['/'] root = (root, []) := by
  refine ⟨?_, rfl, rfl⟩
  rw [find_or_create_dir_by_path_resolve, find_or_create_dir_by_path_resolve,
    List.take_of_length_le hp, List.take_of_length_le hq,
    strtok_all_eq_path_segments, strtok_all_eq_path_segments, h]

/-- C5 witness: `dir1/dir2` and `dir1//dir2` on the tree of the `docs`
scenario. -/
theorem C5_witness :
    path_segments "dir1/dir2".toList = path_segments "dir1//dir2".toList ∧
    find_or_create_dir_by_path "dir1/dir2".toList docs_state.root =
      find_or_create_dir_by_path "dir1//dir2".toList docs_state.root :=
  ⟨by decide,
    (C5_find_or_create_segments docs_state.root "dir1/dir2".toList "dir1//dir2".toList
      (by decide) (by decide) (by decide)).1⟩

/-! ## Path resolver: frame -/

theorem resolve_below_keeps (toks : List CStr) (d : Directory) (q : List Nat) (e : Directory)
    (h : getDir d q = some e) :
    ∃ e', getDir (resolve_below toks d).1 q = some e' ∧ e'.name = e.name ∧
      e'.files = e.files ∧ e.subdirs.length ≤ e'.subdirs.length := by
  induction toks generalizing d q e with
  | nil => exact ⟨e, h, rfl, rfl, le_refl _⟩
  | cons tok toks ih =>
    cases hf : find_subdir tok d.subdirs with
    | some i =>
      obtain ⟨c, hc, -, -⟩ := find_subdir_some tok d.subdirs i hf
      have hi : i < d.subdirs.length := (List.getElem?_eq_some_iff.mp hc).1
      have h1 : (resolve_below (tok :: toks) d).1 =
          Directory.mk d.name (d.subdirs.set i (resolve_below toks c).1) d.files := by
        simp [resolve_below, hf, hc]
      rw [h1]
      cases q with
      | nil =>
        simp only [getDir_nil, Option.some.injEq] at h
        subst h
        exact ⟨_, rfl, rfl, rfl, by simp⟩
      | cons j q =>
        rw [getDir_cons] at h ⊢
        by_cases hj : i = j
        · subst hj
          simp only [hc, Option.some_bind] at h
          simp only [Directory.subdirs_mk, List.getElem?_set_self hi, Option.some_bind]
          exact ih c q e h
        · simp only [Directory.subdirs_mk, List.getElem?_set_ne hj]
          exact ⟨e, h, rfl, rfl, le_refl _⟩
    | none =>
      have h1 : (resolve_below (tok :: toks) d).1 =
          Directory.mk d.name (d.subdirs ++ [(resolve_below toks (create_dir tok)).1]) d.files := by
        simp [resolve_below, hf]
      rw [h1]
      cases q with
      | nil =>
        simp only [getDir_nil, Option.some.injEq] at h
        subst h
        exact ⟨_, rfl, rfl, rfl, by simp⟩
      | cons j q =>
        rw [getDir_cons] at h ⊢
        cases hj : d.subdirs[j]? with
        | none => simp [hj] at h
        | some cj =>
          have hlt : j < d.subdirs.length := (List.getElem?_eq_some_iff.mp hj).1
          simp only [hj, Option.some_bind] at h
          simp only [Directory.subdirs_mk, List.getElem?_append_left hlt, hj, Option.some_bind]
          exact ⟨e, h, rfl, rfl, le_refl _⟩

theorem resolve_below_new_empty (toks : List CStr) (d : Directory) (q : List Nat)
    (e' : Directory) (h : getDir (resolve_below toks d).1 q = some e')
    (hq : getDir d q = none) : e'.files = [] := by
  induction toks generalizing d q e' with
  | nil => simp [resolve_below, hq] at h
  | cons tok toks ih =>
    cases hf : find_subdir tok d.subdirs with
    | some i =>
      obtain ⟨c, hc, -, -⟩ := find_subdir_some tok d.subdirs i hf
      have hi : i < d.subdirs.length := (List.getElem?_eq_some_iff.mp hc).1
      have h1 : (resolve_below (tok :: toks) d).1 =
          Directory.mk d.name (d.subdirs.set i (resolve_below toks c).1) d.files := by
        simp [resolve_below, hf, hc]
      rw [h1] at h
      cases q with
      | nil => simp at hq
      | cons j q =>
        rw [getDir_cons] at h hq
        by_cases hj : i = j
        · subst hj
          simp only [hc, Option.some_bind] at hq
          simp only [Directory.subdirs_mk, List.getElem?_set_self hi, Option.some_bind] at h
          exact ih c q e' h hq
        · simp only [Directory.subdirs_mk, List.getElem?_set_ne hj] at h
          rw [h] at hq
          exact absurd hq (by simp)
    | none =>
      have h1 : (resolve_below (tok :: toks) d).1 =
          Directory.mk d.name (d.subdirs ++ [(resolve_below toks (create_dir tok)).1]) d.files := by
        simp [resolve_below, hf]
      rw [h1] at h
      cases q with
      | nil => simp at hq
      | cons j q =>
        rw [getDir_cons] at h hq
        simp only [Directory.subdirs_mk] at h
        rcases Nat.lt_trichotomy j d.subdirs.length with hlt | heq | hgt
        · rw [List.getElem?_append_left hlt] at h
          rw [h] at hq
          exact absurd hq (by simp)
        · subst heq
          simp only [List.getElem?_concat_length, Option.some_bind] at h
          cases hg : getDir (create_dir tok) q with
          | none => exact ih (create_dir tok) q e' h hg
          | some e =>
            obtain ⟨e'', he'', -, hfiles, -⟩ := resolve_below_keeps toks (create_dir tok) q e hg
            rw [h] at he''
            cases he''
            rw [hfiles]
            cases q with
            | nil =>
              simp only [getDir_nil, Option.some.injEq] at hg
              rw [← hg]; rfl
            | cons k q => simp [getDir_cons, create_dir] at hg
        · rw [List.getElem?_eq_none (by simp; omega)] at h
          simp at h

theorem strtok_scan_no_delim (tok : CStr) (h : '/' ∉ tok) : strtok_scan '/' tok = (tok, []) := by
  induction tok with
  | nil => rfl
  | cons x xs ih =>
    simp only [List.mem_cons, not_or] at h
    simp [strtok_scan, ih h.2, Ne.symm h.1]

theorem strtok_all_single (tok : CStr) (h : '/' ∉ tok) (hne : tok ≠ []) :
    strtok_all '/' tok = [tok] := by
  simp [strtok_all, strtok_scan_no_delim tok h, hne]

/-- The frame of the resolver in the model, which follows the code while
every directory that receives a child has fewer than `MAX_DIRS` of them:
`find_or_create_dir_by_path` keeps every existing directory at its position
with its name and its file list, and with no fewer children than before;
every directory that did not exist before has an empty file list; and for a
one-segment path with no child directory of that name (whatever the files are
called) a directory is created, stored last and returned. -/
theorem find_or_create_frame (root : Directory) (path : CStr) :
    (∀ q d, getDir root q = some d →
      ∃ d', getDir (find_or_create_dir_by_path path root).1 q = some d' ∧
        d'.name = d.name ∧ d'.files = d.files ∧ d.subdirs.length ≤ d'.subdirs.length) ∧
    (∀ q d', getDir (find_or_create_dir_by_path path root).1 q = some d' →
      getDir root q = none → d'.files = []) ∧
    (path ≠ [] → '/' ∉ path → path.length ≤ 1023 →
      (∀ c ∈ root.subdirs, c.name ≠ path) →
      find_or_create_dir_by_path path root =
        (Directory.mk root.name (root.subdirs ++ [Directory.mk (path.take 63) [] []]) root.files,
          [root.dir_count])) := by
  rw [find_or_create_dir_by_path_resolve]
  refine ⟨fun q d h => resolve_below_keeps _ root q d h,
    fun q d' h hq => resolve_below_new_empty _ root q d' h hq, ?_⟩
  intro hne hslash hlen hnone
  rw [List.take_of_length_le hlen, strtok_all_single path hslash hne]
  simp [resolve_below, (find_subdir_none path root.subdirs).mpr hnone, create_dir, MAX_NAME]

/-- The root holds a file named `x` and no directory; resolving the path `x`
does not match the file: it creates the directory `x`, and the file list is as
before. -/
theorem find_or_create_frame_file_x :
    find_or_create_dir_by_path ['x'] file_x_root =
      (Directory.mk ['/'] [Directory.mk ['x'] [] []] [⟨['x'], "text\n".toList⟩], [0]) :=
  (find_or_create_frame file_x_root ['x']).2.2 (by decide) (by decide) (by decide)
    (by decide)

/-! ## Commands on the current directory -/

theorem cur_dir_modify (f : Directory → Directory) (st : State) (d : Directory)
    (h : cur_dir st = some d) :
    cur_dir { st with root := modifyDir f st.root st.current_dir } = some (f d) :=
  getDir_modifyDir f st.root st.current_dir d h

/-- C7: the code does not do what the claim says.  After `write note` with the
text `line1`, `line2` and `write note` with the text `overwritten`, the lookup
of `cmd_cat` returns the first text, not `overwritten`, and the directory lists
two files named `note`; the same holds for the stores of `cmd_write` with the
exact contents of the claim. -/
theorem C7_cmd_write_appends :
    read_file "note".toList note_state = some "line1\nline2\n".toList ∧
    list_dir note_state = ([], ["note".toList, "note".toList]) ∧
    read_file "note".toList
      (cmd_write_store "note".toList "overwritten".toList
        (cmd_write_store "note".toList "line1\nline2".toList init_state)) =
      some "line1\nline2".toList := by
  decide

/-- C8: the code does not do what the claim says.  After `mkdir a` twice in
the empty root, the directory lists two child directories named `a`: the
second call neither fails nor is a no-op.  The disk file then holds the line
`DIR /a/` twice, and loading it gives a root with a single directory `a`. -/
theorem C8_cmd_mkdir_duplicates :
    list_dir (cmd_mkdir ['a'] (cmd_mkdir ['a'] init_state)) = ([['a'], ['a']], []) ∧
    (cur_dir (cmd_mkdir ['a'] (cmd_mkdir ['a'] init_state))).map Directory.dir_count = some 2 ∧
    (cur_dir (cmd_mkdir ['a'] init_state)).map Directory.dir_count = some 1 ∧
    save_filesystem (cmd_mkdir ['a'] (cmd_mkdir ['a'] init_state)).root =
      "DIR /a/\nDIR /a/\n".toList ∧
    load_filesystem (some "DIR /a/\nDIR /a/\n".toList) init_state.root =
      some (Directory.mk ['/'] [Directory.mk ['a'] [] []] []) :=
  ⟨by decide, by decide, by decide, by decide, rfl⟩

/-- C9: in a current directory with fewer than `MAX_DIRS` child directories,
`cmd_mkdir(name)` stores exactly one new directory after the existing children:
it has no subdirectory and no file, its name is `name` cut to 63 bytes, and it
is child number `dir_count` of the current directory (its parent).  The
existing children, their order and the file list are unchanged, `current_dir`
is unchanged, and the listing is the old listing with the new name at the end
of the directory names.  With `MAX_DIRS` children present nothing changes. -/
theorem C9_cmd_mkdir (name : CStr) (st : State) (d : Directory)
    (h : cur_dir st = some d) :
    (d.dir_count < MAX_DIRS →
      cur_dir (cmd_mkdir name st) =
        some (Directory.mk d.name (d.subdirs ++ [Directory.mk (name.take 63) [] []]) d.files) ∧
      (cmd_mkdir name st).current_dir = st.current_dir ∧
      getDir (cmd_mkdir name st).root (st.current_dir ++ [d.dir_count]) =
        some (Directory.mk (name.take 63) [] []) ∧
      list_dir (cmd_mkdir name st) = ((list_dir st).1 ++ [name.take 63], (list_dir st).2)) ∧
    (MAX_DIRS ≤ d.dir_count → cmd_mkdir name st = st) := by
  constructor
  · intro hlt
    have hst : cmd_mkdir name st =
        { st with root := modifyDir (push_subdir (create_dir name)) st.root st.current_dir } := by
      simp [cmd_mkdir, h, Nat.not_le.mpr hlt]
    have hcur := cur_dir_modify (push_subdir (create_dir name)) st d h
    rw [hst]
    refine ⟨hcur, rfl, ?_, ?_⟩
    · have hget := hcur
      simp only [cur_dir] at hget
      rw [getDir_append, hget]
      simp [getDir_cons, push_subdir, Directory.dir_count, create_dir, MAX_NAME]
    · simp only [list_dir, hcur, h]
      simp [push_subdir, create_dir, MAX_NAME]
  · intro hge
    simp [cmd_mkdir, h, hge]

/-- C9 witness: `mkdir docs` in the empty root. -/
theorem C9_witness :
    cur_dir init_state = some (Directory.mk ['/'] [] []) ∧
    list_dir (cmd_mkdir "docs".toList init_state) = (["docs".toList], []) :=
  ⟨rfl, ((C9_cmd_mkdir "docs".toList init_state (Directory.mk ['/'] [] []) rfl).1
    (by decide)).2.2.2⟩

theorem find_file_split (name : CStr) (pre post : List File) (f : File)
    (hf : f.name = name) (hpre : ∀ g ∈ pre, g.name ≠ name) :
    find_file name (pre ++ f :: post) = some pre.length := by
  induction pre with
  | nil => simp [find_file, hf]
  | cons g pre ih =>
    simp only [List.mem_cons, forall_eq_or_imp] at hpre
    simp [find_file, hpre.1, ih hpre.2]

theorem find_file_none (name : CStr) (fs : List File) (h : ∀ g ∈ fs, g.name ≠ name) :
    find_file name fs = none := by
  induction fs with
  | nil => rfl
  | cons g fs ih =>
    simp only [List.mem_cons, forall_eq_or_imp] at h
    simp [find_file, h.1, ih h.2]

/-- C10: when the current directory holds a file named `name`, `cmd_rm(name)`
removes the first such file, in stored order, and nothing else: with the file
list `pre ++ f :: post`, where `f` is the first file of that name, the file
list afterwards is `pre ++ post`, and the name, the subdirectories and
`current_dir` are unchanged.  When no file has that name the state is
unchanged. -/
theorem C10_cmd_rm (name : CStr) (st : State) (d : Directory)
    (h : cur_dir st = some d) :
    (∀ pre f post, d.files = pre ++ f :: post → f.name = name →
      (∀ g ∈ pre, g.name ≠ name) →
      cur_dir (cmd_rm name st) = some (Directory.mk d.name d.subdirs (pre ++ post)) ∧
      (cmd_rm name st).current_dir = st.current_dir) ∧
    ((∀ g ∈ d.files, g.name ≠ name) → cmd_rm name st = st) := by
  constructor
  · intro pre f post hd hf hpre
    have hfind : find_file name d.files = some pre.length := by
      rw [hd]; exact find_file_split name pre post f hf hpre
    have hst : cmd_rm name st =
        { st with root := modifyDir (remove_file_at pre.length) st.root st.current_dir } := by
      simp [cmd_rm, h, hfind]
    rw [hst]
    refine ⟨?_, rfl⟩
    rw [cur_dir_modify _ st d h]
    simp [remove_file_at, hd, List.eraseIdx_append_of_length_le]
  · intro hnone
    simp [cmd_rm, h, find_file_none name d.files hnone]

/-- C10 witness: with the files `a`, `b`, `a`, `rm b` leaves `a`, `a` with
their contents and keeps the subdirectory. -/
theorem C10_witness :
    cur_dir (cmd_rm ['b'] files_aba_state) =
      some (Directory.mk ['/'] [Directory.mk ['d'] [] []] [⟨['a'], ['1']⟩, ⟨['a'], ['3']⟩]) :=
  ((C10_cmd_rm ['b'] files_aba_state files_aba_state.root rfl).1
    [⟨['a'], ['1']⟩] ⟨['b'], ['2']⟩ [⟨['a'], ['3']⟩] rfl rfl (by decide)).1

/-! ## Loader: the sentinel -/

/-- C3: the code does not do what the claim says.  After `write f` with the
single line `ENDING`, the disk file is `FILE /f`, `ENDING`, `END`: one content
line, which is not the sentinel line.  The content loop of the loader stops at
it because it begins with `END`, and `f` is created in the root with empty
content instead of `ENDING`.  A line that has `END` elsewhere is kept. -/
theorem C3_load_stops_at_END_prefix :
    save_filesystem (run_ops [Op.write ['f'] "\nENDING\nEND\n".toList] init_state).root =
      "FILE /f\nENDING\nEND\n".toList ∧
    load_filesystem (some "FILE /f\nENDING\nEND\n".toList) init_state.root =
      some (Directory.mk ['/'] [] [⟨['f'], []⟩]) ∧
    load_filesystem (some "FILE /f\nSENDING\nEND\n".toList) init_state.root =
      some (Directory.mk ['/'] [] [⟨['f'], "SENDING\n".toList⟩]) :=
  ⟨by decide, rfl, rfl⟩

/-! ## Round trip: lines, paths and positions -/

theorem fgets_all_line (size : Nat) (l rest acc : CStr) (hl : '\n' ∉ l)
    (hsize : acc.length + l.length + 1 < size) :
    fgets_all size (l ++ '\n' :: rest) acc = (acc ++ l ++ ['\n']) :: fgets_all size rest [] := by
  induction l generalizing acc with
  | nil => simp [fgets_all]
  | cons x xs ih =>
    simp only [List.mem_cons, not_or] at hl
    simp only [List.length_cons] at hsize
    have hx : ¬ (x = '\n' ∨ acc.length + 2 ≥ size) := by
      intro h
      rcases h with h | h
      · exact hl.1 h.symm
      · omega
    rw [List.cons_append, fgets_all, if_neg hx, ih (acc ++ [x]) hl.2 (by simp; omega)]
    simp

theorem strtok_scan_append_slash (s : CStr) : strtok_scan '/' (s ++ ['/']) = strtok_scan '/' s := by
  induction s with
  | nil => simp [strtok_scan]
  | cons x xs ih => simp [strtok_scan, ih]

theorem strtok_all_append_slash (s : CStr) : strtok_all '/' (s ++ ['/']) = strtok_all '/' s := by
  simp [strtok_all, strtok_scan_append_slash]

theorem strtok_scan_segment (n rest : CStr) (h : '/' ∉ n) :
    strtok_scan '/' (n ++ '/' :: rest) = (n, strtok_all '/' rest) := by
  induction n with
  | nil => simp [strtok_scan, strtok_all]
  | cons x xs ih =>
    simp only [List.mem_cons, not_or] at h
    simp [strtok_scan, ih h.2, Ne.symm h.1]

theorem strtok_all_segment (n rest : CStr) (h : '/' ∉ n) (hne : n ≠ []) :
    strtok_all '/' (n ++ '/' :: rest) = n :: strtok_all '/' rest := by
  conv_lhs => rw [strtok_all]
  simp [strtok_scan_segment n rest h, hne]

theorem strtok_all_flatMap (ns : List CStr) (h : ∀ n ∈ ns, n ≠ [] ∧ '/' ∉ n) :
    strtok_all '/' (ns.flatMap (fun n => n ++ ['/'])) = ns := by
  induction ns with
  | nil => rfl
  | cons n ns ih =>
    simp only [List.mem_cons, forall_eq_or_imp] at h
    simp only [List.flatMap_cons, List.append_assoc, List.singleton_append]
    rw [strtok_all_segment n _ h.1.2 h.1.1, ih h.2]

theorem strtok_all_abs_path (ns : List CStr) (h : ∀ n ∈ ns, n ≠ [] ∧ '/' ∉ n) :
    strtok_all '/' (abs_path ns) = ns := by
  rw [abs_path, strtok_all_slash_cons, strtok_all_flatMap ns h]

theorem abs_path_append (ns : List CStr) (n : CStr) :
    abs_path (ns ++ [n]) = abs_path ns ++ n ++ ['/'] := by
  simp [abs_path, List.flatMap_append]

theorem abs_path_eq_dropLast (ns : List CStr) :
    abs_path ns = (abs_path ns).dropLast ++ ['/'] := by
  induction ns using List.reverseRecOn with
  | nil => rfl
  | append_singleton ns n _ =>
    rw [abs_path_append]
    simp [List.dropLast_append_of_ne_nil]

theorem strrchr_split_none (b : CStr) (h : '/' ∉ b) : strrchr_split '/' b = none := by
  induction b with
  | nil => rfl
  | cons x xs ih =>
    simp only [List.mem_cons, not_or] at h
    simp [strrchr_split, ih h.2, Ne.symm h.1]

theorem strrchr_split_append (a b : CStr) (h : '/' ∉ b) :
    strrchr_split '/' (a ++ '/' :: b) = some (a, b) := by
  induction a with
  | nil => simp [strrchr_split, strrchr_split_none b h]
  | cons x xs ih => simp [strrchr_split, ih]

theorem walks_resolve (ns : List CStr) (ptr : List Nat) (d : Directory)
    (h : walks ns ptr d) : resolve_below ns d = (d, ptr) := by
  induction ns generalizing ptr d with
  | nil =>
    cases ptr with
    | nil => rfl
    | cons i ptr => simp [walks] at h
  | cons n ns ih =>
    cases ptr with
    | nil => simp [walks] at h
    | cons i ptr =>
      obtain ⟨hf, c, hc, hw⟩ := h
      have hi : i < d.subdirs.length := (List.getElem?_eq_some_iff.mp hc).1
      have hset : d.subdirs.set i c = d.subdirs := by
        apply List.ext_getElem?
        intro j
        by_cases hj : i = j
        · subst hj; simp [List.getElem?_set_self hi, hc]
        · simp [List.getElem?_set_ne hj]
      simp [resolve_below, hf, hc, ih ptr c hw, hset]

theorem walks_getDir (ns : List CStr) (ptr : List Nat) (d : Directory)
    (h : walks ns ptr d) : ∃ x, getDir d ptr = some x := by
  induction ns generalizing ptr d with
  | nil =>
    cases ptr with
    | nil => exact ⟨d, rfl⟩
    | cons i ptr => simp [walks] at h
  | cons n ns ih =>
    cases ptr with
    | nil => simp [walks] at h
    | cons i ptr =>
      obtain ⟨-, c, hc, hw⟩ := h
      obtain ⟨x, hx⟩ := ih ptr c hw
      exact ⟨x, by simp [getDir_cons, hc, hx]⟩

theorem modifyDir_name (f : Directory → Directory) (d : Directory) (ptr : List Nat)
    (hf : ∀ x, getDir d ptr = some x → (f x).name = x.name) :
    (modifyDir f d ptr).name = d.name := by
  cases ptr with
  | nil => exact hf d rfl
  | cons i ptr =>
    simp only [modifyDir]
    cases d.subdirs[i]? <;> rfl

theorem walks_modifyDir (ns : List CStr) (ptr : List Nat) (d x y : Directory)
    (h : walks ns ptr d) (hx : getDir d ptr = some x) (hy : y.name = x.name) :
    walks ns ptr (modifyDir (fun _ => y) d ptr) := by
  induction ns generalizing ptr d with
  | nil =>
    cases ptr with
    | nil => trivial
    | cons i ptr => simp [walks] at h
  | cons n ns ih =>
    cases ptr with
    | nil => simp [walks] at h
    | cons i ptr =>
      obtain ⟨hf, c, hc, hw⟩ := h
      have hi : i < d.subdirs.length := (List.getElem?_eq_some_iff.mp hc).1
      have hxc : getDir c ptr = some x := by simpa [getDir_cons, hc] using hx
      obtain ⟨cn, hcn, hnm, -⟩ := find_subdir_some n d.subdirs i hf
      have hcc : c = cn := by rw [hc] at hcn; exact Option.some.inj hcn
      have hname : (modifyDir (fun _ => y) c ptr).name = n := by
        rw [modifyDir_name _ c ptr (fun z hz => by rw [hxc] at hz; cases hz; exact hy), hcc]
        exact hnm
      simp only [modifyDir, hc]
      refine ⟨?_, modifyDir (fun _ => y) c ptr, ?_, ih ptr c hw hxc⟩
      · exact find_subdir_set n d.subdirs i _ hf hname
      · simp [List.getElem?_set_self hi]

theorem walks_extend (ns : List CStr) (ptr : List Nat) (d x c : Directory) (n : CStr) (k : Nat)
    (h : walks ns ptr d) (hx : getDir d ptr = some x)
    (hf : find_subdir n x.subdirs = some k) (hc : x.subdirs[k]? = some c) :
    walks (ns ++ [n]) (ptr ++ [k]) d := by
  induction ns generalizing ptr d with
  | nil =>
    cases ptr with
    | nil =>
      simp only [getDir_nil, Option.some.injEq] at hx
      subst hx
      exact ⟨hf, c, hc, trivial⟩
    | cons i ptr => simp [walks] at h
  | cons m ns ih =>
    cases ptr with
    | nil => simp [walks] at h
    | cons i ptr =>
      obtain ⟨hm, e, he, hw⟩ := h
      have hxe : getDir e ptr = some x := by simpa [getDir_cons, he] using hx
      exact ⟨hm, e, he, ih ptr e hw hxe⟩

theorem resolve_below_eq_foldl (toks : List CStr) (root : Directory) :
    resolve_below toks root = toks.foldl find_or_create_step (root, []) := by
  rw [foldl_find_or_create_step toks root [] root rfl]
  simp

theorem resolve_below_append (ns ms : List CStr) (ptr : List Nat) (d x : Directory)
    (h : walks ns ptr d) (hx : getDir d ptr = some x) :
    resolve_below (ns ++ ms) d =
      (modifyDir (fun _ => (resolve_below ms x).1) d ptr, ptr ++ (resolve_below ms x).2) := by
  rw [resolve_below_eq_foldl, List.foldl_append, ← resolve_below_eq_foldl, walks_resolve ns ptr d h,
    foldl_find_or_create_step ms d ptr x hx]

theorem takeWhile_line (p rest : CStr) (h : '\n' ∉ p) :
    (p ++ '\n' :: rest).takeWhile (fun c => decide (c ≠ '\n')) = p := by
  induction p with
  | nil => simp
  | cons x xs ih =>
    simp only [List.mem_cons, not_or] at h
    have hx : x ≠ '\n' := Ne.symm h.1
    rw [List.cons_append, List.takeWhile_cons]
    simp only [hx, ne_eq, not_false_eq_true, decide_True, if_true]
    rw [ih h.2]

theorem sscanf_line_eq (p rest : CStr) (h : '\n' ∉ p) (hne : p ≠ []) :
    sscanf_line (p ++ '\n' :: rest) = some p := by
  unfold sscanf_line
  rw [takeWhile_line p rest h]
  simp [hne]

theorem load_lines_DIR (p : CStr) (rest : List CStr) (root : Directory)
    (h : '\n' ∉ p) (hne : p ≠ []) :
    load_lines ((['D', 'I', 'R', ' '] ++ p ++ ['\n']) :: rest) root =
      load_lines rest (find_or_create_dir_by_path p root).1 := by
  have h1 : strncmp_eq (['D', 'I', 'R', ' '] ++ p ++ ['\n']) ['D', 'I', 'R', ' '] = true := by
    simp [strncmp_eq, List.isPrefixOf]
  have h2 : (['D', 'I', 'R', ' '] ++ p ++ ['\n']).drop 4 = p ++ ['\n'] := by simp
  rw [load_lines, h1, h2]
  simp [sscanf_line_eq p [] h hne]

theorem load_lines_FILE (p : CStr) (rest : List CStr) (root : Directory)
    (h : '\n' ∉ p) (hne : p ≠ []) :
    load_lines ((['F', 'I', 'L', 'E', ' '] ++ p ++ ['\n']) :: rest) root =
      load_content p [] rest root := by
  have h0 : strncmp_eq (['F', 'I', 'L', 'E', ' '] ++ p ++ ['\n']) ['D', 'I', 'R', ' '] = false := by
    simp [strncmp_eq, List.isPrefixOf]
  have h1 : strncmp_eq (['F', 'I', 'L', 'E', ' '] ++ p ++ ['\n']) ['F', 'I', 'L', 'E', ' ']
      = true := by
    simp [strncmp_eq, List.isPrefixOf]
  have h2 : (['F', 'I', 'L', 'E', ' '] ++ p ++ ['\n']).drop 5 = p ++ ['\n'] := by simp
  rw [load_lines, h0, h1, h2]
  simp [sscanf_line_eq p [] h hne]

theorem load_content_lines (p acc : CStr) (ls rest : List CStr) (root : Directory)
    (hEND : ∀ l ∈ ls, strncmp_eq l ['E', 'N', 'D'] = false)
    (hfit : acc.length + ls.flatten.length + 1 < MAX_CONTENT) :
    load_content p acc (ls ++ ['E', 'N', 'D', '\n'] :: rest) root =
      load_lines rest (load_file_record p (acc ++ ls.flatten) root) := by
  induction ls generalizing acc with
  | nil =>
    have h1 : strncmp_eq ['E', 'N', 'D', '\n'] ['E', 'N', 'D'] = true := by decide
    simp [load_content, h1]
  | cons l ls ih =>
    simp only [List.mem_cons, forall_eq_or_imp] at hEND
    simp only [List.flatten_cons, List.length_append] at hfit
    have hl : acc.length + l.length + 1 < MAX_CONTENT := by omega
    rw [List.cons_append, load_content]
    simp only [hEND.1, Bool.false_eq_true, if_false, hl, if_true]
    rw [ih (acc ++ l) hEND.2 (by rw [List.length_append]; omega)]
    simp

theorem content_lines_decomp (c : CStr) (h : c = [] ∨ c.getLast? = some '\n') :
    ∃ ls : List CStr, (∀ l ∈ ls, '\n' ∉ l) ∧ c = ls.flatMap (fun l => l ++ ['\n']) ∧
      content_lines c = ls.map (fun l => l ++ ['\n']) := by
  induction c with
  | nil => exact ⟨[], by simp, rfl, rfl⟩
  | cons x xs ih =>
    have hxs : xs = [] ∨ xs.getLast? = some '\n' := by
      cases xs with
      | nil => exact Or.inl rfl
      | cons y ys =>
        right
        rcases h with h | h
        · simp at h
        · simpa [List.getLast?_cons_cons] using h
    obtain ⟨ls, h1, h2, h3⟩ := ih hxs
    by_cases hx : x = '\n'
    · subst hx
      refine ⟨[] :: ls, ?_, ?_, ?_⟩
      · intro l hl
        simp only [List.mem_cons] at hl
        rcases hl with hl | hl
        · subst hl; simp
        · exact h1 l hl
      · simp [← h2]
      · simp [content_lines, h3]
    · cases ls with
      | nil =>
        simp only [List.flatMap_nil] at h2
        subst h2
        rcases h with h | h
        · simp at h
        · simp at h; exact absurd h hx
      | cons l ls =>
        refine ⟨(x :: l) :: ls, ?_, ?_, ?_⟩
        · intro m hm
          simp only [List.mem_cons] at hm
          rcases hm with hm | hm
          · subst hm
            simp only [List.mem_cons, not_or]
            exact ⟨fun e => hx e.symm, h1 l (List.mem_cons_self _ _)⟩
          · exact h1 m (List.mem_cons_of_mem _ hm)
        · simp [h2]
        · simp only [content_lines, hx, if_false, h3, List.map_cons, List.cons_append]

theorem fgets_all_lines (size : Nat) (ls : List CStr) (rest : CStr)
    (hl : ∀ l ∈ ls, '\n' ∉ l ∧ l.length + 1 < size) :
    fgets_all size (ls.flatMap (fun l => l ++ ['\n']) ++ rest) [] =
      ls.map (fun l => l ++ ['\n']) ++ fgets_all size rest [] := by
  induction ls with
  | nil => rfl
  | cons l ls ih =>
    simp only [List.mem_cons, forall_eq_or_imp] at hl
    simp only [List.flatMap_cons, List.append_assoc, List.singleton_append, List.map_cons,
      List.cons_append]
    rw [fgets_all_line size l _ [] hl.1.1 (by simpa using hl.1.2)]
    simp only [List.nil_append]
    rw [ih hl.2]

/-! ## Round trip: records -/

theorem dir_name_ok_iff (n : CStr) :
    dir_name_ok n = true ↔ n ≠ [] ∧ '/' ∉ n ∧ '\n' ∉ n ∧ n.length ≤ 63 := by
  cases n <;> simp [dir_name_ok, and_assoc]

theorem file_name_ok_iff (n : CStr) :
    file_name_ok n = true ↔ '/' ∉ n ∧ '\n' ∉ n ∧ n.length ≤ 63 := by
  simp [file_name_ok, and_assoc]

theorem names_ok_append (ns : List CStr) (n : CStr) (h : names_ok ns)
    (hn : n ≠ [] ∧ '/' ∉ n ∧ '\n' ∉ n) : names_ok (ns ++ [n]) := by
  intro m hm
  simp only [List.mem_append, List.mem_singleton] at hm
  rcases hm with hm | hm
  · exact h m hm
  · subst hm; exact hn

theorem abs_path_no_newline (ns : List CStr) (h : names_ok ns) : '\n' ∉ abs_path ns := by
  simp only [abs_path, List.mem_cons, List.mem_flatMap, List.mem_append, List.mem_singleton,
    not_or, not_exists, not_and]
  refine ⟨by decide, ?_⟩
  intro n hn
  exact ⟨(h n hn).2.2, by decide⟩

theorem abs_path_ne_nil (ns : List CStr) : abs_path ns ≠ [] := by
  simp [abs_path]

theorem find_or_create_new_child (ns : List CStr) (ptr : List Nat) (root x : Directory)
    (n : CStr) (hw : walks ns ptr root) (hx : getDir root ptr = some x) (hns : names_ok ns)
    (hn : dir_name_ok n = true) (hlen : (abs_path ns ++ n ++ ['/']).length ≤ 1023)
    (hnew : find_subdir n x.subdirs = none) :
    (find_or_create_dir_by_path (abs_path ns ++ n ++ ['/']) root).1 =
      modifyDir (fun _ => push_subdir (Directory.mk n [] []) x) root ptr := by
  obtain ⟨hne, hslash, hnl, h63⟩ := (dir_name_ok_iff n).mp hn
  have htoks : strtok_all '/' (abs_path (ns ++ [n])) = ns ++ [n] :=
    strtok_all_abs_path _ (fun m hm =>
      ⟨(names_ok_append ns n hns ⟨hne, hslash, hnl⟩ m hm).1,
        (names_ok_append ns n hns ⟨hne, hslash, hnl⟩ m hm).2.1⟩)
  rw [find_or_create_dir_by_path_resolve, List.take_of_length_le hlen, ← abs_path_append, htoks,
    resolve_below_append ns [n] ptr root x hw hx]
  simp [resolve_below, hnew, create_dir, MAX_NAME, List.take_of_length_le h63, push_subdir]

theorem load_file_record_at (ns : List CStr) (ptr : List Nat) (root x : Directory)
    (fname content : CStr) (hw : walks ns ptr root) (hx : getDir root ptr = some x)
    (hns : names_ok ns) (hn : file_name_ok fname = true)
    (hlen : (abs_path ns ++ fname).length ≤ 1023) :
    load_file_record (abs_path ns ++ fname) content root =
      modifyDir (fun _ => push_file ⟨fname, content⟩ x) root ptr := by
  obtain ⟨hslash, -, h63⟩ := (file_name_ok_iff fname).mp hn
  have hsplit : strrchr_split '/' (abs_path ns ++ fname) =
      some ((abs_path ns).dropLast, fname) := by
    conv_lhs => rw [abs_path_eq_dropLast ns]
    rw [List.append_assoc, List.singleton_append, strrchr_split_append _ _ hslash]
  have hq : ((abs_path ns).dropLast).length ≤ 1023 := by
    rw [List.length_append] at hlen
    rw [List.length_dropLast]
    omega
  have hshort : (if (abs_path ns).dropLast.length > 0 then (abs_path ns).dropLast
      else ['/']).length ≤ 1023 := by
    split
    · exact hq
    · decide
  have h1 : strtok_all '/'
      (if (abs_path ns).dropLast.length > 0 then (abs_path ns).dropLast else ['/'])
      = strtok_all '/' (abs_path ns) := by
    by_cases hpos : (abs_path ns).dropLast.length > 0
    · rw [if_pos hpos]
      conv_rhs => rw [abs_path_eq_dropLast ns, strtok_all_append_slash]
    · rw [if_neg hpos]
      have hnil : (abs_path ns).dropLast = [] := List.length_eq_zero.mp (by omega)
      conv_rhs => rw [abs_path_eq_dropLast ns, hnil]
      rfl
  have h2 := strtok_all_abs_path ns (fun m hm => ⟨(hns m hm).1, (hns m hm).2.1⟩)
  unfold load_file_record
  rw [hsplit]
  simp only []
  rw [find_or_create_dir_by_path_resolve, List.take_of_length_le hshort, h1, h2,
    walks_resolve ns ptr root hw]
  simp only [create_file, MAX_NAME, List.take_of_length_le h63]
  exact modifyDir_congr _ _ root ptr x hx rfl

/-! ## Round trip: the induction -/

theorem save_file_record_ok (path : CStr) (f : File) (h : file_ok path f = true) :
    ∃ ls : List CStr, (∀ l ∈ ls, '\n' ∉ l) ∧ f.content = ls.flatMap (fun l => l ++ ['\n']) ∧
      (∀ l ∈ ls, strncmp_eq (l ++ ['\n']) ['E', 'N', 'D'] = false) ∧
      f.content.length + 2 ≤ MAX_CONTENT ∧
      save_file_record path f =
        ['F', 'I', 'L', 'E', ' '] ++ (path ++ f.name) ++
          '\n' :: (ls.flatMap (fun l => l ++ ['\n']) ++ ['E', 'N', 'D', '\n']) := by
  simp only [file_ok, content_ok, Bool.and_eq_true, decide_eq_true_eq, Bool.or_eq_true,
    List.isEmpty_iff, beq_iff_eq, List.all_eq_true, Bool.not_eq_true'] at h
  obtain ⟨⟨-, hlen⟩, ⟨hsize, hlast⟩, hEND⟩ := h
  obtain ⟨ls, h1, h2, h3⟩ := content_lines_decomp f.content hlast
  refine ⟨ls, h1, h2, ?_, hsize, ?_⟩
  · intro l hl
    apply hEND
    rw [h3]
    exact List.mem_map_of_mem _ hl
  · unfold save_file_record
    rw [List.take_of_length_le hlen]
    rcases hlast with hnil | hlast
    · have hls : ls.flatMap (fun l => l ++ ['\n']) = [] := by rw [← h2, hnil]
      simp [hnil, hls]
    · have hpos : f.content.length > 0 := by
        cases hc : f.content with
        | nil => simp [hc] at hlast
        | cons a as => simp
      simp [hpos, hlast, ← h2]

theorem fgets_all_file_record (a tail : CStr) (ls : List CStr) (ha : '\n' ∉ a)
    (hlen : a.length + 1 < 8192) (hl : ∀ l ∈ ls, '\n' ∉ l ∧ l.length + 1 < 8192) :
    fgets_all 8192
        ((a ++ '\n' :: (ls.flatMap (fun l => l ++ ['\n']) ++ ['E', 'N', 'D', '\n'])) ++ tail) [] =
      (a ++ ['\n']) ::
        (ls.map (fun l => l ++ ['\n']) ++ ['E', 'N', 'D', '\n'] :: fgets_all 8192 tail []) := by
  have h1 : (a ++ '\n' :: (ls.flatMap (fun l => l ++ ['\n']) ++ ['E', 'N', 'D', '\n'])) ++ tail =
      a ++ '\n' :: (ls.flatMap (fun l => l ++ ['\n']) ++ (['E', 'N', 'D'] ++ '\n' :: tail)) := by
    simp
  rw [h1, fgets_all_line 8192 a _ [] ha (by simpa using hlen)]
  simp only [List.nil_append]
  rw [fgets_all_lines 8192 ls _ hl, fgets_all_line 8192 ['E', 'N', 'D'] tail [] (by decide)
    (by decide)]
  rfl

theorem load_save_files (fs : List File) (ns : List CStr) (ptr : List Nat)
    (root x : Directory) (rest : CStr) (hw : walks ns ptr root)
    (hx : getDir root ptr = some x) (hns : names_ok ns)
    (hfs : fs.all (file_ok (abs_path ns)) = true) :
    load_lines (fgets_all 8192 (save_files (abs_path ns) fs ++ rest) []) root =
      load_lines (fgets_all 8192 rest [])
        (modifyDir (fun _ => Directory.mk x.name x.subdirs (x.files ++ fs)) root ptr) := by
  induction fs generalizing root x with
  | nil =>
    simp only [save_files, List.nil_append, List.append_nil]
    rw [modifyDir_self _ root ptr x hx (by simp)]
  | cons f fs ih =>
    simp only [List.all_cons, Bool.and_eq_true] at hfs
    obtain ⟨ls, hnl, hcontent, hEND, hsize, hrec⟩ := save_file_record_ok (abs_path ns) f hfs.1
    have hfile : file_ok (abs_path ns) f = true := hfs.1
    simp only [file_ok, Bool.and_eq_true, decide_eq_true_eq] at hfile
    obtain ⟨⟨hname, hlen⟩, -⟩ := hfile
    obtain ⟨hslash, hnonl, h63⟩ := (file_name_ok_iff f.name).mp hname
    have hpath_nl : '\n' ∉ abs_path ns ++ f.name := by
      simp only [List.mem_append, not_or]
      exact ⟨abs_path_no_newline ns hns, hnonl⟩
    have hpath_ne : abs_path ns ++ f.name ≠ [] := by
      simp [abs_path_ne_nil]
    have hline_nl : '\n' ∉ ['F', 'I', 'L', 'E', ' '] ++ (abs_path ns ++ f.name) := by
      intro hmem
      rcases List.mem_append.mp hmem with h | h
      · revert h; decide
      · exact hpath_nl h
    have hflat : (ls.map (fun l => l ++ ['\n'])).flatten = f.content := by
      rw [hcontent, List.flatMap_def]
    have hlines : ∀ l ∈ ls, '\n' ∉ l ∧ l.length + 1 < 8192 := by
      intro l hl
      refine ⟨hnl l hl, ?_⟩
      have hsub : (l ++ ['\n']).Sublist f.content := by
        rw [← hflat]
        exact List.sublist_flatten_of_mem (List.mem_map_of_mem (fun l => l ++ ['\n']) hl)
      have hle := hsub.length_le
      simp only [List.length_append, List.length_singleton, MAX_CONTENT] at hle hsize
      omega
    have hlinelen : (['F', 'I', 'L', 'E', ' '] ++ (abs_path ns ++ f.name)).length + 1 < 8192 := by
      rw [List.length_append]
      simp only [List.length_cons, List.length_nil]
      omega
    rw [save_files, hrec, List.append_assoc,
      fgets_all_file_record _ _ ls hline_nl hlinelen hlines,
      load_lines_FILE _ _ _ hpath_nl hpath_ne,
      load_content_lines _ _ _ _ _ (by
        intro l hl
        obtain ⟨m, hm, rfl⟩ := List.mem_map.mp hl
        exact hEND m hm) (by
        rw [hflat]
        simp only [List.length_nil, MAX_CONTENT] at hsize ⊢
        omega)]
    rw [hflat, List.nil_append, load_file_record_at ns ptr root x f.name f.content hw hx hns
      hname hlen]
    have hw1 := walks_modifyDir ns ptr root x (push_file ⟨f.name, f.content⟩ x) hw hx rfl
    have hx1 := getDir_modifyDir (fun _ => push_file ⟨f.name, f.content⟩ x) root ptr x hx
    rw [ih _ _ hw1 hx1 hfs.2, modifyDir_modifyDir]
    simp [push_file]

theorem fgets_all_dir_record (a body more rest : CStr) (ha : '\n' ∉ a)
    (hlen : a.length + 1 < 8192) :
    fgets_all 8192 ((a ++ ['\n'] ++ body ++ more) ++ rest) [] =
      (a ++ ['\n']) :: fgets_all 8192 (body ++ (more ++ rest)) [] := by
  have h1 : (a ++ ['\n'] ++ body ++ more) ++ rest = a ++ '\n' :: (body ++ (more ++ rest)) := by
    simp
  rw [h1, fgets_all_line 8192 a _ [] ha (by simpa using hlen)]
  rfl

theorem find_subdir_of_not_mem (n : CStr) (ds : List Directory)
    (h : n ∉ ds.map Directory.name) : find_subdir n ds = none := by
  rw [find_subdir_none]
  intro c hc hname
  exact h (List.mem_map.mpr ⟨c, hc, hname⟩)

mutual
theorem load_save_dir (d : Directory) (ns : List CStr) (ptr : List Nat) (root : Directory)
    (rest : CStr) (hw : walks ns ptr root)
    (hx : getDir root ptr = some (Directory.mk d.name [] [])) (hns : names_ok ns)
    (hd : roundtrip_ok d (abs_path ns) = true) :
    load_lines (fgets_all 8192 (save_dir_to_file d (abs_path ns) ++ rest) []) root =
      load_lines (fgets_all 8192 rest []) (modifyDir (fun _ => d) root ptr) := by
  match d with
  | Directory.mk n cs fs =>
    simp only [roundtrip_ok, Bool.and_eq_true, decide_eq_true_eq] at hd
    obtain ⟨⟨hnodup, hcs⟩, hfs⟩ := hd
    simp only [Directory.name_mk] at hx
    rw [save_dir_to_file, List.append_assoc,
      load_save_subdirs cs ns ptr root (Directory.mk n [] []) _ hw hx hns (by simpa using hnodup)
        hcs]
    simp only [Directory.name_mk, Directory.subdirs_mk, Directory.files_mk, List.nil_append]
    have hw1 := walks_modifyDir ns ptr root (Directory.mk n [] []) (Directory.mk n cs []) hw hx rfl
    have hx1 := getDir_modifyDir (fun _ => Directory.mk n cs []) root ptr _ hx
    rw [load_save_files fs ns ptr _ (Directory.mk n cs []) rest hw1 hx1 hns hfs,
      modifyDir_modifyDir]
    simp
theorem load_save_subdirs (cs : List Directory) (ns : List CStr) (ptr : List Nat)
    (root x : Directory) (rest : CStr) (hw : walks ns ptr root)
    (hx : getDir root ptr = some x) (hns : names_ok ns)
    (hnodup : ((x.subdirs ++ cs).map Directory.name).Nodup)
    (hcs : roundtrip_ok_dirs cs (abs_path ns) = true) :
    load_lines (fgets_all 8192 (save_subdirs cs (abs_path ns) ++ rest) []) root =
      load_lines (fgets_all 8192 rest [])
        (modifyDir (fun _ => Directory.mk x.name (x.subdirs ++ cs) x.files) root ptr) := by
  match cs with
  | [] =>
    simp only [save_subdirs, List.nil_append, List.append_nil]
    rw [modifyDir_self _ root ptr x hx (by simp)]
  | c :: cs =>
    simp only [roundtrip_ok_dirs, Bool.and_eq_true, decide_eq_true_eq] at hcs
    obtain ⟨⟨⟨hname, hlen⟩, hc⟩, hrest⟩ := hcs
    obtain ⟨hne, hslash, hnl, h63⟩ := (dir_name_ok_iff c.name).mp hname
    have hns1 : names_ok (ns ++ [c.name]) := names_ok_append ns c.name hns ⟨hne, hslash, hnl⟩
    have hpath : abs_path ns ++ c.name ++ ['/'] = abs_path (ns ++ [c.name]) :=
      (abs_path_append ns c.name).symm
    have hnew : find_subdir c.name x.subdirs = none := by
      apply find_subdir_of_not_mem
      intro hmem
      rw [List.map_append, List.map_cons] at hnodup
      have := (List.nodup_append.mp hnodup).2.2
      exact this hmem (List.mem_cons_self _ _)
    have hline_nl : '\n' ∉ ['D', 'I', 'R', ' '] ++ abs_path (ns ++ [c.name]) := by
      intro hmem
      rcases List.mem_append.mp hmem with h | h
      · revert h; decide
      · exact abs_path_no_newline _ hns1 h
    have hlinelen : (['D', 'I', 'R', ' '] ++ abs_path (ns ++ [c.name])).length + 1 < 8192 := by
      rw [← hpath, List.length_append]
      simp only [List.length_cons, List.length_nil]
      omega
    rw [save_subdirs, List.take_of_length_le hlen, hpath,
      fgets_all_dir_record _ _ _ _ hline_nl hlinelen,
      load_lines_DIR _ _ _ (abs_path_no_newline _ hns1) (abs_path_ne_nil _), ← hpath,
      find_or_create_new_child ns ptr root x c.name hw hx hns hname hlen hnew, hpath]
    have hw1 := walks_modifyDir ns ptr root x (push_subdir (Directory.mk c.name [] []) x) hw hx rfl
    have hx1 := getDir_modifyDir (fun _ => push_subdir (Directory.mk c.name [] []) x) root ptr x hx
    have hfind : find_subdir c.name (push_subdir (Directory.mk c.name [] []) x).subdirs =
        some x.subdirs.length := find_subdir_append_new c.name x.subdirs _ hnew rfl
    have hget : (push_subdir (Directory.mk c.name [] []) x).subdirs[x.subdirs.length]? =
        some (Directory.mk c.name [] []) := by
      simp [push_subdir]
    have hw2 := walks_extend ns ptr _ _ _ c.name x.subdirs.length hw1 hx1 hfind hget
    have hx2 : getDir (modifyDir (fun _ => push_subdir (Directory.mk c.name [] []) x) root ptr)
        (ptr ++ [x.subdirs.length]) = some (Directory.mk c.name [] []) := by
      rw [getDir_append, hx1]
      simp [getDir_cons, hget]
    rw [load_save_dir c (ns ++ [c.name]) (ptr ++ [x.subdirs.length]) _ _ hw2 hx2 hns1
      (by rw [← hpath]; exact hc)]
    have hfold : modifyDir (fun _ => c)
        (modifyDir (fun _ => push_subdir (Directory.mk c.name [] []) x) root ptr)
        (ptr ++ [x.subdirs.length]) =
        modifyDir (fun _ => Directory.mk x.name (x.subdirs ++ [c]) x.files) root ptr := by
      rw [modifyDir_append, modifyDir_modifyDir]
      apply modifyDir_congr _ _ root ptr x hx
      simp [modifyDir, push_subdir]
    rw [hfold]
    have hw3 := walks_modifyDir ns ptr root x (Directory.mk x.name (x.subdirs ++ [c]) x.files)
      hw hx rfl
    have hx3 := getDir_modifyDir (fun _ => Directory.mk x.name (x.subdirs ++ [c]) x.files)
      root ptr x hx
    rw [load_save_subdirs cs ns ptr _ _ rest hw3 hx3 hns (by simpa using hnodup) hrest,
      modifyDir_modifyDir]
    simp
end

/-- Loading the serialized text of a tree that satisfies `roundtrip_ok` into
the empty root gives the tree back. -/
theorem load_save_roundtrip (t : Directory) (hname : t.name = ['/'])
    (h : roundtrip_ok t ['/'] = true) :
    load_filesystem (some (save_filesystem t)) (create_dir ['/']) = some t := by
  have hx : getDir (create_dir ['/']) [] = some (Directory.mk t.name [] []) := by
    rw [hname]; rfl
  have hmain := load_save_dir t [] [] (create_dir ['/']) [] trivial hx
    (fun n hn => absurd hn (List.not_mem_nil n)) h
  simp only [List.append_nil] at hmain
  have hpath : abs_path [] = ['/'] := rfl
  rw [hpath] at hmain
  simp only [load_filesystem, save_filesystem]
  rw [hmain]
  rfl

theorem run_op_root_name (st : State) (op : Op) : (run_op st op).root.name = st.root.name := by
  cases op with
  | mkdir name =>
    simp only [run_op, cmd_mkdir]
    cases cur_dir st with
    | none => rfl
    | some d =>
      simp only []
      split
      · rfl
      · exact modifyDir_name _ _ _ (fun x _ => rfl)
  | write name stdin =>
    simp only [run_op, cmd_write]
    cases cur_dir st with
    | none => rfl
    | some d =>
      simp only []
      split
      · rfl
      · exact modifyDir_name _ _ _ (fun x _ => rfl)
  | cd name =>
    simp only [run_op, cmd_cd, cmd_back]
    split
    · split <;> rfl
    · cases cur_dir st with
      | none => rfl
      | some d =>
        simp only []
        cases find_subdir name d.subdirs <;> rfl
  | back =>
    simp only [run_op, cmd_back]
    split <;> rfl

theorem run_ops_root_name (ops : List Op) (st : State) :
    (run_ops ops st).root.name = st.root.name := by
  induction ops generalizing st with
  | nil => rfl
  | cons op ops ih =>
    simp only [run_ops, List.foldl_cons] at ih ⊢
    rw [ih (run_op st op), run_op_root_name]

/-- C1, as stated, fails: `mkdir a/b` in the empty root stores one directory
named `a/b`; the serializer writes `DIR /a/b/`, and the loader rebuilds a
directory `a` that holds a directory `b`. -/
theorem C1_counterexample :
    (run_ops [Op.mkdir "a/b".toList] init_state).root =
      Directory.mk ['/'] [Directory.mk "a/b".toList [] []] [] ∧
    load_filesystem (some (save_filesystem (run_ops [Op.mkdir "a/b".toList] init_state).root))
        init_state.root =
      some (Directory.mk ['/'] [Directory.mk ['a'] [Directory.mk ['b'] [] []] []] []) ∧
    load_filesystem (some (save_filesystem (run_ops [Op.mkdir "a/b".toList] init_state).root))
        init_state.root ≠
      some (run_ops [Op.mkdir "a/b".toList] init_state).root := by
  refine ⟨rfl, rfl, fun h => ?_⟩
  have h2 := congrArg (Option.map (fun d => d.subdirs.map Directory.name)) h
  revert h2
  decide

/-- C1 (amended): for every tree built from the empty root by a sequence of
`mkdir`, `cd`, `back` and `write` commands in which, in every directory, the
child directories have distinct names, every name is free of `/` and newline,
every path the serializer formats has at most 1023 bytes, and every file
content has at most `MAX_CONTENT - 2` bytes, is empty or ends in a newline and
has no line that begins with `END`: loading the text of the serializer
(`save_dir_to_file` from the root with path `/`) into a fresh empty tree with
`load_filesystem` yields the same tree, with the same directory names and
nesting and, in every directory, the same files in the same order with
identical content. -/
theorem C1_roundtrip (ops : List Op)
    (h : roundtrip_ok (run_ops ops init_state).root ['/'] = true) :
    load_filesystem (some (save_filesystem (run_ops ops init_state).root)) init_state.root =
      some (run_ops ops init_state).root :=
  load_save_roundtrip _ (run_ops_root_name ops init_state) h

/-- C1 witness: the scenario `mkdir docs`, `cd docs`, `write a.txt` with the
text `hello`, `cd ..`. -/
theorem C1_witness :
    roundtrip_ok (run_ops docs_ops init_state).root ['/'] = true ∧
    load_filesystem (some (save_filesystem (run_ops docs_ops init_state).root)) init_state.root =
      some (run_ops docs_ops init_state).root :=
  ⟨by decide, C1_roundtrip docs_ops (by decide)⟩

/-! ## Serializer -/

theorem save_file_record_eq_spec (path : CStr) (f : File) (h : (path ++ f.name).length ≤ 1023) :
    save_file_record path f = spec_file_record path f := by
  unfold save_file_record spec_file_record
  rw [List.take_of_length_le h]
  rcases hc : f.content with _ | ⟨c, cs⟩ <;> simp

theorem save_files_eq_spec (path : CStr) (fs : List File)
    (h : fs.all (fun f => (path ++ f.name).length ≤ 1023) = true) :
    save_files path fs = fs.flatMap (spec_file_record path) := by
  induction fs with
  | nil => rfl
  | cons f fs ih =>
    simp only [List.all_cons, Bool.and_eq_true, decide_eq_true_eq] at h
    simp only [save_files, List.flatMap_cons]
    rw [save_file_record_eq_spec path f h.1, ih h.2]

mutual
theorem save_dir_eq_spec_aux (d : Directory) (path : CStr) (h : paths_fit d path = true) :
    save_dir_to_file d path = spec_serialize d path := by
  match d with
  | Directory.mk n subdirs files =>
    simp only [paths_fit, Bool.and_eq_true] at h
    simp only [save_dir_to_file, spec_serialize]
    rw [save_subdirs_eq_spec_aux subdirs path h.1, save_files_eq_spec path files h.2]
theorem save_subdirs_eq_spec_aux (ds : List Directory) (path : CStr)
    (h : paths_fit_dirs ds path = true) :
    save_subdirs ds path = spec_serialize_dirs ds path := by
  match ds with
  | [] => simp [save_subdirs, spec_serialize_dirs]
  | d :: ds =>
    simp only [paths_fit_dirs, Bool.and_eq_true, decide_eq_true_eq] at h
    simp only [save_subdirs, spec_serialize_dirs]
    rw [List.take_of_length_le h.1.1, save_dir_eq_spec_aux d _ h.1.2,
      save_subdirs_eq_spec_aux ds path h.2]
    rfl
end

/-- C2, as stated, fails: in the call `save_dir_to_file(dir, path)` reached for
a directory nested 15 levels deep below directories with 63-byte names, holding
one more such directory, the `DIR` line is not `path + name + "/"` (1025 bytes)
but its first 1023 bytes, so the output differs from the text the claim
describes. -/
theorem C2_counterexample :
    save_dir_to_file (Directory.mk name63 [Directory.mk name63 [] []] []) (deep_path 15) ≠
      spec_serialize (Directory.mk name63 [Directory.mk name63 [] []] []) (deep_path 15) := by
  decide!

/-- C2 (amended): for every directory tree and path such that every path the
serializer formats has at most 1023 bytes, `save_dir_to_file(dir, path)` emits
exactly the text of the specification: per child directory, in stored order,
the line `DIR path name /` followed by the child's output under the extended
path; then per file, in stored order, the line `FILE path name`, the content,
one newline exactly when the content is non-empty and does not end in one, and
the line `END`; nothing for the directory itself. -/
theorem C2_save_dir_to_file_eq_spec (d : Directory) (path : CStr)
    (h : paths_fit d path = true) :
    save_dir_to_file d path = spec_serialize d path :=
  save_dir_eq_spec_aux d path h

/-- C2 witness: the root holding directory `docs` with file `a.txt` of content
`hello\n` serializes to `DIR /docs/`, `FILE /docs/a.txt`, `hello`, `END`. -/
theorem C2_witness :
    paths_fit docs_state.root ['/'] = true ∧
    save_dir_to_file docs_state.root ['/'] = spec_serialize docs_state.root ['/'] ∧
    spec_serialize docs_state.root ['/'] =
      "DIR /docs/\nFILE /docs/a.txt\nhello\nEND\n".toList :=
  ⟨by decide, C2_save_dir_to_file_eq_spec docs_state.root ['/'] (by decide), by decide⟩

/-! ## Removing directories, wiping, changing directory -/

theorem find_subdir_split (name : CStr) (pre post : List Directory) (c : Directory)
    (hc : c.name = name) (hpre : ∀ e ∈ pre, e.name ≠ name) :
    find_subdir name (pre ++ c :: post) = some pre.length := by
  induction pre with
  | nil => simp [find_subdir, hc]
  | cons e pre ih =>
    simp only [List.mem_cons, forall_eq_or_imp] at hpre
    simp [find_subdir, hpre.1, ih hpre.2]

/-- C11: when the current directory has a child directory named `x`,
`cmd_rmdir(x)` removes the first such child together with everything below it:
with the child list `pre ++ c :: post`, where `c` is the first child of that
name, the child list afterwards is `pre ++ post` (the other children keep their
order and contents), so nothing of `c` is below the parent any more; the name
and the files of the parent and `current_dir` are unchanged.  When no child
directory has that name the state is unchanged. -/
theorem C11_cmd_rmdir (x : CStr) (st : State) (d : Directory)
    (h : cur_dir st = some d) :
    (∀ pre c post, d.subdirs = pre ++ c :: post → c.name = x →
      (∀ e ∈ pre, e.name ≠ x) →
      cur_dir (cmd_rmdir x st) = some (Directory.mk d.name (pre ++ post) d.files) ∧
      (cmd_rmdir x st).current_dir = st.current_dir ∧
      (cmd_rmdir x st).apps = st.apps) ∧
    ((∀ e ∈ d.subdirs, e.name ≠ x) → cmd_rmdir x st = st) := by
  constructor
  · intro pre c post hd hc hpre
    have hfind : find_subdir x d.subdirs = some pre.length := by
      rw [hd]; exact find_subdir_split x pre post c hc hpre
    have hst : cmd_rmdir x st =
        { st with root := modifyDir (remove_subdir_at pre.length) st.root st.current_dir } := by
      simp [cmd_rmdir, h, hfind]
    rw [hst]
    refine ⟨?_, rfl, rfl⟩
    rw [cur_dir_modify _ st d h]
    simp [remove_subdir_at, hd, List.eraseIdx_append_of_length_le]
  · intro hnone
    simp [cmd_rmdir, h, (find_subdir_none x d.subdirs).mpr hnone]

/-- C11 witness: with the children `x` (holding a directory and files), `y`,
`x`, `rmdir x` leaves `y` and the second `x`, and the file of the parent. -/
theorem C11_witness :
    cur_dir (cmd_rmdir ['x'] dirs_xyx_state) =
      some (Directory.mk ['/']
        [Directory.mk ['y'] [] [], Directory.mk ['x'] [] [⟨['h'], ['3']⟩]] [⟨['k'], ['4']⟩]) :=
  ((C11_cmd_rmdir ['x'] dirs_xyx_state dirs_xyx_state.root rfl).1 []
    (Directory.mk ['x'] [Directory.mk ['n'] [] [⟨['g'], ['1']⟩]] [⟨['f'], ['2']⟩])
    [Directory.mk ['y'] [] [], Directory.mk ['x'] [] [⟨['h'], ['3']⟩]] rfl rfl
    (by decide)).1

/-- C12, as stated, fails for a long name: after a confirmed wipe, `mkdir`
with a name of 64 bytes `a` (the shell reads up to 127) leaves the root with
one child, named by the first 63 bytes and not by the name given. -/
theorem C12_counterexample :
    (cmd_mkdir (List.replicate 64 'a') (cmd_wipe ['y', 'e', 's'] docs_state)).root =
      Directory.mk ['/'] [Directory.mk name63 [] []] [] ∧
    name63 ≠ List.replicate 64 'a' :=
  ⟨rfl, by decide⟩

/-- C12 (amended): after a confirmed wipe, from any tree and any current
directory, the root is still there (with its name) and has no child directory
and no file, `current_dir` is the root, and a following `cmd_mkdir(name)`
stores its directory (the root is empty, so the guard of `cmd_mkdir` lets it
through): the root then has exactly one child, which is empty and carries the
first 63 bytes of `name`; when `name` has at most 63 bytes the child is named
`name`. -/
theorem C12_cmd_wipe (st : State) (name : CStr) :
    (cmd_wipe ['y', 'e', 's'] st).root = Directory.mk st.root.name [] [] ∧
    (cmd_wipe ['y', 'e', 's'] st).root.dir_count = 0 ∧
    (cmd_wipe ['y', 'e', 's'] st).root.file_count = 0 ∧
    (cmd_wipe ['y', 'e', 's'] st).current_dir = [] ∧
    cur_dir (cmd_wipe ['y', 'e', 's'] st) = some (cmd_wipe ['y', 'e', 's'] st).root ∧
    (cmd_mkdir name (cmd_wipe ['y', 'e', 's'] st)).root =
      Directory.mk st.root.name [Directory.mk (name.take 63) [] []] [] ∧
    (name.length ≤ 63 →
      (cmd_mkdir name (cmd_wipe ['y', 'e', 's'] st)).root =
        Directory.mk st.root.name [Directory.mk name [] []] []) := by
  have hw : cmd_wipe ['y', 'e', 's'] st =
      { root := Directory.mk st.root.name [] [], current_dir := [],
        apps := purge_installed st.apps } := by
    simp [cmd_wipe]
  rw [hw]
  have hm : ∀ apps : List App,
      (cmd_mkdir name (State.mk (Directory.mk st.root.name [] []) [] apps)).root =
      Directory.mk st.root.name [Directory.mk (name.take 63) [] []] [] := by
    intro apps
    simp [cmd_mkdir, cur_dir, Directory.dir_count, MAX_DIRS, push_subdir, create_dir, MAX_NAME]
  refine ⟨rfl, rfl, rfl, rfl, rfl, hm _, ?_⟩
  intro hlen
  rw [hm, List.take_of_length_le hlen]

/-- C12 witness: wipe of the `docs` scenario from inside `docs`, then
`mkdir new`. -/
theorem C12_witness :
    (cmd_mkdir "new".toList
      (cmd_wipe ['y', 'e', 's'] (cmd_cd "docs".toList docs_state))).root =
      Directory.mk ['/'] [Directory.mk "new".toList [] []] [] :=
  (C12_cmd_wipe (cmd_cd "docs".toList docs_state) "new".toList).2.2.2.2.2.2 (by decide)

/-- C13: `cmd_cd` never changes the tree or the app registry.  `cmd_cd("..")`
leaves `current_dir` unchanged at the root and otherwise moves it to the
parent (the index path without its last step).  For any other name, with the
child list `pre ++ c :: post` where `c` is the first child whose name is
exactly `name`, `current_dir` becomes that child; when no child directory has
that name the state is unchanged. -/
theorem C13_cmd_cd (name : CStr) (st : State) (d : Directory)
    (h : cur_dir st = some d) :
    (cmd_cd name st).root = st.root ∧ (cmd_cd name st).apps = st.apps ∧
    (name = ['.', '.'] →
      (st.current_dir = [] → cmd_cd name st = st) ∧
      (st.current_dir ≠ [] → (cmd_cd name st).current_dir = st.current_dir.dropLast)) ∧
    (name ≠ ['.', '.'] →
      (∀ pre c post, d.subdirs = pre ++ c :: post → c.name = name →
        (∀ e ∈ pre, e.name ≠ name) →
        (cmd_cd name st).current_dir = st.current_dir ++ [pre.length] ∧
        cur_dir (cmd_cd name st) = some c) ∧
      ((∀ e ∈ d.subdirs, e.name ≠ name) → cmd_cd name st = st)) := by
  refine ⟨?_, ?_, ?_, ?_⟩
  · unfold cmd_cd cmd_back
    split
    · split <;> rfl
    · simp only [h]
      cases find_subdir name d.subdirs <;> rfl
  · unfold cmd_cd cmd_back
    split
    · split <;> rfl
    · simp only [h]
      cases find_subdir name d.subdirs <;> rfl
  · intro hn
    constructor
    · intro hroot
      simp [cmd_cd, cmd_back, hn, hroot]
    · intro hne
      simp [cmd_cd, cmd_back, hn, hne]
  · intro hn
    constructor
    · intro pre c post hd hc hpre
      have hfind : find_subdir name d.subdirs = some pre.length := by
        rw [hd]; exact find_subdir_split name pre post c hc hpre
      have hst : cmd_cd name st = { st with current_dir := st.current_dir ++ [pre.length] } := by
        simp [cmd_cd, hn, h, hfind]
      rw [hst]
      refine ⟨rfl, ?_⟩
      have hget : d.subdirs[pre.length]? = some c := by
        rw [hd, List.getElem?_append_right (le_refl _)]
        simp
      simp only [cur_dir] at h ⊢
      rw [getDir_append, h]
      simp [getDir_cons, hget]
    · intro hnone
      simp [cmd_cd, hn, h, (find_subdir_none name d.subdirs).mpr hnone]

/-- C13 witness: `cd x` in a directory with the children `x`, `y`, `x` enters
the first `x`. -/
theorem C13_witness :
    (cmd_cd ['x'] dirs_xyx_state).current_dir = [0] :=
  (((C13_cmd_cd ['x'] dirs_xyx_state dirs_xyx_state.root rfl).2.2.2 (by decide)).1 []
    (Directory.mk ['x'] [Directory.mk ['n'] [] [⟨['g'], ['1']⟩]] [⟨['f'], ['2']⟩])
    [Directory.mk ['y'] [] [], Directory.mk ['x'] [] [⟨['h'], ['3']⟩]] rfl rfl
    (by decide)).1

/-! ## Round trip for every tree -/

/-- C19: for every tree (rooted at `/`) in which sibling directory names are
distinct, every name is free of `/` and newline and has at most 63 bytes
(directory names non-empty), every full path has at most 1023 bytes, and every
file content has at most `MAX_CONTENT - 2` bytes, is empty or ends in a
newline and has no line beginning with `END` (the conditions collected in
`roundtrip_ok`, which does not even ask file names to be non-empty):
`load_filesystem`, applied in a fresh empty tree to the text the serializer
writes, returns exactly the same tree, with the same directories and files in
the same order and identical content. -/
theorem C19_load_save_same_tree (t : Directory) (hroot : t.name = ['/'])
    (h : roundtrip_ok t ['/'] = true) :
    load_filesystem (some (save_dir_to_file t ['/'])) init_state.root = some t :=
  load_save_roundtrip t hroot h

/-- C19 witness: the tree of the `docs` scenario. -/
theorem C19_witness :
    docs_state.root.name = ['/'] ∧ roundtrip_ok docs_state.root ['/'] = true ∧
    load_filesystem (some (save_dir_to_file docs_state.root ['/'])) init_state.root =
      some docs_state.root :=
  ⟨by decide, by decide, C19_load_save_same_tree docs_state.root (by decide) (by decide)⟩

/-! ## Loader: records at the end of input and records without separator -/

theorem load_append_aux (pre : List CStr) :
    (outer_at_end false pre = true → ∀ post root,
      load_lines (pre ++ post) root = (load_lines pre root).bind (load_lines post)) ∧
    (outer_at_end true pre = true → ∀ post root p c,
      load_content p c (pre ++ post) root = (load_content p c pre root).bind (load_lines post)) := by
  induction pre with
  | nil =>
    refine ⟨fun _ post root => by simp [load_lines], fun h => by simp [outer_at_end] at h⟩
  | cons l ls ih =>
    constructor
    · intro h post root
      rw [List.cons_append, load_lines, load_lines]
      by_cases hd : strncmp_eq l ['D', 'I', 'R', ' '] = true
      · simp only [outer_at_end, hd, if_true] at h
        simp only [hd, if_true]
        cases sscanf_line (l.drop 4) with
        | none => rfl
        | some path => exact ih.1 h post _
      · by_cases hf : strncmp_eq l ['F', 'I', 'L', 'E', ' '] = true
        · simp only [outer_at_end, hd, hf, if_true, if_false] at h
          simp only [hd, hf, if_true, if_false]
          cases sscanf_line (l.drop 5) with
          | none => rfl
          | some path => exact ih.2 h post _ _ _
        · simp only [outer_at_end, hd, hf, if_false] at h
          simp only [hd, hf, if_false]
          exact ih.1 h post _
    · intro h post root p c
      rw [List.cons_append, load_content, load_content]
      cases he : strncmp_eq l ['E', 'N', 'D'] with
      | true =>
        simp only [outer_at_end, he, if_true] at h
        simp only [if_true]
        exact ih.1 h post _
      | false =>
        simp only [outer_at_end, he, Bool.false_eq_true, if_false] at h
        simp only [Bool.false_eq_true, if_false]
        split
        · exact ih.2 h post _ _ _
        · exact ih.2 h post _ _ _

/-- After lines that leave the loader in its outer loop, the remaining lines
are loaded into the tree built so far. -/
theorem load_lines_append (pre post : List CStr) (root : Directory)
    (h : outer_at_end false pre = true) :
    load_lines (pre ++ post) root = (load_lines pre root).bind (load_lines post) :=
  (load_append_aux pre).1 h post root

theorem load_content_to_end (p c : CStr) (cs : List CStr) (root : Directory)
    (hcs : ∀ l ∈ cs, strncmp_eq l ['E', 'N', 'D'] = false) :
    load_content p c cs root = some (load_file_record p (accumulate_content c cs) root) := by
  induction cs generalizing c with
  | nil => rfl
  | cons l cs ih =>
    simp only [List.mem_cons, forall_eq_or_imp] at hcs
    rw [load_content, accumulate_content]
    simp only [hcs.1, Bool.false_eq_true, if_false]
    split
    · exact ih _ hcs.2
    · exact ih _ hcs.2

theorem load_content_to_sentinel (p c e : CStr) (cs post : List CStr) (root : Directory)
    (hcs : ∀ l ∈ cs, strncmp_eq l ['E', 'N', 'D'] = false)
    (he : strncmp_eq e ['E', 'N', 'D'] = true) :
    load_content p c (cs ++ e :: post) root =
      load_lines post (load_file_record p (accumulate_content c cs) root) := by
  induction cs generalizing c with
  | nil => simp [load_content, he, accumulate_content]
  | cons l cs ih =>
    simp only [List.mem_cons, forall_eq_or_imp] at hcs
    rw [List.cons_append, load_content, accumulate_content]
    simp only [hcs.1, Bool.false_eq_true, if_false]
    split
    · exact ih _ hcs.2
    · exact ih _ hcs.2

theorem load_lines_file_line (line p : CStr) (rest : List CStr) (root : Directory)
    (hf : strncmp_eq line ['F', 'I', 'L', 'E', ' '] = true)
    (hp : sscanf_line (line.drop 5) = some p) :
    load_lines (line :: rest) root = load_content p [] rest root := by
  have hd : strncmp_eq line ['D', 'I', 'R', ' '] = false := by
    cases line with
    | nil => simp [strncmp_eq, List.isPrefixOf] at hf
    | cons x xs =>
      simp only [strncmp_eq, List.isPrefixOf, Bool.and_eq_true, beq_iff_eq] at hf
      simp [strncmp_eq, List.isPrefixOf, ← hf.1]
  rw [load_lines]
  simp [hd, hf, hp]

theorem resolve_below_getDir (toks : List CStr) (d : Directory) :
    ∃ x, getDir (resolve_below toks d).1 (resolve_below toks d).2 = some x := by
  induction toks generalizing d with
  | nil => exact ⟨d, rfl⟩
  | cons tok toks ih =>
    cases hf : find_subdir tok d.subdirs with
    | some i =>
      obtain ⟨c, hc, -, -⟩ := find_subdir_some tok d.subdirs i hf
      have hi : i < d.subdirs.length := (List.getElem?_eq_some_iff.mp hc).1
      obtain ⟨x, hx⟩ := ih c
      refine ⟨x, ?_⟩
      simp [resolve_below, hf, hc, getDir_cons, List.getElem?_set_self hi, hx]
    | none =>
      obtain ⟨x, hx⟩ := ih (create_dir tok)
      refine ⟨x, ?_⟩
      simp [resolve_below, hf, getDir_cons, Directory.dir_count, hx]

theorem find_or_create_getDir (path : CStr) (root : Directory) :
    ∃ x, getDir (find_or_create_dir_by_path path root).1
      (find_or_create_dir_by_path path root).2 = some x := by
  rw [find_or_create_dir_by_path_resolve]
  exact resolve_below_getDir _ root
theorem load_file_record_no_separator (p c : CStr) (root : Directory) (h : '/' ∉ p) :
    load_file_record p c root = root := by
  simp [load_file_record, strrchr_split_none p h]

/-- C14, as stated, fails: the text `FILE f`, `abc` ends inside the content
block of its last `FILE` record, but the path of that record has no `/`, so
the record is dropped after its content has been read: the load returns the
empty root, and no file has been created. -/
theorem C14_counterexample :
    load_filesystem (some "FILE f\nabc\n".toList) init_state.root =
      some (Directory.mk ['/'] [] []) ∧
    fgets_all 8192 "FILE f\nabc\n".toList [] = ["FILE f\n".toList, "abc\n".toList] := by
  constructor
  · rfl
  · decide

/-- C14 (amended): let the lines of the persisted text be `pre`, which leave
the loader in its outer loop, then a `FILE` line with a path `p` that has a
`/` (it splits at its last `/` into `dirp` and `fname`), then lines `cs` up to
the end of input of which none begins with `END`.  Let every record of the
text fit the buffers `path[1024]` and `filename[256]` (`text_fits`), and let
the loaded tree hold at most `MAX_DIRS` subdirectories and `MAX_FILES` files
in every directory, so that no store of the load went past an array.  If `pre`
loads into the tree `r`, then `load_filesystem` returns a tree: the one in
which the directory resolved from `dirp` in `r` (created on demand; the root
when `dirp` is empty) has received, after its files, one new file named
`fname` (cut to 63 bytes) whose content is what the content loop accumulated
from `cs`. -/
theorem C14_load_file_at_end_of_input (text : CStr) (root r : Directory)
    (pre cs : List CStr) (line p dirp fname : CStr)
    (hlines : fgets_all 8192 text [] = pre ++ line :: cs)
    (hpre : outer_at_end false pre = true)
    (hf : strncmp_eq line ['F', 'I', 'L', 'E', ' '] = true)
    (hp : sscanf_line (line.drop 5) = some p)
    (hsplit : strrchr_split '/' p = some (dirp, fname))
    (hcs : ∀ l ∈ cs, strncmp_eq l ['E', 'N', 'D'] = false)
    (hr : load_lines pre root = some r)
    (hfit : text_fits text = true)
    (hbound : (load_filesystem (some text) root).all within_bounds = true) :
    ∃ d, getDir (find_or_create_dir_by_path (if dirp.length > 0 then dirp else ['/']) r).1
        (find_or_create_dir_by_path (if dirp.length > 0 then dirp else ['/']) r).2 = some d ∧
      load_filesystem (some text) root =
        some (modifyDir (push_file (create_file fname (accumulate_content [] cs)))
          (find_or_create_dir_by_path (if dirp.length > 0 then dirp else ['/']) r).1
          (find_or_create_dir_by_path (if dirp.length > 0 then dirp else ['/']) r).2) ∧
      getDir (modifyDir (push_file (create_file fname (accumulate_content [] cs)))
          (find_or_create_dir_by_path (if dirp.length > 0 then dirp else ['/']) r).1
          (find_or_create_dir_by_path (if dirp.length > 0 then dirp else ['/']) r).2)
        (find_or_create_dir_by_path (if dirp.length > 0 then dirp else ['/']) r).2 =
        some (Directory.mk d.name d.subdirs
          (d.files ++ [⟨fname.take 63, accumulate_content [] cs⟩])) := by
  have _ := hfit
  have _ := hbound
  obtain ⟨d, hd⟩ := find_or_create_getDir (if dirp.length > 0 then dirp else ['/']) r
  refine ⟨d, hd, ?_, ?_⟩
  · simp only [load_filesystem]
    rw [hlines, load_lines_append pre _ root hpre, hr, Option.some_bind,
      load_lines_file_line line p cs r hf hp, load_content_to_end p [] cs r hcs]
    simp [load_file_record, hsplit]
  · rw [getDir_modifyDir _ _ _ d hd]
    rfl

/-- C14 witness: the text `DIR /docs/`, `FILE /docs/a.txt`, `hello`, `wor`
ends inside the content block; the file `a.txt` is created in `docs` with the
content `hello`, `wor`. -/
theorem C14_witness :
    ∃ d, getDir (find_or_create_dir_by_path "/docs".toList
          (Directory.mk ['/'] [Directory.mk "docs".toList [] []] [])).1
        (find_or_create_dir_by_path "/docs".toList
          (Directory.mk ['/'] [Directory.mk "docs".toList [] []] [])).2 = some d ∧
      load_filesystem (some "DIR /docs/\nFILE /docs/a.txt\nhello\nwor".toList) init_state.root =
        some (modifyDir (push_file (create_file "a.txt".toList
            (accumulate_content [] ["hello\n".toList, "wor".toList])))
          (find_or_create_dir_by_path "/docs".toList
            (Directory.mk ['/'] [Directory.mk "docs".toList [] []] [])).1
          (find_or_create_dir_by_path "/docs".toList
            (Directory.mk ['/'] [Directory.mk "docs".toList [] []] [])).2) ∧
      getDir (modifyDir (push_file (create_file "a.txt".toList
            (accumulate_content [] ["hello\n".toList, "wor".toList])))
          (find_or_create_dir_by_path "/docs".toList
            (Directory.mk ['/'] [Directory.mk "docs".toList [] []] [])).1
          (find_or_create_dir_by_path "/docs".toList
            (Directory.mk ['/'] [Directory.mk "docs".toList [] []] [])).2)
        (find_or_create_dir_by_path "/docs".toList
          (Directory.mk ['/'] [Directory.mk "docs".toList [] []] [])).2 =
        some (Directory.mk d.name d.subdirs
          (d.files ++ [⟨"a.txt".toList.take 63,
            accumulate_content [] ["hello\n".toList, "wor".toList]⟩])) :=
  C14_load_file_at_end_of_input "DIR /docs/\nFILE /docs/a.txt\nhello\nwor".toList
    init_state.root (Directory.mk ['/'] [Directory.mk "docs".toList [] []] [])
    ["DIR /docs/\n".toList] ["hello\n".toList, "wor".toList] "FILE /docs/a.txt\n".toList
    "/docs/a.txt".toList "/docs".toList "a.txt".toList
    (by decide) (by decide) (by decide) (by decide) (by decide) (by decide) rfl rfl rfl

/-- What the loader does with a record without separator, in the model (which
follows the code while every path fits `path[1024]`): let the lines of the
text be `pre`, which leave the loader in its outer loop, then a `FILE` line
carrying a path `p` without `/`, then the lines `cs`, none of which begins
with `END`, then either a line `e` beginning with `END` and further lines
`post`, or the end of input.  Loading the text gives the same result as
loading a text whose lines are `pre ++ post` (respectively `pre`). -/
theorem skip_record_without_separator (text text' : CStr) (root : Directory)
    (pre cs post : List CStr) (line p : CStr)
    (hpre : outer_at_end false pre = true)
    (hf : strncmp_eq line ['F', 'I', 'L', 'E', ' '] = true)
    (hp : sscanf_line (line.drop 5) = some p)
    (hslash : '/' ∉ p)
    (hcs : ∀ l ∈ cs, strncmp_eq l ['E', 'N', 'D'] = false) :
    (∀ e, strncmp_eq e ['E', 'N', 'D'] = true →
      fgets_all 8192 text [] = pre ++ line :: (cs ++ e :: post) →
      fgets_all 8192 text' [] = pre ++ post →
      load_filesystem (some text) root = load_filesystem (some text') root) ∧
    (fgets_all 8192 text [] = pre ++ line :: cs →
      fgets_all 8192 text' [] = pre →
      load_filesystem (some text) root = load_filesystem (some text') root) := by
  constructor
  · intro e he hl hl'
    simp only [load_filesystem]
    rw [hl, hl', load_lines_append pre _ root hpre, load_lines_append pre post root hpre]
    congr 1
    funext r
    rw [load_lines_file_line line p _ r hf hp, load_content_to_sentinel p [] e cs post r hcs he,
      load_file_record_no_separator p _ r hslash]
  · intro hl hl'
    simp only [load_filesystem]
    rw [hl, hl', load_lines_append pre _ root hpre]
    cases hr : load_lines pre root with
    | none => rfl
    | some r =>
      rw [Option.some_bind, load_lines_file_line line p cs r hf hp,
        load_content_to_end p [] cs r hcs, load_file_record_no_separator p _ r hslash]

/-- In the text `DIR /a/`, `FILE note`, `x`, `END`, `DIR /b/` the record
`FILE note` is skipped: the result is that of `DIR /a/`, `DIR /b/`. -/
theorem skip_record_without_separator_note :
    load_filesystem (some "DIR /a/\nFILE note\nx\nEND\nDIR /b/\n".toList) init_state.root =
      load_filesystem (some "DIR /a/\nDIR /b/\n".toList) init_state.root :=
  (skip_record_without_separator "DIR /a/\nFILE note\nx\nEND\nDIR /b/\n".toList
    "DIR /a/\nDIR /b/\n".toList init_state.root ["DIR /a/\n".toList] ["x\n".toList]
    ["DIR /b/\n".toList] "FILE note\n".toList "note".toList
    (by decide) (by decide) (by decide) (by decide) (by decide)).1 "END\n".toList
    (by decide) (by decide) (by decide)

/-- C15: the code does not do what the claim says.  In the text `DIR /a/`,
`FILE note`, `ENDING`, `DIR /x/`, `END` the record `FILE note` has a path
without `/`, and its content block is `ENDING`, `DIR /x/`, closed by the
sentinel line `END`.  The content loop stops at `ENDING`, because that line
begins with `END`; the record is dropped there, and the rest of its block is
read as records: `DIR /x/` creates the directory `x`.  The text without the
record and its content block is `DIR /a/`, and loads without `x`. -/
theorem C15_block_cut_at_END_prefix :
    load_filesystem (some "DIR /a/\nFILE note\nENDING\nDIR /x/\nEND\n".toList)
        init_state.root =
      some (Directory.mk ['/'] [Directory.mk ['a'] [] [], Directory.mk ['x'] [] []] []) ∧
    load_filesystem (some "DIR /a/\n".toList) init_state.root =
      some (Directory.mk ['/'] [Directory.mk ['a'] [] []] []) :=
  ⟨rfl, rfl⟩

/-! ## Installed apps: parsing one file -/

theorem strtok_scan_segment_gen (dl : Char) (n rest : CStr) (h : dl ∉ n) :
    strtok_scan dl (n ++ dl :: rest) = (n, strtok_all dl rest) := by
  induction n with
  | nil => simp [strtok_scan, strtok_all]
  | cons x xs ih =>
    simp only [List.mem_cons, not_or] at h
    simp [strtok_scan, ih h.2, Ne.symm h.1]

theorem strtok_all_segment_gen (dl : Char) (n rest : CStr) (h : dl ∉ n) (hne : n ≠ []) :
    strtok_all dl (n ++ dl :: rest) = n :: strtok_all dl rest := by
  conv_lhs => rw [strtok_all]
  simp [strtok_scan_segment_gen dl n rest h, hne]

theorem strtok_scan_no_delim_gen (dl : Char) (tok : CStr) (h : dl ∉ tok) :
    strtok_scan dl tok = (tok, []) := by
  induction tok with
  | nil => rfl
  | cons x xs ih =>
    simp only [List.mem_cons, not_or] at h
    simp [strtok_scan, ih h.2, Ne.symm h.1]

theorem strtok_all_single_gen (dl : Char) (tok : CStr) (h : dl ∉ tok) (hne : tok ≠ []) :
    strtok_all dl tok = [tok] := by
  simp [strtok_all, strtok_scan_no_delim_gen dl tok h, hne]

theorem strtok_all_lines (ls : List CStr) (rest : CStr)
    (h : ∀ l ∈ ls, l ≠ [] ∧ '\n' ∉ l) :
    strtok_all '\n' (ls.flatMap (fun l => l ++ ['\n']) ++ rest) = ls ++ strtok_all '\n' rest := by
  induction ls with
  | nil => rfl
  | cons l ls ih =>
    simp only [List.mem_cons, forall_eq_or_imp] at h
    simp only [List.flatMap_cons, List.append_assoc, List.singleton_append, List.cons_append]
    rw [strtok_all_segment_gen '\n' l _ h.1.2 h.1.1]
    simp only [List.nil_append]
    rw [ih h.2]

theorem strrchr_split_none_gen (c : Char) (b : CStr) (h : c ∉ b) : strrchr_split c b = none := by
  induction b with
  | nil => rfl
  | cons x xs ih =>
    simp only [List.mem_cons, not_or] at h
    simp [strrchr_split, ih h.2, Ne.symm h.1]

theorem strrchr_split_append_gen (c : Char) (a b : CStr) (h : c ∉ b) :
    strrchr_split c (a ++ c :: b) = some (a, b) := by
  induction a with
  | nil => simp [strrchr_split, strrchr_split_none_gen c b h]
  | cons x xs ih => simp [strrchr_split, ih]

theorem ext_is_savapp_append (base : CStr) : ext_is_savapp (base ++ ".savapp".toList) = true := by
  have h : base ++ ".savapp".toList = base ++ '.' :: "savapp".toList := rfl
  rw [ext_is_savapp, h, strrchr_split_append_gen '.' base _ (by decide)]
  rfl

theorem strncat_bounded_fits (dst src : CStr) (h : dst.length + src.length ≤ 4095) :
    strncat_bounded MAX_CONTENT dst src = dst ++ src := by
  unfold strncat_bounded
  rw [List.take_of_length_le (by simp only [MAX_CONTENT]; omega)]

theorem app_code_lines_eq (code : CStr) (ls tc : List CStr)
    (htc : tc = [] ∨ ∃ more, tc = "ENDAPP".toList :: more)
    (hls : ∀ l ∈ ls, l ≠ "ENDAPP".toList)
    (hsize : code.length + (ls.flatMap (fun l => l ++ ['\n'])).length ≤ 4095) :
    app_code_lines code (ls ++ tc) = code ++ ls.flatMap (fun l => l ++ ['\n']) := by
  induction ls generalizing code with
  | nil =>
    rcases htc with h | ⟨more, h⟩
    · subst h; simp [app_code_lines]
    · subst h
      have : "ENDAPP".toList = ['E', 'N', 'D', 'A', 'P', 'P'] := rfl
      simp [app_code_lines, this]
  | cons l ls ih =>
    simp only [List.mem_cons, forall_eq_or_imp] at hls
    simp only [List.flatMap_cons, List.length_append, List.length_singleton] at hsize
    have hne : ¬ l = ['E', 'N', 'D', 'A', 'P', 'P'] := hls.1
    have hf1 : code.length + l.length ≤ 4095 := by omega
    have hf2 : (code ++ l).length + ['\n'].length ≤ 4095 := by
      simp only [List.length_append, List.length_singleton]; omega
    have hf3 : (code ++ l ++ ['\n']).length +
        (ls.flatMap (fun l => l ++ ['\n'])).length ≤ 4095 := by
      simp only [List.length_append, List.length_singleton]; omega
    rw [List.cons_append, app_code_lines, if_neg hne, strncat_bounded_fits code l hf1,
      strncat_bounded_fits (code ++ l) ['\n'] hf2, ih _ hls.2 hf3]
    simp

theorem load_apps_from_files_append (pre post : List File) (apps : List App) :
    load_apps_from_files (pre ++ post) apps =
      load_apps_from_files post (load_apps_from_files pre apps) := by
  induction pre generalizing apps with
  | nil => rfl
  | cons f fs ih =>
    simp only [List.cons_append, load_apps_from_files]
    split
    · split
      · exact ih _
      · exact ih _
    · exact ih _

theorem parse_savapp_content (n d l0 closing : CStr) (ls : List CStr)
    (hclosing : closing = [] ∨ closing = "ENDAPP".toList ∨
      ∃ rest, closing = "ENDAPP".toList ++ '\n' :: rest)
    (hn_nl : '\n' ∉ n) (hd_nl : '\n' ∉ d) (hl0 : '\n' ∉ l0)
    (hls : ∀ l ∈ ls, l ≠ [] ∧ '\n' ∉ l ∧ l ≠ "ENDAPP".toList)
    (hsize : n.length ≤ 63 ∧ d.length ≤ 255 ∧
      (l0 ++ '\n' :: ls.flatMap (fun l => l ++ ['\n'])).length ≤ 4095) :
    parse_savapp_lines
      (strtok_all '\n' ("APP_NAME=".toList ++ n ++ '\n' :: ("APP_DESC=".toList ++ d ++
        '\n' :: ("CODE=".toList ++ l0 ++
          '\n' :: (ls.flatMap (fun l => l ++ ['\n']) ++ closing))))) [] [] =
      (n, d, l0 ++ '\n' :: ls.flatMap (fun l => l ++ ['\n'])) := by
  have hkn : "APP_NAME=".toList = ['A', 'P', 'P', '_', 'N', 'A', 'M', 'E', '='] := rfl
  have hkd : "APP_DESC=".toList = ['A', 'P', 'P', '_', 'D', 'E', 'S', 'C', '='] := rfl
  have hkc : "CODE=".toList = ['C', 'O', 'D', 'E', '='] := rfl
  have hnl1 : '\n' ∉ "APP_NAME=".toList ++ n := by
    intro h; rcases List.mem_append.mp h with h | h
    · revert h; decide
    · exact hn_nl h
  have hnl2 : '\n' ∉ "APP_DESC=".toList ++ d := by
    intro h; rcases List.mem_append.mp h with h | h
    · revert h; decide
    · exact hd_nl h
  have hnl3 : '\n' ∉ "CODE=".toList ++ l0 := by
    intro h; rcases List.mem_append.mp h with h | h
    · revert h; decide
    · exact hl0 h
  have htc : strtok_all '\n' closing = [] ∨
      ∃ more, strtok_all '\n' closing = "ENDAPP".toList :: more := by
    rcases hclosing with h | h | ⟨rest, h⟩
    · left; subst h; rfl
    · right; subst h; exact ⟨[], by decide⟩
    · right; subst h
      exact ⟨_, strtok_all_segment_gen '\n' _ rest (by decide) (by decide)⟩
  rw [strtok_all_segment_gen '\n' _ _ hnl1 (by simp [hkn]),
    strtok_all_segment_gen '\n' _ _ hnl2 (by simp [hkd]),
    strtok_all_segment_gen '\n' _ _ hnl3 (by simp [hkc]),
    strtok_all_lines ls closing (fun l hl => ⟨(hls l hl).1, (hls l hl).2.1⟩)]
  have h1 : strncmp_eq ("APP_NAME=".toList ++ n) "APP_NAME=".toList = true := by
    simp [strncmp_eq, hkn, List.isPrefixOf]
  have h2a : strncmp_eq ("APP_DESC=".toList ++ d) "APP_NAME=".toList = false := by
    simp [strncmp_eq, hkn, hkd, List.isPrefixOf]
  have h2 : strncmp_eq ("APP_DESC=".toList ++ d) "APP_DESC=".toList = true := by
    simp [strncmp_eq, hkd, List.isPrefixOf]
  have h3a : strncmp_eq ("CODE=".toList ++ l0) "APP_NAME=".toList = false := by
    simp [strncmp_eq, hkn, hkc, List.isPrefixOf]
  have h3b : strncmp_eq ("CODE=".toList ++ l0) "APP_DESC=".toList = false := by
    simp [strncmp_eq, hkd, hkc, List.isPrefixOf]
  have h3 : strncmp_eq ("CODE=".toList ++ l0) "CODE=".toList = true := by
    simp [strncmp_eq, hkc, List.isPrefixOf]
  have hd9n : ("APP_NAME=".toList ++ n).drop 9 = n := by simp [hkn]
  have hd9d : ("APP_DESC=".toList ++ d).drop 9 = d := by simp [hkd]
  have hd5 : ("CODE=".toList ++ l0).drop 5 = l0 := by simp [hkc]
  obtain ⟨hs1, hs2, hs3⟩ := hsize
  simp only [List.length_append, List.length_cons] at hs3
  have hf1 : ([] : CStr).length + l0.length ≤ 4095 := by
    simp only [List.length_nil]; omega
  have hf2 : l0.length + ['\n'].length ≤ 4095 := by
    simp only [List.length_singleton]; omega
  have hf3 : (l0 ++ ['\n']).length + (ls.flatMap (fun l => l ++ ['\n'])).length ≤ 4095 := by
    simp only [List.length_append, List.length_singleton]; omega
  simp only [parse_savapp_lines, h1, h2a, h2, h3a, h3b, h3, Bool.false_eq_true, if_false,
    if_true, hd9n, hd9d, hd5]
  rw [List.take_of_length_le hs1, List.take_of_length_le hs2,
    strncat_bounded_fits [] l0 hf1, List.nil_append,
    strncat_bounded_fits l0 ['\n'] hf2,
    app_code_lines_eq _ ls _ htc (fun l hl => (hls l hl).2.2) hf3]
  simp

/-- C16, as stated, fails: payload lines are read with `strtok(NULL, "\n")`,
which passes over empty lines.  For the content `APP_NAME=a`, `APP_DESC=d`,
`CODE=x`, an empty line, `y`, `ENDAPP`, the registered payload is `x`, `y`,
not `x`, the empty line, `y`. -/
theorem C16_counterexample :
    load_apps_from_files
        [⟨"a.savapp".toList, "APP_NAME=a\nAPP_DESC=d\nCODE=x\n\ny\nENDAPP\n".toList⟩] [] =
      [⟨['a'], ['d'], "x\ny\n".toList, 0⟩] ∧
    "x\ny\n".toList ≠ "x\n\ny\n".toList := by
  decide

/-- C16 (amended): let `/apps` hold, between the files `pre` and `post`, a
file whose name ends in `.savapp` and whose content is `APP_NAME=n`,
`APP_DESC=d`, `CODE=l0`, the non-empty payload lines `ls` (none equal to
`ENDAPP`) and then `ENDAPP` on a line of its own or the end of the content,
with `n` non-empty and everything within the buffer sizes, and let the
registry hold at most 256 records afterwards, so that no record was stored
past the array `apps[256]`.  Then `load_installed_apps_from_vfs` registers for
it exactly one record, after the records of `pre` and before those of `post`:
name `n`, description `d`, builtin flag 0, and as payload `l0` and every line
of `ls`, each followed by a newline. -/
theorem C16_load_savapp_record (st : State) (appdir : Directory) (pre post : List File)
    (f : File) (base n d l0 closing : CStr) (ls : List CStr)
    (hdir : getDir (find_or_create_dir_by_path "/apps".toList st.root).1
      (find_or_create_dir_by_path "/apps".toList st.root).2 = some appdir)
    (hfiles : appdir.files = pre ++ f :: post)
    (hname : f.name = base ++ ".savapp".toList)
    (hcontent : f.content = "APP_NAME=".toList ++ n ++ '\n' :: ("APP_DESC=".toList ++ d ++
      '\n' :: ("CODE=".toList ++ l0 ++ '\n' :: (ls.flatMap (fun l => l ++ ['\n']) ++ closing))))
    (hclosing : closing = [] ∨ closing = "ENDAPP".toList ∨
      ∃ rest, closing = "ENDAPP".toList ++ '\n' :: rest)
    (hn : n ≠ []) (hn_nl : '\n' ∉ n) (hd_nl : '\n' ∉ d) (hl0 : '\n' ∉ l0)
    (hls : ∀ l ∈ ls, l ≠ [] ∧ '\n' ∉ l ∧ l ≠ "ENDAPP".toList)
    (hsize : n.length ≤ 63 ∧ d.length ≤ 255 ∧
      (l0 ++ '\n' :: ls.flatMap (fun l => l ++ ['\n'])).length ≤ 4095)
    (hroom : (load_installed_apps_from_vfs st).apps.length ≤ 256) :
    (load_installed_apps_from_vfs st).apps =
      load_apps_from_files post
        (load_apps_from_files pre st.apps ++
          [⟨n, d, l0 ++ '\n' :: ls.flatMap (fun l => l ++ ['\n']), 0⟩]) := by
  have _ := hroom
  have hparse := parse_savapp_content n d l0 closing ls hclosing hn_nl hd_nl hl0 hls hsize
  rw [← hcontent] at hparse
  have hpos : n.length > 0 := List.length_pos.mpr hn
  simp only [load_installed_apps_from_vfs, hdir, hfiles]
  rw [load_apps_from_files_append, load_apps_from_files, hname, ext_is_savapp_append, if_pos rfl,
    hparse]
  simp only [hpos, if_true, register_app, MAX_CONTENT]
  rw [List.take_of_length_le hsize.1, List.take_of_length_le hsize.2.1,
    List.take_of_length_le (by have := hsize.2.2; omega)]

/-- C16 witness: the content `APP_NAME=hello`, `APP_DESC=x`, `CODE=PRINT:hi`,
`ENDAPP` gives one record named `hello` that is not built in, and running it
prints `hi` (followed by the newline of the payload and that of `printf`). -/
theorem C16_witness :
    (load_installed_apps_from_vfs hello_app_state).apps =
      [⟨"hello".toList, ['x'], "PRINT:hi\n".toList, 0⟩] ∧
    run_app_output "hello".toList (load_installed_apps_from_vfs hello_app_state) =
      some "hi\n\n".toList :=
  ⟨C16_load_savapp_record hello_app_state
      (Directory.mk "apps".toList []
        [⟨"hello.savapp".toList, "APP_NAME=hello\nAPP_DESC=x\nCODE=PRINT:hi\nENDAPP\n".toList⟩])
      [] []
      ⟨"hello.savapp".toList, "APP_NAME=hello\nAPP_DESC=x\nCODE=PRINT:hi\nENDAPP\n".toList⟩
      "hello".toList "hello".toList ['x'] "PRINT:hi".toList "ENDAPP\n".toList []
      rfl rfl (by decide) (by decide)
      (Or.inr (Or.inr ⟨[], by decide⟩)) (by decide) (by decide) (by decide) (by decide)
      (by decide) (by decide) (by decide!),
    by decide⟩

/-! ## Installed apps: the registry after install and uninstall -/

theorem purge_installed_from_eq (fuel i : Nat) (apps : List App)
    (hfuel : apps.length ≤ fuel + i) (hpre : ∀ a ∈ apps.take i, a.builtin ≠ 0) :
    purge_installed_from fuel i apps = apps.filter (fun a => decide (a.builtin ≠ 0)) := by
  induction fuel generalizing i apps with
  | zero =>
    simp only [purge_installed_from]
    rw [List.take_of_length_le (by omega)] at hpre
    exact (List.filter_eq_self.mpr (fun a ha => by simpa using hpre a ha)).symm
  | succ fuel ih =>
    simp only [purge_installed_from]
    cases hi : apps[i]? with
    | none =>
      have hlen : apps.length ≤ i := List.getElem?_eq_none_iff.mp hi
      rw [List.take_of_length_le hlen] at hpre
      exact (List.filter_eq_self.mpr (fun a ha => by simpa using hpre a ha)).symm
    | some a =>
      obtain ⟨hlt, ha⟩ := List.getElem?_eq_some_iff.mp hi
      have hsplit : apps = apps.take i ++ a :: apps.drop (i + 1) := by
        rw [← ha]
        exact (List.take_append_drop i apps).symm.trans (by rw [List.drop_eq_getElem_cons hlt])
      by_cases hb : a.builtin = 0
      · simp only [hb, if_true]
        have herase : apps.eraseIdx i = apps.take i ++ apps.drop (i + 1) :=
          List.eraseIdx_eq_take_drop_succ apps i
        rw [ih i (apps.eraseIdx i) (by rw [List.length_eraseIdx, if_pos hlt]; omega) (by
          rw [herase, List.take_append_of_le_length (by simp; omega)]
          simpa [List.take_take] using hpre)]
        rw [herase]
        conv_rhs => rw [hsplit]
        simp [List.filter_append, hb]
      · simp only [hb, if_false]
        apply ih (i + 1) apps (by omega)
        intro b hbmem
        rw [List.take_succ, hi] at hbmem
        simp only [Option.toList, List.mem_append, List.mem_singleton] at hbmem
        rcases hbmem with h | h
        · exact hpre b h
        · subst h; exact hb

/-- The removal loop of `cmd_wipe` and `install_app_command` keeps exactly the
records whose builtin flag is set, in their order. -/
theorem purge_installed_eq_filter (apps : List App) :
    purge_installed apps = apps.filter (fun a => decide (a.builtin ≠ 0)) :=
  purge_installed_from_eq apps.length 0 apps (by omega) (by simp)

/-- C17: the code does not do what the claim says for `uninstall`.  After
`install hello`, `install simple-notepad`, `cd apps`, `rm hello.savapp` and
`uninstall snotepad`, the directory `/apps` holds no file, so a rebuild from it
gives the four built-in records only; the registry still lists `hello`,
because `uninstall_app_command` removes one record instead of rebuilding.
After the two `install` commands, by contrast, the registry is the rebuilt
one. -/
theorem C17_uninstall_keeps_stale_record :
    uninstall_scenario.apps.map App.name =
      ["calculator".toList, "notepad".toList, "numbergame".toList, "about".toList,
        "hello".toList] ∧
    (cur_dir uninstall_scenario).map Directory.files = some [] ∧
    (load_installed_apps_from_vfs
        { uninstall_scenario with apps := purge_installed uninstall_scenario.apps }).apps.map
        App.name =
      ["calculator".toList, "notepad".toList, "numbergame".toList, "about".toList] ∧
    (install_app_command "simple-notepad".toList
        (install_app_command "hello".toList startup_state)).apps =
      (load_installed_apps_from_vfs
        { install_app_command "simple-notepad".toList
            (install_app_command "hello".toList startup_state) with
          apps := purge_installed (install_app_command "simple-notepad".toList
            (install_app_command "hello".toList startup_state)).apps }).apps := by
  decide

/-! ## Loading twice: records and steps -/

theorem load_eq_parse_aux (ls : List CStr) :
    (∀ r, load_lines ls r = (parse_lines ls).map (fun ops => ops.foldl apply_load_op r)) ∧
    (∀ p c r, load_content p c ls r =
      (parse_content p c ls).map (fun ops => ops.foldl apply_load_op r)) := by
  induction ls with
  | nil => exact ⟨fun r => rfl, fun p c r => rfl⟩
  | cons l ls ih =>
    constructor
    · intro r
      rw [load_lines, parse_lines]
      cases hd : strncmp_eq l ['D', 'I', 'R', ' '] with
      | true =>
        simp only [if_true]
        cases sscanf_line (l.drop 4) with
        | none => rfl
        | some path =>
          simp only [ih.1]
          cases parse_lines ls <;> rfl
      | false =>
        simp only [Bool.false_eq_true, if_false]
        cases hf : strncmp_eq l ['F', 'I', 'L', 'E', ' '] with
        | true =>
          simp only [if_true]
          cases sscanf_line (l.drop 5) with
          | none => rfl
          | some path => exact ih.2 _ _ _
        | false =>
          simp only [Bool.false_eq_true, if_false]
          exact ih.1 _
    · intro p c r
      rw [load_content, parse_content]
      cases he : strncmp_eq l ['E', 'N', 'D'] with
      | true =>
        simp only [if_true, ih.1]
        cases parse_lines ls <;> rfl
      | false =>
        simp only [Bool.false_eq_true, if_false]
        split
        · exact ih.2 _ _ _
        · exact ih.2 _ _ _

/-- The loader applies, in order, the records it finds in the lines. -/
theorem load_lines_eq_parse (ls : List CStr) (r : Directory) :
    load_lines ls r = (parse_lines ls).map (fun ops => ops.foldl apply_load_op r) :=
  (load_eq_parse_aux ls).1 r

theorem apply_load_op_eq_step (r : Directory) (op : LoadOp) :
    apply_load_op r op = apply_step r (load_op_tokens op) (load_op_file op) := by
  cases op with
  | dir p =>
    simp only [apply_load_op, load_op_tokens, load_op_file, apply_step,
      find_or_create_dir_by_path_resolve]
  | file p c =>
    simp only [apply_load_op, load_op_tokens, load_op_file, load_file_record]
    cases strrchr_split '/' p with
    | none => rfl
    | some s => simp only [apply_step, find_or_create_dir_by_path_resolve]
/-! ## Loading twice: trees inside trees -/

theorem sub_tree_iff (s t : Directory) :
    sub_tree s t ↔ s.name = t.name ∧ sub_tree_list s.subdirs t.subdirs := by
  cases s; simp [sub_tree]

theorem merge_files_eq (t s : Directory) :
    merge_files t s =
      Directory.mk t.name (merge_files_list t.subdirs s.subdirs) (t.files ++ s.files) := by
  cases t; simp [merge_files]

theorem merge_files_name (t s : Directory) : (merge_files t s).name = t.name := by
  rw [merge_files_eq]; rfl

theorem merge_files_list_nil (ts : List Directory) : merge_files_list ts [] = ts := by
  cases ts <;> simp [merge_files_list]

theorem merge_files_empty (t : Directory) (n : CStr) :
    merge_files t (Directory.mk n [] []) = t := by
  rw [merge_files_eq]
  simp [merge_files_list_nil]

theorem list_set_eq_self (l : List Directory) (i : Nat) (x : Directory) (h : l[i]? = some x) :
    l.set i x = l := by
  apply List.ext_getElem?
  intro j
  by_cases hj : i = j
  · subst hj
    rcases List.getElem?_eq_some_iff.mp h with ⟨hi, _⟩
    simp [List.getElem?_set_self hi, h]
  · simp [List.getElem?_set_ne hj]

mutual
theorem sub_tree_refl (s : Directory) : sub_tree s s := by
  match s with
  | Directory.mk n ss fs =>
    simp only [sub_tree, Directory.name_mk, Directory.subdirs_mk, true_and]
    exact sub_tree_list_refl ss
theorem sub_tree_list_refl (ss : List Directory) : sub_tree_list ss ss := by
  match ss with
  | [] => simp [sub_tree_list]
  | s :: ss =>
    simp only [sub_tree_list]
    exact ⟨sub_tree_refl s, sub_tree_list_refl ss⟩
end

mutual
theorem sub_tree_trans (s t u : Directory) (h1 : sub_tree s t) (h2 : sub_tree t u) :
    sub_tree s u := by
  match s with
  | Directory.mk n ss fs =>
    simp only [sub_tree] at h1 ⊢
    rw [sub_tree_iff] at h2
    exact ⟨h1.1.trans h2.1, sub_tree_list_trans ss t.subdirs u.subdirs h1.2 h2.2⟩
theorem sub_tree_list_trans (ss ts us : List Directory) (h1 : sub_tree_list ss ts)
    (h2 : sub_tree_list ts us) : sub_tree_list ss us := by
  match ss, ts, us with
  | [], _, _ => simp [sub_tree_list]
  | _ :: _, [], _ => simp [sub_tree_list] at h1
  | _ :: _, _ :: _, [] => simp [sub_tree_list] at h2
  | s :: ss, t :: ts, u :: us =>
    simp only [sub_tree_list] at h1 h2 ⊢
    exact ⟨sub_tree_trans s t u h1.1 h2.1, sub_tree_list_trans ss ts us h1.2 h2.2⟩
end

theorem sub_tree_list_append (ss extra : List Directory) : sub_tree_list ss (ss ++ extra) := by
  induction ss with
  | nil => simp [sub_tree_list]
  | cons s ss ih =>
    simp only [List.cons_append, sub_tree_list]
    exact ⟨sub_tree_refl s, ih⟩

theorem sub_tree_list_set_self (ss : List Directory) (i : Nat) (c c' : Directory)
    (hc : ss[i]? = some c) (h : sub_tree c c') : sub_tree_list ss (ss.set i c') := by
  induction ss generalizing i with
  | nil => simp at hc
  | cons s ss ih =>
    cases i with
    | zero =>
      simp only [List.getElem?_cons_zero, Option.some.injEq] at hc
      subst hc
      simp only [List.set_cons_zero, sub_tree_list]
      exact ⟨h, sub_tree_list_refl ss⟩
    | succ i =>
      simp only [List.getElem?_cons_succ] at hc
      simp only [List.set_cons_succ, sub_tree_list]
      exact ⟨sub_tree_refl s, ih i hc⟩

theorem sub_tree_resolve_below (toks : List CStr) (d : Directory) :
    sub_tree d (resolve_below toks d).1 := by
  induction toks generalizing d with
  | nil => exact sub_tree_refl d
  | cons tok toks ih =>
    rw [sub_tree_iff]
    cases hf : find_subdir tok d.subdirs with
    | some i =>
      obtain ⟨c, hc, -, -⟩ := find_subdir_some tok d.subdirs i hf
      simp only [resolve_below, hf, hc, Directory.name_mk, Directory.subdirs_mk, true_and]
      exact sub_tree_list_set_self d.subdirs i c _ hc (ih c)
    | none =>
      simp only [resolve_below, hf, Directory.name_mk, Directory.subdirs_mk, true_and]
      exact sub_tree_list_append d.subdirs _

theorem sub_tree_push_file (f : File) (d : Directory) (p : List Nat) :
    sub_tree d (modifyDir (push_file f) d p) := by
  induction p generalizing d with
  | nil =>
    rw [sub_tree_iff]
    exact ⟨rfl, sub_tree_list_refl _⟩
  | cons i p ih =>
    simp only [modifyDir]
    cases hc : d.subdirs[i]? with
    | none => exact sub_tree_refl d
    | some c =>
      rw [sub_tree_iff]
      exact ⟨rfl, sub_tree_list_set_self d.subdirs i c _ hc (ih c)⟩

theorem sub_tree_apply_step (r : Directory) (toks : List CStr) (f : Option File) :
    sub_tree r (apply_step r toks f) := by
  cases f with
  | none => exact sub_tree_resolve_below toks r
  | some nf =>
    exact sub_tree_trans _ _ _ (sub_tree_resolve_below toks r) (sub_tree_push_file nf _ _)

theorem sub_tree_name (s t : Directory) (h : sub_tree s t) : s.name = t.name :=
  ((sub_tree_iff s t).mp h).1

theorem merge_files_list_set (ts ss : List Directory) (i : Nat) (s t s2 : Directory)
    (hs : ss[i]? = some s) (ht : ts[i]? = some t) :
    merge_files_list ts (ss.set i s2) = (merge_files_list ts ss).set i (merge_files t s2) ∧
      (merge_files_list ts ss)[i]? = some (merge_files t s) := by
  induction ts generalizing ss i with
  | nil => simp at ht
  | cons t0 ts ih =>
    cases ss with
    | nil => simp at hs
    | cons s0 ss =>
      cases i with
      | zero =>
        simp only [List.getElem?_cons_zero, Option.some.injEq] at hs ht
        subst hs; subst ht
        simp [merge_files_list]
      | succ i =>
        simp only [List.getElem?_cons_succ] at hs ht
        obtain ⟨h1, h2⟩ := ih ss i hs ht
        simp [merge_files_list, h1, h2]

theorem merge_found (tok : CStr) (ss ts : List Directory) (i : Nat) (c2 : Directory)
    (hf : find_subdir tok ss = some i) (hsub : sub_tree_list (ss.set i c2) ts)
    (hn : c2.name = tok) :
    ∃ t, ts[i]? = some t ∧ sub_tree c2 t ∧
      find_subdir tok (merge_files_list ts ss) = some i := by
  induction ss generalizing i ts with
  | nil => simp [find_subdir] at hf
  | cons s0 ss ih =>
    simp only [find_subdir] at hf
    by_cases hd : s0.name = tok
    · simp only [hd, if_true, Option.some.injEq] at hf
      subst hf
      cases ts with
      | nil => simp [sub_tree_list] at hsub
      | cons t0 ts =>
        simp only [List.set_cons_zero, sub_tree_list] at hsub
        refine ⟨t0, by simp, hsub.1, ?_⟩
        have h0 : (merge_files t0 s0).name = tok := by
          rw [merge_files_name, ← sub_tree_name c2 t0 hsub.1, hn]
        simp [merge_files_list, find_subdir, h0]
    · simp only [hd, if_false] at hf
      cases hr : find_subdir tok ss with
      | none => simp [hr] at hf
      | some k =>
        simp only [hr, Option.map_some', Option.some.injEq] at hf
        subst hf
        cases ts with
        | nil => simp [sub_tree_list] at hsub
        | cons t0 ts =>
          simp only [List.set_cons_succ, sub_tree_list] at hsub
          obtain ⟨t, h1, h2, h3⟩ := ih ts k hr hsub.2
          refine ⟨t, by simpa using h1, h2, ?_⟩
          have h0 : ¬ (merge_files t0 s0).name = tok := by
            rw [merge_files_name, ← sub_tree_name s0 t0 hsub.1]; exact hd
          simp [merge_files_list, find_subdir, h0, h3]

theorem merge_created (tok : CStr) (ss ts : List Directory) (c2 : Directory)
    (hf : find_subdir tok ss = none) (hsub : sub_tree_list (ss ++ [c2]) ts)
    (hn : c2.name = tok) :
    ∃ t, ts[ss.length]? = some t ∧ sub_tree c2 t ∧
      find_subdir tok (merge_files_list ts ss) = some ss.length ∧
      (merge_files_list ts ss)[ss.length]? = some t ∧
      merge_files_list ts (ss ++ [c2]) =
        (merge_files_list ts ss).set ss.length (merge_files t c2) := by
  induction ss generalizing ts with
  | nil =>
    cases ts with
    | nil => simp [sub_tree_list] at hsub
    | cons t0 ts =>
      simp only [List.nil_append, sub_tree_list] at hsub
      have h0 : t0.name = tok := by rw [← sub_tree_name c2 t0 hsub.1, hn]
      refine ⟨t0, by simp, hsub.1, ?_, ?_, ?_⟩
      · simp [merge_files_list, find_subdir, h0]
      · simp [merge_files_list]
      · simp [merge_files_list, merge_files_list_nil]
  | cons s0 ss ih =>
    simp only [find_subdir] at hf
    by_cases hd : s0.name = tok
    · simp [hd] at hf
    · simp only [hd, if_false, Option.map_eq_none'] at hf
      cases ts with
      | nil => simp [sub_tree_list] at hsub
      | cons t0 ts =>
        simp only [List.cons_append, sub_tree_list] at hsub
        obtain ⟨t, h1, h2, h3, h4, h5⟩ := ih ts hf hsub.2
        have h0 : ¬ (merge_files t0 s0).name = tok := by
          rw [merge_files_name, ← sub_tree_name s0 t0 hsub.1]; exact hd
        refine ⟨t, by simpa using h1, h2, ?_, ?_, ?_⟩
        · simp [merge_files_list, find_subdir, h0, h3]
        · simpa [merge_files_list] using h4
        · simp [merge_files_list, h5]

theorem create_dir_name_short (tok : CStr) (h : tok.length ≤ 63) : (create_dir tok).name = tok := by
  simp only [create_dir, Directory.name_mk, MAX_NAME]
  exact List.take_of_length_le h

theorem resolve_below_merge (toks : List CStr) (S T : Directory)
    (hshort : ∀ t ∈ toks, t.length ≤ 63)
    (hsub : sub_tree (resolve_below toks S).1 T) :
    resolve_below toks (merge_files T S) = (merge_files T S, (resolve_below toks S).2) ∧
      merge_files T (resolve_below toks S).1 = merge_files T S := by
  induction toks generalizing S T with
  | nil => exact ⟨rfl, rfl⟩
  | cons tok toks ih =>
    simp only [List.mem_cons, forall_eq_or_imp] at hshort
    have hTS : (merge_files T S).subdirs = merge_files_list T.subdirs S.subdirs := by
      rw [merge_files_eq]; rfl
    cases hf : find_subdir tok S.subdirs with
    | some i =>
      obtain ⟨c, hc, hcn, -⟩ := find_subdir_some tok S.subdirs i hf
      have hres : resolve_below (tok :: toks) S =
          (Directory.mk S.name (S.subdirs.set i (resolve_below toks c).1) S.files,
            i :: (resolve_below toks c).2) := by
        simp only [resolve_below, hf, hc]
      rw [hres] at hsub ⊢
      rw [sub_tree_iff] at hsub
      simp only [Directory.name_mk, Directory.subdirs_mk] at hsub
      have hn2 : (resolve_below toks c).1.name = tok := by rw [resolve_below_name, hcn]
      obtain ⟨t, ht, hct, hfind⟩ :=
        merge_found tok S.subdirs T.subdirs i _ hf hsub.2 hn2
      obtain ⟨hset, hget⟩ :=
        merge_files_list_set T.subdirs S.subdirs i c t (resolve_below toks c).1 hc ht
      obtain ⟨ih1, ih2⟩ := ih c t hshort.2 hct
      constructor
      · simp only [resolve_below, hTS, hfind, hget, ih1]
        rw [list_set_eq_self _ _ _ hget, ← hTS]
        rw [merge_files_eq T S]
        rfl
      · rw [merge_files_eq T, merge_files_eq T S]
        simp only [Directory.subdirs_mk, Directory.files_mk, hset, ih2]
        rw [list_set_eq_self _ _ _ hget]
    | none =>
      have hres : resolve_below (tok :: toks) S =
          (Directory.mk S.name (S.subdirs ++ [(resolve_below toks (create_dir tok)).1]) S.files,
            S.dir_count :: (resolve_below toks (create_dir tok)).2) := by
        simp only [resolve_below, hf]
      rw [hres] at hsub ⊢
      rw [sub_tree_iff] at hsub
      simp only [Directory.name_mk, Directory.subdirs_mk] at hsub
      have hn2 : (resolve_below toks (create_dir tok)).1.name = tok := by
        rw [resolve_below_name, create_dir_name_short tok hshort.1]
      obtain ⟨t, ht, hct, hfind, hget, hset⟩ :=
        merge_created tok S.subdirs T.subdirs _ hf hsub.2 hn2
      obtain ⟨ih1, ih2⟩ := ih (create_dir tok) t hshort.2 hct
      have hempty : merge_files t (create_dir tok) = t := merge_files_empty t _
      rw [hempty] at ih1 ih2
      constructor
      · simp only [resolve_below, hTS, hfind, hget, ih1]
        rw [list_set_eq_self _ _ _ hget, ← hTS]
        rw [merge_files_eq T S]
        rfl
      · rw [merge_files_eq T, merge_files_eq T S]
        simp only [Directory.subdirs_mk, Directory.files_mk, hset, ih2]
        rw [list_set_eq_self _ _ _ hget]

theorem sub_tree_list_getElem (ss ts : List Directory) (i : Nat) (s : Directory)
    (h : sub_tree_list ss ts) (hs : ss[i]? = some s) :
    ∃ t, ts[i]? = some t ∧ sub_tree s t := by
  induction ss generalizing ts i with
  | nil => simp at hs
  | cons s0 ss ih =>
    cases ts with
    | nil => simp [sub_tree_list] at h
    | cons t0 ts =>
      simp only [sub_tree_list] at h
      cases i with
      | zero =>
        simp only [List.getElem?_cons_zero, Option.some.injEq] at hs
        subst hs
        exact ⟨t0, by simp, h.1⟩
      | succ i =>
        simp only [List.getElem?_cons_succ] at hs ⊢
        exact ih ts i h.2 hs

theorem merge_files_push_file (f : File) (p : List Nat) (S T : Directory)
    (hsub : sub_tree S T) (hp : ∃ x, getDir S p = some x) :
    merge_files T (modifyDir (push_file f) S p) =
      modifyDir (push_file f) (merge_files T S) p := by
  induction p generalizing S T with
  | nil =>
    simp only [modifyDir]
    rw [merge_files_eq T, merge_files_eq T S]
    simp [push_file]
  | cons i p ih =>
    obtain ⟨x, hx⟩ := hp
    simp only [getDir] at hx
    cases hc : S.subdirs[i]? with
    | none => simp [hc] at hx
    | some c =>
      simp only [hc] at hx
      rw [sub_tree_iff] at hsub
      obtain ⟨t, ht, hct⟩ := sub_tree_list_getElem S.subdirs T.subdirs i c hsub.2 hc
      obtain ⟨hset, hget⟩ :=
        merge_files_list_set T.subdirs S.subdirs i c t (modifyDir (push_file f) c p) hc ht
      have hTS : (merge_files T S).subdirs = merge_files_list T.subdirs S.subdirs := by
        rw [merge_files_eq]; rfl
      simp only [modifyDir, hc, hTS, hget]
      rw [merge_files_eq T, ← ih c t hct ⟨x, hx⟩]
      simp only [Directory.subdirs_mk, Directory.files_mk, hset]
      rw [merge_files_eq T S]
      rfl

theorem apply_step_merge (S T : Directory) (toks : List CStr) (f : Option File)
    (hshort : ∀ t ∈ toks, t.length ≤ 63) (hsub : sub_tree (apply_step S toks f) T) :
    apply_step (merge_files T S) toks f = merge_files T (apply_step S toks f) := by
  cases f with
  | none =>
    obtain ⟨h1, h2⟩ := resolve_below_merge toks S T hshort hsub
    simp only [apply_step, h1, h2]
  | some nf =>
    have hsub2 : sub_tree (resolve_below toks S).1 T :=
      sub_tree_trans _ _ _ (sub_tree_push_file nf _ _) hsub
    obtain ⟨h1, h2⟩ := resolve_below_merge toks S T hshort hsub2
    simp only [apply_step, h1]
    rw [merge_files_push_file nf _ _ T hsub2 (resolve_below_getDir toks S), h2]

theorem sub_tree_foldl_apply (ops : List LoadOp) (S : Directory) :
    sub_tree S (ops.foldl apply_load_op S) := by
  induction ops generalizing S with
  | nil => exact sub_tree_refl S
  | cons op ops ih =>
    simp only [List.foldl_cons]
    refine sub_tree_trans _ _ _ ?_ (ih _)
    rw [apply_load_op_eq_step]
    exact sub_tree_apply_step _ _ _

theorem foldl_apply_merge (ops : List LoadOp) (S T : Directory)
    (hshort : ∀ op ∈ ops, ∀ t ∈ load_op_tokens op, t.length ≤ 63)
    (hsub : sub_tree (ops.foldl apply_load_op S) T) :
    ops.foldl apply_load_op (merge_files T S) = merge_files T (ops.foldl apply_load_op S) := by
  induction ops generalizing S with
  | nil => rfl
  | cons op ops ih =>
    simp only [List.mem_cons, forall_eq_or_imp] at hshort
    simp only [List.foldl_cons] at hsub ⊢
    have hstep : sub_tree (apply_load_op S op) T :=
      sub_tree_trans _ _ _ (sub_tree_foldl_apply ops _) hsub
    have h1 : apply_load_op (merge_files T S) op = merge_files T (apply_load_op S op) := by
      rw [apply_load_op_eq_step, apply_load_op_eq_step] at *
      exact apply_step_merge S T _ _ hshort.1 hstep
    rw [h1]
    exact ih (apply_load_op S op) hshort.2 hsub

mutual
theorem merge_files_self (t : Directory) : merge_files t t = double_files t := by
  match t with
  | Directory.mk n ts fs =>
    simp only [merge_files, double_files, Directory.subdirs_mk, Directory.files_mk]
    rw [merge_files_list_self ts]
theorem merge_files_list_self (ts : List Directory) :
    merge_files_list ts ts = double_files_list ts := by
  match ts with
  | [] => simp [merge_files_list, double_files_list]
  | t :: ts =>
    simp only [merge_files_list, double_files_list]
    rw [merge_files_self t, merge_files_list_self ts]
end

mutual
theorem strip_double_files (t : Directory) : strip_files (double_files t) = strip_files t := by
  match t with
  | Directory.mk n ts fs =>
    simp only [double_files, strip_files]
    rw [strip_double_files_list ts]
theorem strip_double_files_list (ts : List Directory) :
    strip_files_list (double_files_list ts) = strip_files_list ts := by
  match ts with
  | [] => simp [double_files_list, strip_files_list]
  | t :: ts =>
    simp only [double_files_list, strip_files_list]
    rw [strip_double_files t, strip_double_files_list ts]
end

theorem load_op_tokens_short (op : LoadOp)
    (h : ∀ seg ∈ path_segments (load_op_dir_path op), seg.length ≤ 63) :
    ∀ t ∈ load_op_tokens op, t.length ≤ 63 := by
  cases op with
  | dir p =>
    simp only [load_op_tokens]
    apply strtok_all_take_bound
    rw [strtok_all_eq_path_segments]
    exact h
  | file p c =>
    simp only [load_op_tokens, load_op_dir_path] at h ⊢
    cases hr : strrchr_split '/' p with
    | none => simp
    | some r =>
      simp only [hr] at h ⊢
      by_cases hl : r.1.length > 0
      · simp only [hl, if_true]
        apply strtok_all_take_bound
        rw [strtok_all_eq_path_segments]
        exact h
      · simp only [hl, if_false]
        intro t ht
        have : strtok_all '/' (List.take 1023 ['/']) = [] := by decide
        rw [this] at ht
        simp at ht

theorem load_twice_double (text : CStr) (ops : List LoadOp)
    (hparse : parse_lines (fgets_all 8192 text []) = some ops)
    (hshort : ∀ op ∈ ops, ∀ seg ∈ path_segments (load_op_dir_path op), seg.length ≤ 63) :
    ∃ R1, load_filesystem (some text) init_state.root = some R1 ∧
      load_filesystem (some text) R1 = some (double_files R1) := by
  refine ⟨ops.foldl apply_load_op init_state.root, ?_, ?_⟩
  · simp only [load_filesystem, load_lines_eq_parse, hparse, Option.map_some']
  · simp only [load_filesystem, load_lines_eq_parse, hparse, Option.map_some']
    have hm := foldl_apply_merge ops init_state.root (ops.foldl apply_load_op init_state.root)
      (fun op hop => load_op_tokens_short op (hshort op hop)) (sub_tree_refl _)
    have he : merge_files (ops.foldl apply_load_op init_state.root) init_state.root =
        ops.foldl apply_load_op init_state.root := merge_files_empty _ _
    rw [he] at hm
    rw [hm, merge_files_self]

theorem strip_files_eq (a : Directory) :
    strip_files a = Directory.mk a.name (strip_files_list a.subdirs) [] := by
  cases a; simp [strip_files]

theorem strip_files_list_get (l : List Directory) (i : Nat) :
    (strip_files_list l)[i]? = (l[i]?).map strip_files := by
  induction l generalizing i with
  | nil => simp [strip_files_list]
  | cons c l ih =>
    cases i with
    | zero => simp [strip_files_list]
    | succ i => simp [strip_files_list, ih]

theorem strip_files_list_set (l : List Directory) (i : Nat) (c : Directory) :
    strip_files_list (l.set i c) = (strip_files_list l).set i (strip_files c) := by
  induction l generalizing i with
  | nil => simp [strip_files_list]
  | cons c0 l ih =>
    cases i with
    | zero => simp [strip_files_list]
    | succ i => simp [strip_files_list, ih]

theorem strip_files_list_append (l m : List Directory) :
    strip_files_list (l ++ m) = strip_files_list l ++ strip_files_list m := by
  induction l with
  | nil => simp [strip_files_list]
  | cons c l ih => simp [strip_files_list, ih]

theorem strip_files_list_length (l : List Directory) :
    (strip_files_list l).length = l.length := by
  induction l with
  | nil => rfl
  | cons c l ih => simp [strip_files_list, ih]

theorem find_subdir_strip (tok : CStr) (l : List Directory) :
    find_subdir tok (strip_files_list l) = find_subdir tok l := by
  induction l with
  | nil => rfl
  | cons c l ih =>
    simp only [strip_files_list, find_subdir, ih]
    rw [strip_files_eq c]
    rfl

theorem strip_resolve_below (toks : List CStr) (a : Directory) :
    resolve_below toks (strip_files a) =
      (strip_files (resolve_below toks a).1, (resolve_below toks a).2) := by
  induction toks generalizing a with
  | nil => rfl
  | cons tok toks ih =>
    have hs : (strip_files a).subdirs = strip_files_list a.subdirs := by
      rw [strip_files_eq]; rfl
    have hn : (strip_files a).name = a.name := by rw [strip_files_eq]; rfl
    have hfl : (strip_files a).files = [] := by rw [strip_files_eq]; rfl
    cases hf : find_subdir tok a.subdirs with
    | some i =>
      obtain ⟨c, hc, -, -⟩ := find_subdir_some tok a.subdirs i hf
      simp only [resolve_below, hs, find_subdir_strip, hf, hc, strip_files_list_get,
        Option.map_some', ih c, hn, hfl]
      rw [strip_files_eq (Directory.mk _ _ _)]
      simp only [Directory.name_mk, Directory.subdirs_mk, strip_files_list_set]
    | none =>
      have hcd : strip_files (create_dir tok) = create_dir tok := rfl
      have ih2 := ih (create_dir tok)
      rw [hcd] at ih2
      have e1 : strip_files (resolve_below toks (create_dir tok)).1 =
          (resolve_below toks (create_dir tok)).1 := (congrArg Prod.fst ih2).symm
      simp only [resolve_below, hs, find_subdir_strip, hf, hn, hfl, Directory.dir_count,
        strip_files_list_length]
      rw [strip_files_eq (Directory.mk _ _ _)]
      simp only [Directory.name_mk, Directory.subdirs_mk, strip_files_list_append,
        strip_files_list, e1]

theorem strip_push_file (f : File) (a : Directory) (p : List Nat) :
    strip_files (modifyDir (push_file f) a p) = strip_files a := by
  induction p generalizing a with
  | nil =>
    simp only [modifyDir]
    rw [strip_files_eq, strip_files_eq a]
    rfl
  | cons i p ih =>
    simp only [modifyDir]
    cases hc : a.subdirs[i]? with
    | none => rfl
    | some c =>
      simp only []
      rw [strip_files_eq, strip_files_eq a]
      simp only [Directory.name_mk, Directory.subdirs_mk, strip_files_list_set, ih c]
      congr 1
      apply list_set_eq_self
      rw [strip_files_list_get, hc]
      rfl

theorem strip_apply_load_op (a b : Directory) (op : LoadOp)
    (h : strip_files a = strip_files b) :
    strip_files (apply_load_op a op) = strip_files (apply_load_op b op) := by
  have key : ∀ x : Directory, strip_files (apply_load_op x op) =
      (resolve_below (load_op_tokens op) (strip_files x)).1 := by
    intro x
    rw [apply_load_op_eq_step, strip_resolve_below]
    cases load_op_file op with
    | none => rfl
    | some nf => exact strip_push_file nf _ _
  rw [key a, key b, h]

theorem strip_foldl_apply (ops : List LoadOp) (a b : Directory)
    (h : strip_files a = strip_files b) :
    strip_files (ops.foldl apply_load_op a) = strip_files (ops.foldl apply_load_op b) := by
  induction ops generalizing a b with
  | nil => exact h
  | cons op ops ih =>
    simp only [List.foldl_cons]
    exact ih _ _ (strip_apply_load_op a b op h)

mutual
theorem strip_strip (a : Directory) : strip_files (strip_files a) = strip_files a := by
  match a with
  | Directory.mk n ts fs =>
    simp only [strip_files]
    rw [strip_strip_list ts]
theorem strip_strip_list (l : List Directory) :
    strip_files_list (strip_files_list l) = strip_files_list l := by
  match l with
  | [] => rfl
  | t :: ts =>
    simp only [strip_files_list]
    rw [strip_strip t, strip_strip_list ts]
end

mutual
theorem sub_tree_of_strip (a b : Directory) (h : strip_files a = strip_files b) :
    sub_tree a b := by
  match a, b with
  | Directory.mk n ts fs, Directory.mk m us gs =>
    simp only [strip_files, Directory.mk.injEq, and_true] at h
    simp only [sub_tree, Directory.name_mk, Directory.subdirs_mk]
    exact ⟨h.1, sub_tree_list_of_strip ts us h.2⟩
theorem sub_tree_list_of_strip (l m : List Directory)
    (h : strip_files_list l = strip_files_list m) : sub_tree_list l m := by
  match l, m with
  | [], _ => simp [sub_tree_list]
  | _ :: _, [] => simp [strip_files_list] at h
  | t :: ts, u :: us =>
    simp only [strip_files_list, List.cons.injEq] at h
    simp only [sub_tree_list]
    exact ⟨sub_tree_of_strip t u h.1, sub_tree_list_of_strip ts us h.2⟩
end

mutual
theorem merge_files_strip (t s : Directory) : merge_files t (strip_files s) = t := by
  match t, s with
  | Directory.mk n ts fs, Directory.mk m ss gs =>
    simp only [strip_files, merge_files, Directory.subdirs_mk, Directory.files_mk,
      List.append_nil]
    rw [merge_files_list_strip ts ss]
theorem merge_files_list_strip (ts ss : List Directory) :
    merge_files_list ts (strip_files_list ss) = ts := by
  match ts, ss with
  | [], _ => simp [merge_files_list]
  | t :: ts, [] => simp [strip_files_list, merge_files_list]
  | t :: ts, s :: ss =>
    simp only [strip_files_list, merge_files_list]
    rw [merge_files_strip t s, merge_files_list_strip ts ss]
end

mutual
theorem strip_merge_files (t s : Directory) :
    strip_files (merge_files t s) = strip_files t := by
  match t with
  | Directory.mk n ts fs =>
    simp only [merge_files, strip_files]
    rw [strip_merge_files_list ts s.subdirs]
theorem strip_merge_files_list (ts ss : List Directory) :
    strip_files_list (merge_files_list ts ss) = strip_files_list ts := by
  match ts, ss with
  | [], _ => simp [merge_files_list]
  | t :: ts, [] => simp [merge_files_list]
  | t :: ts, s :: ss =>
    simp only [merge_files_list, strip_files_list]
    rw [strip_merge_files t s, strip_merge_files_list ts ss]
end

theorem load_twice_merge (text : CStr) (ops : List LoadOp) (R0 : Directory)
    (hparse : parse_lines (fgets_all 8192 text []) = some ops)
    (hshort : ∀ op ∈ ops, ∀ seg ∈ path_segments (load_op_dir_path op), seg.length ≤ 63) :
    ∃ R1 L, load_filesystem (some text) R0 = some R1 ∧
      load_filesystem (some text) (strip_files R0) = some L ∧
      load_filesystem (some text) R1 = some (merge_files R1 L) ∧
      (R0.subdirs = [] → R0.files = [] → L = R1) := by
  refine ⟨ops.foldl apply_load_op R0, ops.foldl apply_load_op (strip_files R0), ?_, ?_, ?_, ?_⟩
  · simp only [load_filesystem, load_lines_eq_parse, hparse, Option.map_some']
  · simp only [load_filesystem, load_lines_eq_parse, hparse, Option.map_some']
  · simp only [load_filesystem, load_lines_eq_parse, hparse, Option.map_some']
    have hsub : sub_tree (ops.foldl apply_load_op (strip_files R0))
        (ops.foldl apply_load_op R0) :=
      sub_tree_of_strip _ _ (strip_foldl_apply ops _ _ (strip_strip R0))
    have hm := foldl_apply_merge ops (strip_files R0) (ops.foldl apply_load_op R0)
      (fun op hop => load_op_tokens_short op (hshort op hop)) hsub
    rw [merge_files_strip] at hm
    rw [hm]
  · intro h1 h2
    have : strip_files R0 = R0 := by
      rw [strip_files_eq, h1]
      cases R0
      simp only [Directory.subdirs_mk, Directory.files_mk] at h1 h2
      simp [strip_files_list, h1, h2]
    rw [this]

/-- C20, as stated, fails: the text with the single record `DIR /` + 64 bytes
`a` + `/` loaded into the fresh root gives one directory, named by the first 63
bytes; loading the same text again into that tree does not find a child named
by the 64-byte segment and creates a second directory of the same name, so the
shape after two loads differs from the shape after one. -/
theorem C20_counterexample :
    (load_filesystem (some long_dir_text) init_state.root).map
        (fun d => d.subdirs.map Directory.name) = some [name63] ∧
    ((load_filesystem (some long_dir_text) init_state.root).bind
        (load_filesystem (some long_dir_text))).map
        (fun d => d.subdirs.map Directory.name) = some [name63, name63] := by
  decide!

/-- C20 (amended): for every start tree `R0` and every persisted text in which
every `DIR` and `FILE` line carries a path (`parse_lines` finds its records),
every `/`-separated segment of every record's directory path has at most 63
bytes (the length of a stored name), and every record fits the buffers
`path[1024]` and `filename[256]` (`text_fits`), such that after the second
load no directory holds more than `MAX_DIRS` subdirectories or `MAX_FILES`
files (so that no store of either load went past an array): loading the text into `R0` returns a
tree `R1`; loading it into the emptied `R0` returns a tree `L`, which holds
exactly the loaded files; and loading the text again into `R1` returns
`merge_files R1 L`: the same directories with the same names, nesting and
order as `R1` (`strip_files` of both is equal), each holding its files
followed by the loaded files once more.  When `R0` is empty, as the root is at
start-up, that is `double_files R1`: every directory holds its file list
twice. -/
theorem C20_load_twice (text : CStr) (ops : List LoadOp) (R0 : Directory)
    (hparse : parse_lines (fgets_all 8192 text []) = some ops)
    (hshort : ∀ op ∈ ops, ∀ seg ∈ path_segments (load_op_dir_path op), seg.length ≤ 63)
    (hfit : text_fits text = true)
    (hbound : ((load_filesystem (some text) R0).bind
      (load_filesystem (some text))).all within_bounds = true) :
    ∃ R1 L, load_filesystem (some text) R0 = some R1 ∧
      load_filesystem (some text) (strip_files R0) = some L ∧
      load_filesystem (some text) R1 = some (merge_files R1 L) ∧
      strip_files (merge_files R1 L) = strip_files R1 ∧
      (R0.subdirs = [] → R0.files = [] → merge_files R1 L = double_files R1) := by
  have _ := hfit
  have _ := hbound
  obtain ⟨R1, L, h1, h2, h3, h4⟩ := load_twice_merge text ops R0 hparse hshort
  refine ⟨R1, L, h1, h2, h3, strip_merge_files R1 L, ?_⟩
  intro hs hf
  rw [h4 hs hf, merge_files_self]

/-- C20 witness: the text with the directory `docs` and the file `a.txt`,
loaded into the root at start-up. -/
theorem C20_witness :
    parse_lines (fgets_all 8192 docs_text []) =
      some [LoadOp.dir "/".toList, LoadOp.dir "/docs/".toList,
        LoadOp.file "/docs/a.txt".toList "hello\n".toList] ∧
    (∀ op ∈ [LoadOp.dir "/".toList, LoadOp.dir "/docs/".toList,
        LoadOp.file "/docs/a.txt".toList "hello\n".toList],
      ∀ seg ∈ path_segments (load_op_dir_path op), seg.length ≤ 63) ∧
    ∃ R1 L, load_filesystem (some docs_text) init_state.root = some R1 ∧
      load_filesystem (some docs_text) (strip_files init_state.root) = some L ∧
      load_filesystem (some docs_text) R1 = some (merge_files R1 L) ∧
      strip_files (merge_files R1 L) = strip_files R1 ∧
      (init_state.root.subdirs = [] → init_state.root.files = [] →
        merge_files R1 L = double_files R1) :=
  ⟨rfl, by decide,
    C20_load_twice docs_text _ init_state.root rfl (by decide) (by decide!) (by decide!)⟩

/-! ## Parent pointers -/

theorem PDir_eta (d : PDir) : PDir.mk d.addr d.parent d.name d.subdirs d.files = d := by
  cases d; rfl

theorem plist_set_eq_self (l : List PDir) (i : Nat) (x : PDir) (h : l[i]? = some x) :
    l.set i x = l := by
  apply List.ext_getElem?
  intro j
  by_cases hj : i = j
  · subst hj
    rcases List.getElem?_eq_some_iff.mp h with ⟨hi, _⟩
    simp [List.getElem?_set_self hi, h]
  · simp [List.getElem?_set_ne hj]

theorem modifyP_invalid (f : PDir → PDir) (d : PDir) (p : List Nat) (h : getP d p = none) :
    modifyP f d p = d := by
  induction p generalizing d with
  | nil => simp [getP] at h
  | cons i p ih =>
    simp only [getP, modifyP] at h ⊢
    cases hc : d.subdirs[i]? with
    | none => rfl
    | some c =>
      simp only [hc] at h ⊢
      rw [ih c h, plist_set_eq_self _ _ _ hc, PDir_eta]

theorem parent_ok_iff (d : PDir) : parent_ok d ↔ parent_ok_list d.addr d.subdirs := by
  cases d; simp [parent_ok, PDir.addr, PDir.subdirs]

theorem parent_ok_list_append (a : Nat) (l m : List PDir) :
    parent_ok_list a (l ++ m) ↔ parent_ok_list a l ∧ parent_ok_list a m := by
  induction l with
  | nil => simp [parent_ok_list]
  | cons c l ih => simp [parent_ok_list, ih, and_assoc]

theorem parent_ok_list_get (a : Nat) (l : List PDir) (i : Nat) (c : PDir)
    (h : parent_ok_list a l) (hc : l[i]? = some c) : c.parent = some a ∧ parent_ok c := by
  induction l generalizing i with
  | nil => simp at hc
  | cons c0 l ih =>
    simp only [parent_ok_list] at h
    cases i with
    | zero =>
      simp only [List.getElem?_cons_zero, Option.some.injEq] at hc
      subst hc
      exact h.1
    | succ i =>
      simp only [List.getElem?_cons_succ] at hc
      exact ih i h.2 hc

theorem parent_ok_list_set (a : Nat) (l : List PDir) (i : Nat) (c : PDir)
    (h : parent_ok_list a l) (hp : c.parent = some a) (hc : parent_ok c) :
    parent_ok_list a (l.set i c) := by
  induction l generalizing i with
  | nil => simp [parent_ok_list]
  | cons c0 l ih =>
    simp only [parent_ok_list] at h
    cases i with
    | zero => simp only [List.set_cons_zero, parent_ok_list]; exact ⟨⟨hp, hc⟩, h.2⟩
    | succ i => simp only [List.set_cons_succ, parent_ok_list]; exact ⟨h.1, ih i h.2⟩

theorem parent_ok_list_eraseIdx (a : Nat) (l : List PDir) (i : Nat)
    (h : parent_ok_list a l) : parent_ok_list a (l.eraseIdx i) := by
  induction l generalizing i with
  | nil => simp [parent_ok_list]
  | cons c0 l ih =>
    simp only [parent_ok_list] at h
    cases i with
    | zero => simp only [List.eraseIdx_cons_zero]; exact h.2
    | succ i => simp only [List.eraseIdx_cons_succ, parent_ok_list]; exact ⟨h.1, ih i h.2⟩

theorem parent_ok_modifyP (f : PDir → PDir) (d : PDir) (p : List Nat) (x : PDir)
    (hx : getP d p = some x) (ha : (f x).addr = x.addr) (hp : (f x).parent = x.parent)
    (hok : parent_ok (f x)) (h : parent_ok d) :
    parent_ok (modifyP f d p) ∧ (modifyP f d p).addr = d.addr ∧
      (modifyP f d p).parent = d.parent := by
  induction p generalizing d with
  | nil =>
    simp only [getP, Option.some.injEq] at hx
    subst hx
    exact ⟨hok, ha, hp⟩
  | cons i p ih =>
    simp only [getP, modifyP] at hx ⊢
    cases hc : d.subdirs[i]? with
    | none => simp [hc] at hx
    | some c =>
      simp only [hc] at hx ⊢
      rw [parent_ok_iff] at h
      obtain ⟨hcp, hcok⟩ := parent_ok_list_get _ _ _ _ h hc
      obtain ⟨h1, h2, h3⟩ := ih c hx hcok
      refine ⟨?_, rfl, rfl⟩
      rw [parent_ok_iff]
      exact parent_ok_list_set _ _ _ _ h (h3.trans hcp) h1

theorem addrs_eq (d : PDir) : addrs d = d.addr :: addrs_list d.subdirs := by
  cases d; simp [addrs, PDir.addr, PDir.subdirs]

theorem addrs_list_append (l m : List PDir) :
    addrs_list (l ++ m) = addrs_list l ++ addrs_list m := by
  induction l with
  | nil => simp [addrs_list]
  | cons c l ih => simp [addrs_list, ih]

theorem addrs_list_get_sublist (l : List PDir) (i : Nat) (c : PDir) (hc : l[i]? = some c) :
    (addrs c).Sublist (addrs_list l) := by
  induction l generalizing i with
  | nil => simp at hc
  | cons c0 l ih =>
    cases i with
    | zero =>
      simp only [List.getElem?_cons_zero, Option.some.injEq] at hc
      subst hc
      simp only [addrs_list]
      exact List.sublist_append_left _ _
    | succ i =>
      simp only [List.getElem?_cons_succ] at hc
      simp only [addrs_list]
      exact (ih i hc).trans (List.sublist_append_right _ _)

theorem addrs_list_eraseIdx (l : List PDir) (i : Nat) :
    (addrs_list (l.eraseIdx i)).Sublist (addrs_list l) := by
  induction l generalizing i with
  | nil => simp [addrs_list]
  | cons c0 l ih =>
    cases i with
    | zero =>
      simp only [List.eraseIdx_cons_zero, addrs_list]
      exact List.sublist_append_right _ _
    | succ i =>
      simp only [List.eraseIdx_cons_succ, addrs_list]
      exact List.Sublist.append (List.Sublist.refl _) (ih i)

theorem addrs_list_set_subperm (l : List PDir) (i : Nat) (c c2 : PDir) (e : List Nat)
    (hc : l[i]? = some c) (h : (addrs c2).Subperm (e ++ addrs c)) :
    (addrs_list (l.set i c2)).Subperm (e ++ addrs_list l) := by
  induction l generalizing i with
  | nil => simp at hc
  | cons c0 l ih =>
    cases i with
    | zero =>
      simp only [List.getElem?_cons_zero, Option.some.injEq] at hc
      subst hc
      simp only [List.set_cons_zero, addrs_list, ← List.append_assoc]
      exact (List.subperm_append_right _).mpr h
    | succ i =>
      simp only [List.getElem?_cons_succ] at hc
      simp only [List.set_cons_succ, addrs_list]
      refine ((List.subperm_append_left (addrs c0)).mpr (ih i hc)).trans ?_
      exact (List.perm_append_comm_assoc _ _ _).subperm

theorem addrs_modifyP_subperm (f : PDir → PDir) (d : PDir) (p : List Nat) (x : PDir)
    (e : List Nat) (hx : getP d p = some x) (ha : (f x).addr = x.addr)
    (h : (addrs (f x)).Subperm (e ++ addrs x)) :
    (addrs (modifyP f d p)).Subperm (e ++ addrs d) := by
  induction p generalizing d with
  | nil =>
    simp only [getP, Option.some.injEq] at hx
    subst hx
    exact h
  | cons i p ih =>
    simp only [getP, modifyP] at hx ⊢
    cases hc : d.subdirs[i]? with
    | none => simp [hc] at hx
    | some c =>
      simp only [hc] at hx ⊢
      rw [addrs_eq d]
      simp only [addrs]
      refine ((List.subperm_cons d.addr).mpr
        (addrs_list_set_subperm _ i c _ e hc (ih c hx))).trans ?_
      exact (@List.perm_middle _ d.addr e (addrs_list d.subdirs)).symm.subperm

theorem nodup_of_subperm (l m : List Nat) (h : l.Subperm m) (hm : m.Nodup) : l.Nodup := by
  obtain ⟨k, hk, hs⟩ := h
  exact hk.nodup_iff.mp (hs.nodup hm)

theorem tree_inv_modifyP (f : PDir → PDir) (root : PDir) (cur : List Nat) (next next2 : Nat)
    (e : List Nat) (hinv : tree_inv root next) (hle : next ≤ next2)
    (he : (e ++ addrs root).Nodup) (he2 : ∀ a ∈ e, a < next2)
    (hf : ∀ x, getP root cur = some x → parent_ok x →
      (f x).addr = x.addr ∧ (f x).parent = x.parent ∧ parent_ok (f x) ∧
        (addrs (f x)).Subperm (e ++ addrs x)) :
    tree_inv (modifyP f root cur) next2 := by
  obtain ⟨h1, h2, h3, h4⟩ := hinv
  cases hx : getP root cur with
  | none =>
    rw [modifyP_invalid f root cur hx]
    exact ⟨h1, h2, h3, fun a ha => Nat.lt_of_lt_of_le (h4 a ha) hle⟩
  | some x =>
    have hxok : parent_ok x := by
      clear hf he he2 h1 h3 h4
      induction cur generalizing root with
      | nil =>
        simp only [getP, Option.some.injEq] at hx
        subst hx
        exact h2
      | cons i p ih =>
        simp only [getP] at hx
        cases hc : root.subdirs[i]? with
        | none => simp [hc] at hx
        | some c =>
          simp only [hc] at hx
          rw [parent_ok_iff] at h2
          exact ih c (parent_ok_list_get _ _ _ _ h2 hc).2 hx
    obtain ⟨ha, hp, hok, hsub⟩ := hf x hx hxok
    obtain ⟨g1, g2, g3⟩ := parent_ok_modifyP f root cur x hx ha hp hok h2
    have hs := addrs_modifyP_subperm f root cur x e hx ha hsub
    refine ⟨g3.trans h1, g1, nodup_of_subperm _ _ hs he, ?_⟩
    intro a hmem
    have hm := hs.subset hmem
    rcases List.mem_append.mp hm with hm | hm
    · exact he2 a hm
    · exact Nat.lt_of_lt_of_le (h4 a hm) hle

theorem tree_inv_attach (root : PDir) (cur : List Nat) (next : Nat) (name : CStr) (a : Nat)
    (hinv : tree_inv root next) (hd : ∀ x, getP root cur = some x → x.addr = a) :
    tree_inv (modifyP (push_subdir_p (create_dir_p name (some a) next)) root cur)
      (next + 1) := by
  refine tree_inv_modifyP _ root cur next (next + 1) [next] hinv (Nat.le_succ _) ?_ ?_ ?_
  · simp only [List.singleton_append, List.nodup_cons]
    exact ⟨fun hm => Nat.lt_irrefl _ (hinv.2.2.2 next hm), hinv.2.2.1⟩
  · intro b hb
    simp only [List.mem_singleton] at hb
    omega
  · intro x hx hxok
    refine ⟨rfl, rfl, ?_, ?_⟩
    · rw [parent_ok_iff]
      show parent_ok_list x.addr (x.subdirs ++ [create_dir_p name (some a) next])
      rw [parent_ok_list_append]
      refine ⟨(parent_ok_iff x).mp hxok, ⟨?_, ?_⟩, trivial⟩
      · show some a = some x.addr
        rw [hd x hx]
      · simp [create_dir_p, parent_ok, parent_ok_list]
    · rw [addrs_eq x]
      simp only [push_subdir_p, addrs, addrs_list_append, addrs_list, create_dir_p,
        List.append_nil, List.singleton_append]
      refine (List.Perm.subperm ?_)
      exact (@List.perm_middle _ next (x.addr :: addrs_list x.subdirs) []).trans (by simp)

theorem tree_inv_same (f : PDir → PDir) (root : PDir) (cur : List Nat) (next : Nat)
    (hinv : tree_inv root next)
    (hf : ∀ x, parent_ok x →
      (f x).addr = x.addr ∧ (f x).parent = x.parent ∧ parent_ok (f x) ∧
        (addrs (f x)).Sublist (addrs x)) :
    tree_inv (modifyP f root cur) next := by
  refine tree_inv_modifyP f root cur next next [] hinv (le_refl _) ?_ ?_ ?_
  · simpa using hinv.2.2.1
  · simp
  · intro x _ hxok
    obtain ⟨h1, h2, h3, h4⟩ := hf x hxok
    exact ⟨h1, h2, h3, by simpa using h4.subperm⟩

theorem tree_inv_push_file (nf : File) (root : PDir) (cur : List Nat) (next : Nat)
    (hinv : tree_inv root next) : tree_inv (modifyP (push_file_p nf) root cur) next := by
  refine tree_inv_same _ root cur next hinv ?_
  intro x hxok
  refine ⟨rfl, rfl, ?_, ?_⟩
  · rw [parent_ok_iff] at hxok ⊢
    exact hxok
  · rw [addrs_eq x]
    simp only [push_file_p, addrs]
    exact List.Sublist.refl _

theorem tree_inv_remove (i : Nat) (root : PDir) (cur : List Nat) (next : Nat)
    (hinv : tree_inv root next) : tree_inv (modifyP (remove_subdir_at_p i) root cur) next := by
  refine tree_inv_same _ root cur next hinv ?_
  intro x hxok
  refine ⟨rfl, rfl, ?_, ?_⟩
  · rw [parent_ok_iff] at hxok ⊢
    exact parent_ok_list_eraseIdx _ _ _ hxok
  · rw [addrs_eq x]
    simp only [remove_subdir_at_p, addrs]
    exact List.Sublist.cons₂ _ (addrs_list_eraseIdx _ _)

theorem tree_inv_wipe (root : PDir) (next : Nat) (hinv : tree_inv root next) :
    tree_inv (PDir.mk root.addr root.parent root.name [] []) next := by
  obtain ⟨h1, h2, h3, h4⟩ := hinv
  refine ⟨h1, by simp [parent_ok, parent_ok_list], by simp [addrs, addrs_list], ?_⟩
  intro a ha
  apply h4
  rw [addrs_eq root]
  simp only [addrs, addrs_list, List.mem_singleton] at ha
  simp [ha]

theorem tree_inv_step (st : PDir × List Nat × Nat) (tok : CStr)
    (hinv : tree_inv st.1 st.2.2) :
    tree_inv (find_or_create_step_p st tok).1 (find_or_create_step_p st tok).2.2 := by
  cases hx : getP st.1 st.2.1 with
  | none => simp only [find_or_create_step_p, hx]; exact hinv
  | some d =>
    cases hf : find_subdir_p tok d.subdirs with
    | some i => simp only [find_or_create_step_p, hx, hf]; exact hinv
    | none =>
      simp only [find_or_create_step_p, hx, hf]
      apply tree_inv_attach _ _ _ _ _ hinv
      intro x hx2
      rw [hx] at hx2
      exact (Option.some.inj hx2) ▸ rfl

theorem tree_inv_foldl (toks : List CStr) (st : PDir × List Nat × Nat)
    (hinv : tree_inv st.1 st.2.2) :
    tree_inv (toks.foldl find_or_create_step_p st).1
      (toks.foldl find_or_create_step_p st).2.2 := by
  induction toks generalizing st with
  | nil => exact hinv
  | cons tok toks ih =>
    simp only [List.foldl_cons]
    exact ih _ (tree_inv_step st tok hinv)

theorem tree_inv_find_or_create (path : CStr) (root : PDir) (next : Nat)
    (hinv : tree_inv root next) :
    tree_inv (find_or_create_dir_by_path_p path root next).1
      (find_or_create_dir_by_path_p path root next).2.2 := by
  simp only [find_or_create_dir_by_path_p]
  by_cases h1 : path = []
  · simp only [h1, if_true]; exact hinv
  · by_cases h2 : path = ['/']
    · simp only [h2]; exact hinv
    · simp only [h1, h2, if_false]
      exact tree_inv_foldl _ _ hinv

theorem tree_inv_load_file_record (path content : CStr) (root : PDir) (next : Nat)
    (hinv : tree_inv root next) :
    tree_inv (load_file_record_p path content root next).1
      (load_file_record_p path content root next).2 := by
  simp only [load_file_record_p]
  cases strrchr_split '/' path with
  | none => exact hinv
  | some r =>
    simp only []
    exact tree_inv_push_file _ _ _ _ (tree_inv_find_or_create _ root next hinv)

theorem tree_inv_load_aux (ls : List CStr) :
    (∀ root next r, tree_inv root next → load_lines_p ls root next = some r →
      tree_inv r.1 r.2) ∧
    (∀ p c root next r, tree_inv root next → load_content_p p c ls root next = some r →
      tree_inv r.1 r.2) := by
  induction ls with
  | nil =>
    constructor
    · intro root next r hinv h
      simp only [load_lines_p, Option.some.injEq] at h
      subst h
      exact hinv
    · intro p c root next r hinv h
      simp only [load_content_p, Option.some.injEq] at h
      subst h
      exact tree_inv_load_file_record p c root next hinv
  | cons l ls ih =>
    obtain ⟨ih1, ih2⟩ := ih
    have h2 : ∀ p c root next r, tree_inv root next →
        load_content_p p c (l :: ls) root next = some r → tree_inv r.1 r.2 := by
      intro p c root next r hinv h
      simp only [load_content_p] at h
      cases he : strncmp_eq l ['E', 'N', 'D'] with
      | true =>
        simp only [he, if_true] at h
        exact ih1 _ _ r (tree_inv_load_file_record p c root next hinv) h
      | false =>
        simp only [he, Bool.false_eq_true, if_false] at h
        by_cases hfit : c.length + l.length + 1 < MAX_CONTENT
        · simp only [hfit, if_true] at h
          exact ih2 p (c ++ l) root next r hinv h
        · simp only [hfit, if_false] at h
          exact ih2 p c root next r hinv h
    refine ⟨?_, h2⟩
    intro root next r hinv h
    simp only [load_lines_p] at h
    cases hd : strncmp_eq l ['D', 'I', 'R', ' '] with
    | true =>
      simp only [hd, if_true] at h
      cases hs : sscanf_line (l.drop 4) with
      | none => simp [hs] at h
      | some path =>
        simp only [hs] at h
        exact ih1 _ _ r (tree_inv_find_or_create path root next hinv) h
    | false =>
      simp only [hd, Bool.false_eq_true, if_false] at h
      cases hfl : strncmp_eq l ['F', 'I', 'L', 'E', ' '] with
      | true =>
        simp only [hfl, if_true] at h
        cases hs : sscanf_line (l.drop 5) with
        | none => simp [hs] at h
        | some path =>
          simp only [hs] at h
          exact ih2 path [] root next r hinv h
      | false =>
        simp only [hfl, Bool.false_eq_true, if_false] at h
        exact ih1 root next r hinv h

theorem cmd_back_p_root (st : PState) :
    (cmd_back_p st).root = st.root ∧ (cmd_back_p st).next = st.next := by
  unfold cmd_back_p
  split
  · exact ⟨rfl, rfl⟩
  · split
    · exact ⟨rfl, rfl⟩
    · split <;> exact ⟨rfl, rfl⟩

theorem cmd_cd_p_root (name : CStr) (st : PState) :
    (cmd_cd_p name st).root = st.root ∧ (cmd_cd_p name st).next = st.next := by
  unfold cmd_cd_p
  split
  · exact cmd_back_p_root st
  · split
    · exact ⟨rfl, rfl⟩
    · split <;> exact ⟨rfl, rfl⟩

theorem tree_inv_run_pop (st st2 : PState) (op : POp) (hinv : tree_inv st.root st.next)
    (h : run_pop st op = some st2) : tree_inv st2.root st2.next := by
  cases op with
  | find_or_create path =>
    simp only [run_pop, Option.some.injEq] at h
    subst h
    exact tree_inv_find_or_create path st.root st.next hinv
  | load disk =>
    simp only [run_pop, load_filesystem_p] at h
    cases disk with
    | none =>
      simp only [Option.some.injEq] at h
      subst h
      exact hinv
    | some text =>
      cases hl : load_lines_p (fgets_all 8192 text []) st.root st.next with
      | none => simp [hl] at h
      | some r =>
        simp only [hl, Option.map_some', Option.some.injEq] at h
        subst h
        exact (tree_inv_load_aux _).1 _ _ r hinv hl
  | mkdir name =>
    simp only [run_pop, Option.some.injEq] at h
    subst h
    cases hx : getP st.root st.current_dir with
    | none => simp only [cmd_mkdir_p, hx]; exact hinv
    | some d =>
      by_cases hfull : d.dir_count ≥ MAX_DIRS
      · simp only [cmd_mkdir_p, hx, hfull, if_true]; exact hinv
      · simp only [cmd_mkdir_p, hx, hfull, if_false]
        apply tree_inv_attach _ _ _ _ _ hinv
        intro x hx2
        rw [hx] at hx2
        exact (Option.some.inj hx2) ▸ rfl
  | rmdir name =>
    simp only [run_pop, Option.some.injEq] at h
    subst h
    cases hx : getP st.root st.current_dir with
    | none => simp only [cmd_rmdir_p, hx]; exact hinv
    | some d =>
      cases hf : find_subdir_p name d.subdirs with
      | none => simp only [cmd_rmdir_p, hx, hf]; exact hinv
      | some i => simp only [cmd_rmdir_p, hx, hf]; exact tree_inv_remove i _ _ _ hinv
  | wipe confirm =>
    simp only [run_pop, Option.some.injEq] at h
    subst h
    unfold cmd_wipe_p
    split
    · exact hinv
    · exact tree_inv_wipe _ _ hinv
  | cd name =>
    simp only [run_pop, Option.some.injEq] at h
    subst h
    rw [(cmd_cd_p_root name st).1, (cmd_cd_p_root name st).2]
    exact hinv
  | back =>
    simp only [run_pop, Option.some.injEq] at h
    subst h
    rw [(cmd_back_p_root st).1, (cmd_back_p_root st).2]
    exact hinv

theorem tree_inv_init : tree_inv init_pstate.root init_pstate.next := by
  refine ⟨rfl, ?_, ?_, ?_⟩
  · simp [init_pstate, create_dir_p, parent_ok, parent_ok_list]
  · simp [init_pstate, create_dir_p, addrs, addrs_list]
  · simp [init_pstate, create_dir_p, addrs, addrs_list]

theorem tree_inv_run_pops (ops : List POp) (st st2 : PState)
    (hinv : tree_inv st.root st.next) (h : run_pops ops st = some st2) :
    tree_inv st2.root st2.next := by
  induction ops generalizing st with
  | nil =>
    simp only [run_pops, Option.some.injEq] at h
    subst h
    exact hinv
  | cons op ops ih =>
    simp only [run_pops] at h
    cases hr : run_pop st op with
    | none => simp [hr] at h
    | some st1 =>
      simp only [hr, Option.some_bind] at h
      exact ih st1 (tree_inv_run_pop st st1 op hinv hr) h

theorem path_of_addr_none_aux (a : Nat) :
    (∀ d : PDir, a ∉ addrs d → path_of_addr a d = none) ∧
    (∀ (l : List PDir) (k : Nat), a ∉ addrs_list l → path_of_addr_list a l k = none) := by
  have key : ∀ n : Nat, (∀ d : PDir, sizeOf d ≤ n → a ∉ addrs d → path_of_addr a d = none) ∧
      (∀ (l : List PDir) (k : Nat), sizeOf l ≤ n → a ∉ addrs_list l →
        path_of_addr_list a l k = none) := by
    intro n
    induction n with
    | zero =>
      constructor
      · intro d hd
        cases d
        simp at hd
      · intro l k hl
        cases l with
        | nil => intro _; rfl
        | cons c l => simp at hl
    | succ n ih =>
      constructor
      · intro d hd hm
        cases d with
        | mk ad pa nm subs fs =>
          simp only [addrs, List.mem_cons, not_or] at hm
          simp only [path_of_addr]
          rw [if_neg (fun h => hm.1 h.symm)]
          apply ih.2 subs 0 _ hm.2
          simp at hd
          omega
      · intro l k hl hm
        cases l with
        | nil => rfl
        | cons c l =>
          simp only [addrs_list, List.mem_append, not_or] at hm
          simp at hl
          simp only [path_of_addr_list]
          rw [ih.1 c (by omega) hm.1]
          exact ih.2 l (k + 1) (by omega) hm.2
  exact ⟨fun d => (key (sizeOf d)).1 d (le_refl _), fun l k => (key (sizeOf l)).2 l k (le_refl _)⟩

theorem getP_cons (d : PDir) (i : Nat) (p : List Nat) :
    getP d (i :: p) = (d.subdirs[i]?).bind (fun c => getP c p) := by
  simp only [getP]
  cases d.subdirs[i]? <;> rfl

theorem getP_append (d : PDir) (p q : List Nat) :
    getP d (p ++ q) = (getP d p).bind (fun c => getP c q) := by
  induction p generalizing d with
  | nil => simp [getP]
  | cons i p ih =>
    simp only [List.cons_append, getP_cons]
    cases d.subdirs[i]? with
    | none => rfl
    | some c => simp [ih]

theorem getP_addrs_sublist (d : PDir) (p : List Nat) (x : PDir) (h : getP d p = some x) :
    (addrs x).Sublist (addrs d) := by
  induction p generalizing d with
  | nil =>
    simp only [getP, Option.some.injEq] at h
    subst h
    exact List.Sublist.refl _
  | cons i p ih =>
    rw [getP_cons] at h
    cases hc : d.subdirs[i]? with
    | none => simp [hc] at h
    | some c =>
      simp only [hc, Option.some_bind] at h
      rw [addrs_eq d]
      exact ((ih c h).trans (addrs_list_get_sublist _ _ _ hc)).trans (List.sublist_cons_self _ _)

theorem addr_mem_addrs (d : PDir) : d.addr ∈ addrs d := by
  rw [addrs_eq]; simp

theorem path_of_addr_list_get (a : Nat) (l : List PDir) (i k : Nat) (c : PDir) (q : List Nat)
    (hn : (addrs_list l).Nodup) (hc : l[i]? = some c) (ha : a ∈ addrs c)
    (hq : path_of_addr a c = some q) :
    path_of_addr_list a l k = some ((k + i) :: q) := by
  induction l generalizing i k with
  | nil => simp at hc
  | cons c0 l ih =>
    simp only [addrs_list] at hn
    cases i with
    | zero =>
      simp only [List.getElem?_cons_zero, Option.some.injEq] at hc
      subst hc
      simp [path_of_addr_list, hq]
    | succ i =>
      simp only [List.getElem?_cons_succ] at hc
      have hmem : a ∈ addrs_list l := (addrs_list_get_sublist l i c hc).subset ha
      have hnot : a ∉ addrs c0 := by
        intro h0
        exact (List.nodup_append.mp hn).2.2 h0 hmem
      simp only [path_of_addr_list, (path_of_addr_none_aux a).1 c0 hnot]
      rw [ih i (k + 1) (List.nodup_append.mp hn).2.1 hc]
      congr 2
      omega

theorem path_of_addr_getP (d : PDir) (p : List Nat) (x : PDir) (hn : (addrs d).Nodup)
    (h : getP d p = some x) : path_of_addr x.addr d = some p := by
  induction p generalizing d with
  | nil =>
    simp only [getP, Option.some.injEq] at h
    subst h
    cases d
    simp [path_of_addr, PDir.addr]
  | cons i p ih =>
    rw [getP_cons] at h
    cases hc : d.subdirs[i]? with
    | none => simp [hc] at h
    | some c =>
      simp only [hc, Option.some_bind] at h
      rw [addrs_eq d] at hn
      have hnl : (addrs_list d.subdirs).Nodup := (List.nodup_cons.mp hn).2
      have hcs := addrs_list_get_sublist d.subdirs i c hc
      have hxc : x.addr ∈ addrs c := (getP_addrs_sublist c p x h).subset (addr_mem_addrs x)
      have hne : ¬ d.addr = x.addr := by
        intro he
        exact (List.nodup_cons.mp hn).1 (he ▸ hcs.subset hxc)
      have hq := ih c (hcs.nodup hnl) h
      have hl := path_of_addr_list_get x.addr d.subdirs i 0 c p hnl hc hxc hq
      cases d with
      | mk ad pa nm subs fs =>
        have hne2 : ¬ ad = x.addr := hne
        have hl2 : path_of_addr_list x.addr subs 0 = some ((0 + i) :: p) := hl
        simp only [path_of_addr, if_neg hne2, hl2, Nat.zero_add]

theorem parent_ok_getP (d : PDir) (p : List Nat) (x : PDir) (hok : parent_ok d)
    (h : getP d p = some x) : parent_ok x := by
  induction p generalizing d with
  | nil =>
    simp only [getP, Option.some.injEq] at h
    subst h
    exact hok
  | cons i p ih =>
    rw [getP_cons] at h
    cases hc : d.subdirs[i]? with
    | none => simp [hc] at h
    | some c =>
      simp only [hc, Option.some_bind] at h
      rw [parent_ok_iff] at hok
      exact ih c (parent_ok_list_get _ _ _ _ hok hc).2 h

theorem erase_eq (d : PDir) : erase d = Directory.mk d.name (erase_list d.subdirs) d.files := by
  cases d; simp [erase, PDir.name, PDir.subdirs, PDir.files]

theorem erase_list_get (l : List PDir) (i : Nat) :
    (erase_list l)[i]? = (l[i]?).map erase := by
  induction l generalizing i with
  | nil => simp [erase_list]
  | cons c l ih =>
    cases i with
    | zero => simp [erase_list]
    | succ i => simp [erase_list, ih]

theorem erase_name (d : PDir) : (erase d).name = d.name := by
  rw [erase_eq]; rfl

theorem erase_subdirs_get (d : PDir) (i : Nat) :
    (erase d).subdirs[i]? = (d.subdirs[i]?).map erase := by
  rw [erase_eq]
  exact erase_list_get d.subdirs i

theorem getDir_erase (d : PDir) (p : List Nat) :
    getDir (erase d) p = (getP d p).map erase := by
  induction p generalizing d with
  | nil => simp [getDir, getP]
  | cons i p ih =>
    rw [getDir_cons, getP_cons, erase_subdirs_get]
    cases d.subdirs[i]? with
    | none => rfl
    | some c => simp [ih]

theorem print_path_from_snoc (r : Directory) (q : List Nat) (i : Nat) (acc : CStr)
    (x c : Directory) (hx : getDir r q = some x) (hc : x.subdirs[i]? = some c) :
    print_path_from r (q ++ [i]) acc =
      (print_path_from r q acc).map (fun s => s ++ c.name ++ ['/']) := by
  induction q generalizing r acc with
  | nil =>
    simp only [getDir, Option.some.injEq] at hx
    subst hx
    simp [print_path_from, hc]
  | cons j q ih =>
    rw [getDir_cons] at hx
    cases hj : r.subdirs[j]? with
    | none => simp [hj] at hx
    | some c1 =>
      simp only [hj, Option.some_bind] at hx
      simp only [List.cons_append, print_path_from, hj]
      exact ih c1 _ hx

theorem print_path_p_eq (root : PDir) (next : Nat) (hinv : tree_inv root next)
    (p : List Nat) (d : PDir) (hd : getP root p = some d) (fuel : Nat) (hf : p.length < fuel) :
    print_path_recursive_p fuel root d = print_path_recursive (erase root) p := by
  induction p using List.reverseRecOn generalizing d fuel with
  | nil =>
    simp only [getP, Option.some.injEq] at hd
    subst hd
    cases fuel with
    | zero => simp at hf
    | succ f =>
      simp [print_path_recursive_p, hinv.1, print_path_recursive, print_path_from]
  | append_singleton q i ih =>
    rw [getP_append] at hd
    cases hq : getP root q with
    | none => simp [hq] at hd
    | some pd =>
      simp only [hq, Option.some_bind, getP_cons] at hd
      cases hc : pd.subdirs[i]? with
      | none => simp [hc] at hd
      | some c =>
        simp only [hc, Option.some_bind, getP, Option.some.injEq] at hd
        subst hd
        have hpok := parent_ok_getP root q pd hinv.2.1 hq
        have hpar : c.parent = some pd.addr :=
          (parent_ok_list_get _ _ _ _ ((parent_ok_iff pd).mp hpok) hc).1
        have hpath := path_of_addr_getP root q pd hinv.2.2.1 hq
        cases fuel with
        | zero => simp at hf
        | succ f =>
          have hf2 : q.length < f := by
            simp only [List.length_append, List.length_singleton] at hf
            omega
          simp only [print_path_recursive_p, hpar, hpath, Option.some_bind, hq]
          rw [ih pd hq f hf2]
          simp only [print_path_recursive]
          rw [print_path_from_snoc (erase root) q i ['/'] (erase pd) (erase c)
            (by rw [getDir_erase, hq]; rfl) (by rw [erase_subdirs_get, hc]; rfl)]
          rw [erase_name]

theorem print_path_from_acc (r : Directory) (p : List Nat) (acc : CStr) :
    print_path_from r p acc = (print_path_from r p []).map (fun s => acc ++ s) := by
  induction p generalizing r acc with
  | nil => simp [print_path_from]
  | cons i p ih =>
    simp only [print_path_from]
    cases r.subdirs[i]? with
    | none => rfl
    | some c =>
      simp only []
      rw [ih c (acc ++ c.name ++ ['/']), ih c ([] ++ c.name ++ ['/'])]
      simp [Option.map_map, Function.comp_def, List.append_assoc]

theorem take_take_append (n : Nat) (a s : CStr) :
    List.take n (List.take n a ++ s) = List.take n (a ++ s) := by
  by_cases h : a.length ≤ n
  · rw [List.take_of_length_le h]
  · have h1 : n ≤ (List.take n a).length := by simp; omega
    have h2 : n ≤ a.length := by omega
    rw [List.take_append_of_le_length h1, List.take_append_of_le_length h2, List.take_take]
    simp

theorem dir_record_path_eq (r : Directory) (path : CStr) (p : List Nat) (hp : p ≠ []) :
    dir_record_path r path p = (print_path_from r p path).map (List.take 1023) := by
  induction p generalizing r path with
  | nil => exact absurd rfl hp
  | cons i p ih =>
    simp only [dir_record_path, print_path_from]
    cases r.subdirs[i]? with
    | none => rfl
    | some c =>
      cases p with
      | nil => simp [print_path_from]
      | cons j p =>
        simp only []
        rw [ih c _ (by simp), print_path_from_acc c (j :: p) (List.take 1023 _),
          print_path_from_acc c (j :: p) (path ++ c.name ++ ['/'])]
        simp [Option.map_map, Function.comp_def, take_take_append]

theorem save_dir_to_file_eq (d : Directory) (path : CStr) :
    save_dir_to_file d path = save_subdirs d.subdirs path ++ save_files path d.files := by
  cases d; simp [save_dir_to_file]

theorem save_subdirs_get (l : List Directory) (i : Nat) (c : Directory) (path : CStr)
    (hc : l[i]? = some c) :
    ∃ pre post, save_subdirs l path =
      pre ++ (['D', 'I', 'R', ' '] ++ (path ++ c.name ++ ['/']).take 1023 ++ ['\n'] ++
        save_dir_to_file c ((path ++ c.name ++ ['/']).take 1023)) ++ post := by
  induction l generalizing i with
  | nil => simp at hc
  | cons c0 l ih =>
    cases i with
    | zero =>
      simp only [List.getElem?_cons_zero, Option.some.injEq] at hc
      subst hc
      exact ⟨[], save_subdirs l path, by simp [save_subdirs]⟩
    | succ i =>
      simp only [List.getElem?_cons_succ] at hc
      obtain ⟨pre, post, h⟩ := ih i hc
      refine ⟨['D', 'I', 'R', ' '] ++ (path ++ c0.name ++ ['/']).take 1023 ++ ['\n'] ++
        save_dir_to_file c0 ((path ++ c0.name ++ ['/']).take 1023) ++ pre, post, ?_⟩
      simp only [save_subdirs, h, List.append_assoc]

theorem save_has_dir_record (r : Directory) (path : CStr) (p : List Nat) (x : Directory)
    (fp : CStr) (hx : getDir r p = some x) (hfp : dir_record_path r path p = some fp) :
    ∃ pre post, save_dir_to_file r path =
      pre ++ (['D', 'I', 'R', ' '] ++ fp ++ ['\n'] ++ save_dir_to_file x fp) ++ post := by
  induction p generalizing r path with
  | nil => simp [dir_record_path] at hfp
  | cons i p ih =>
    rw [getDir_cons] at hx
    simp only [dir_record_path] at hfp
    cases hc : r.subdirs[i]? with
    | none => simp [hc] at hx
    | some c =>
      simp only [hc, Option.some_bind] at hx hfp
      obtain ⟨pre, post, hs⟩ := save_subdirs_get r.subdirs i c path hc
      rw [save_dir_to_file_eq r path, hs]
      cases p with
      | nil =>
        simp only [getDir, Option.some.injEq] at hx hfp
        subst hx; subst hfp
        exact ⟨pre, post ++ save_files path r.files, by simp only [List.append_assoc]⟩
      | cons j p =>
        simp only [] at hfp
        obtain ⟨pre2, post2, h2⟩ := ih c _ hx hfp
        rw [h2]
        exact ⟨pre ++ (['D', 'I', 'R', ' '] ++ (path ++ c.name ++ ['/']).take 1023 ++ ['\n'] ++
          pre2), post2 ++ post ++ save_files path r.files, by simp only [List.append_assoc]⟩

@[simp] theorem PDir_addr_mk (a : Nat) (p : Option Nat) (n : CStr) (s : List PDir)
    (f : List File) : (PDir.mk a p n s f).addr = a := rfl

@[simp] theorem PDir_parent_mk (a : Nat) (p : Option Nat) (n : CStr) (s : List PDir)
    (f : List File) : (PDir.mk a p n s f).parent = p := rfl

@[simp] theorem PDir_name_mk (a : Nat) (p : Option Nat) (n : CStr) (s : List PDir)
    (f : List File) : (PDir.mk a p n s f).name = n := rfl

@[simp] theorem PDir_subdirs_mk (a : Nat) (p : Option Nat) (n : CStr) (s : List PDir)
    (f : List File) : (PDir.mk a p n s f).subdirs = s := rfl

@[simp] theorem PDir_files_mk (a : Nat) (p : Option Nat) (n : CStr) (s : List PDir)
    (f : List File) : (PDir.mk a p n s f).files = f := rfl

theorem getP_modifyP (f : PDir → PDir) (root : PDir) (p : List Nat) (d : PDir)
    (h : getP root p = some d) : getP (modifyP f root p) p = some (f d) := by
  induction p generalizing root with
  | nil => simp [getP] at h; simp [getP, modifyP, h]
  | cons i p ih =>
    simp only [getP, modifyP] at h ⊢
    cases hc : root.subdirs[i]? with
    | none => simp [hc] at h
    | some c =>
      simp only [hc] at h ⊢
      have hi : i < root.subdirs.length := (List.getElem?_eq_some_iff.mp hc).1
      simp only [PDir_subdirs_mk, List.getElem?_set_self hi]
      exact ih c h

theorem modifyP_name (f : PDir → PDir) (d : PDir) (p : List Nat)
    (hf : ∀ x, (f x).name = x.name) : (modifyP f d p).name = d.name := by
  cases p with
  | nil => exact hf d
  | cons i p =>
    simp only [modifyP]
    cases d.subdirs[i]? <;> rfl

theorem print_path_modifyP (f : PDir → PDir) (hf : ∀ x, (f x).name = x.name) (root : PDir)
    (p : List Nat) (acc : CStr) :
    print_path_from (erase (modifyP f root p)) p acc = print_path_from (erase root) p acc := by
  induction p generalizing root acc with
  | nil => simp [print_path_from]
  | cons i p ih =>
    cases hc : root.subdirs[i]? with
    | none => simp only [modifyP, hc]
    | some c =>
      have hi : i < root.subdirs.length := (List.getElem?_eq_some_iff.mp hc).1
      simp only [print_path_from, erase_subdirs_get, modifyP, hc, PDir_subdirs_mk,
        List.getElem?_set_self hi, Option.map_some', erase_name, modifyP_name f c p hf]
      exact ih c _

theorem print_path_from_some (r : Directory) (p : List Nat) (acc : CStr) (x : Directory)
    (hx : getDir r p = some x) : ∃ s, print_path_from r p acc = some s := by
  induction p generalizing r acc with
  | nil => exact ⟨acc, rfl⟩
  | cons i p ih =>
    rw [getDir_cons] at hx
    cases hc : r.subdirs[i]? with
    | none => simp [hc] at hx
    | some c =>
      simp only [hc, Option.some_bind] at hx
      simp only [print_path_from, hc]
      exact ih c _ hx

theorem run_pops_append (a b : List POp) (st : PState) :
    run_pops (a ++ b) st = (run_pops a st).bind (run_pops b) := by
  induction a generalizing st with
  | nil => simp [run_pops]
  | cons op a ih =>
    simp only [List.cons_append, run_pops]
    cases run_pop st op with
    | none => rfl
    | some st1 => simp [ih]

theorem run_chain_ops (k : Nat) : run_pops (chain_ops k) init_pstate = some (chain_state k) := by
  induction k with
  | zero => rfl
  | succ k ih =>
    simp only [chain_ops, run_pops_append, ih, Option.some_bind]
    rfl

theorem deep_path_succ (k : Nat) : deep_path (k + 1) = deep_path k ++ name63 ++ ['/'] := by
  simp [deep_path, List.replicate_succ', List.flatten_append]

theorem chain_state_path (k : Nat) :
    ∃ d, getP (chain_state k).root (chain_state k).current_dir = some d ∧ d.subdirs = [] ∧
      (chain_state k).current_dir.length = k ∧
      print_path_recursive (erase (chain_state k).root) (chain_state k).current_dir =
        some (deep_path k) := by
  induction k with
  | zero => exact ⟨init_pstate.root, rfl, rfl, rfl, rfl⟩
  | succ k ih =>
    obtain ⟨d, hd, hleaf, hlen, hprint⟩ := ih
    have hcount : ¬ d.dir_count ≥ MAX_DIRS := by
      simp [PDir.dir_count, hleaf, MAX_DIRS]
    have hmk : cmd_mkdir_p name63 (chain_state k) =
        { chain_state k with
          root := modifyP (push_subdir_p (create_dir_p name63 (some d.addr) (chain_state k).next))
            (chain_state k).root (chain_state k).current_dir
          next := (chain_state k).next + 1 } := by
      simp only [cmd_mkdir_p, hd, hcount, if_false]
    have hget := getP_modifyP
      (push_subdir_p (create_dir_p name63 (some d.addr) (chain_state k).next))
      (chain_state k).root (chain_state k).current_dir d hd
    have hname : (create_dir_p name63 (some d.addr) (chain_state k).next).name = name63 := by
      simp only [create_dir_p, PDir_name_mk, MAX_NAME]
      exact List.take_of_length_le (by simp [name63])
    have hfind : find_subdir_p name63
        (push_subdir_p (create_dir_p name63 (some d.addr) (chain_state k).next) d).subdirs =
        some 0 := by
      simp only [push_subdir_p, PDir_subdirs_mk, hleaf, List.nil_append, find_subdir_p, hname,
        if_true]
    have hne : ¬ name63 = ['.', '.'] := by decide
    have hcd : chain_state (k + 1) =
        { cmd_mkdir_p name63 (chain_state k) with
          current_dir := (chain_state k).current_dir ++ [0] } := by
      simp only [chain_state, cmd_cd_p, hne, if_false]
      rw [hmk]
      simp only [hget, hfind]
    rw [hcd, hmk]
    simp only []
    refine ⟨create_dir_p name63 (some d.addr) (chain_state k).next, ?_, rfl, ?_, ?_⟩
    · rw [getP_append, hget]
      simp [getP, push_subdir_p, hleaf]
    · simp [hlen]
    · simp only [print_path_recursive] at hprint ⊢
      rw [print_path_from_snoc _ _ 0 ['/']
        (erase (push_subdir_p (create_dir_p name63 (some d.addr) (chain_state k).next) d))
        (erase (create_dir_p name63 (some d.addr) (chain_state k).next))
        (by rw [getDir_erase, hget]; rfl)
        (by rw [erase_subdirs_get]; simp [push_subdir_p, hleaf])]
      rw [print_path_modifyP
        (push_subdir_p (create_dir_p name63 (some d.addr) (chain_state k).next))
        (fun x => rfl), hprint, erase_name, hname, deep_path_succ]
      rfl

theorem tree_inv_paths (root : PDir) (next : Nat) (hinv : tree_inv root next)
    (q : List Nat) (i : Nat) (pd c : PDir) (hq : getP root q = some pd)
    (hc : pd.subdirs[i]? = some c) :
    c.parent = some pd.addr ∧
    ∃ full, print_path_recursive (erase root) (q ++ [i]) = some full ∧
      (∀ fuel, q.length + 1 < fuel → print_path_recursive_p fuel root c = some full) ∧
      dir_record_path (erase root) ['/'] (q ++ [i]) = some (full.take 1023) ∧
      ∃ pre post, save_filesystem (erase root) =
        pre ++ (['D', 'I', 'R', ' '] ++ full.take 1023 ++ ['\n'] ++
          save_dir_to_file (erase c) (full.take 1023)) ++ post := by
  have hpok := parent_ok_getP root q pd hinv.2.1 hq
  have hpar : c.parent = some pd.addr :=
    (parent_ok_list_get _ _ _ _ ((parent_ok_iff pd).mp hpok) hc).1
  have hgc : getP root (q ++ [i]) = some c := by
    rw [getP_append, hq]
    simp [getP, hc]
  have hge : getDir (erase root) (q ++ [i]) = some (erase c) := by
    rw [getDir_erase, hgc]; rfl
  obtain ⟨full, hfull⟩ := print_path_from_some (erase root) (q ++ [i]) ['/'] (erase c) hge
  have hrec : dir_record_path (erase root) ['/'] (q ++ [i]) = some (full.take 1023) := by
    rw [dir_record_path_eq _ _ _ (by simp), hfull]
    rfl
  refine ⟨hpar, full, hfull, ?_, hrec, ?_⟩
  · intro fuel hfuel
    rw [print_path_p_eq root next hinv (q ++ [i]) c hgc fuel (by simpa using hfuel)]
    exact hfull
  · exact save_has_dir_record (erase root) ['/'] (q ++ [i]) (erase c) _ hge hrec

theorem deep_path_length (k : Nat) : (deep_path k).length = 1 + 64 * k := by
  induction k with
  | zero => rfl
  | succ k ih =>
    rw [deep_path_succ]
    simp only [List.length_append, ih, name63, List.length_replicate, List.length_singleton]
    omega

/-- C18, as stated, fails in its second part: after `mkdir` and `cd` with a
name of 63 bytes, 16 times over, the path printed by following the parent
pointers of the current directory is `/` followed by 16 times the name and
`/`, 1025 bytes, while the `fullpath` of its `DIR` record is cut by `snprintf`
to the first 1023 bytes of it. -/
theorem C18_counterexample :
    run_pops (chain_ops 16) init_pstate = some (chain_state 16) ∧
    ∃ d, getP (chain_state 16).root (chain_state 16).current_dir = some d ∧
      print_path_recursive_p 17 (chain_state 16).root d = some (deep_path 16) ∧
      dir_record_path (erase (chain_state 16).root) ['/'] (chain_state 16).current_dir =
        some ((deep_path 16).take 1023) ∧
      (deep_path 16).take 1023 ≠ deep_path 16 := by
  refine ⟨run_chain_ops 16, ?_⟩
  obtain ⟨d, hd, -, hlen, hprint⟩ := chain_state_path 16
  have hinv := tree_inv_run_pops (chain_ops 16) init_pstate (chain_state 16) tree_inv_init
    (run_chain_ops 16)
  refine ⟨d, hd, ?_, ?_, ?_⟩
  · rw [print_path_p_eq _ _ hinv _ d hd 17 (by rw [hlen]; decide)]
    exact hprint
  · have hne : (chain_state 16).current_dir ≠ [] := by
      intro h0
      rw [h0] at hlen
      simp at hlen
    rw [dir_record_path_eq _ _ _ hne]
    simp only [print_path_recursive] at hprint
    rw [hprint]
    rfl
  · intro h
    have h2 := congrArg List.length h
    rw [List.length_take, deep_path_length] at h2
    omega

/-- C18 (amended): in every state reached from the initial empty root by calls
of `find_or_create_dir_by_path`, `load_filesystem` and the commands `mkdir`,
`rmdir`, `wipe`, `cd` and `back` that stay inside the buffers and arrays
(`pops_fit`: every loaded record fits `path[1024]` and `filename[256]`, and no
directory ever holds more than `MAX_DIRS` subdirectories or `MAX_FILES`
files), the root has no parent; no two directories
share an address (the address of the directory at a position designates that
position and no other); every directory in the child list of a directory has
exactly that directory as parent; following its parent pointers,
`print_path_recursive` returns (given more steps than its depth) a path
`full`; and the `fullpath` the serializer formats for it is the first 1023
bytes of `full` (equal to `full` when that has at most 1023 bytes), written by
`save_filesystem` in the line `DIR fullpath` ahead of the directory's own
output. -/
theorem C18_parent_links (ops : List POp) (st : PState)
    (h : run_pops ops init_pstate = some st) (hfit : pops_fit ops init_pstate = true) :
    st.root.parent = none ∧
    (∀ p d, getP st.root p = some d → path_of_addr d.addr st.root = some p) ∧
    (∀ q i pd c, getP st.root q = some pd → pd.subdirs[i]? = some c →
      c.parent = some pd.addr ∧
      ∃ full, (∀ fuel, q.length + 1 < fuel →
          print_path_recursive_p fuel st.root c = some full) ∧
        dir_record_path (erase st.root) ['/'] (q ++ [i]) = some (full.take 1023) ∧
        (full.length ≤ 1023 → dir_record_path (erase st.root) ['/'] (q ++ [i]) = some full) ∧
        ∃ pre post, save_filesystem (erase st.root) =
          pre ++ (['D', 'I', 'R', ' '] ++ full.take 1023 ++ ['\n'] ++
            save_dir_to_file (erase c) (full.take 1023)) ++ post) := by
  have _ := hfit
  have hinv := tree_inv_run_pops ops init_pstate st tree_inv_init h
  refine ⟨hinv.1, fun p d hd => path_of_addr_getP st.root p d hinv.2.2.1 hd, ?_⟩
  intro q i pd c hq hc
  obtain ⟨hpar, full, -, hp, hrec, hsave⟩ := tree_inv_paths st.root st.next hinv q i pd c hq hc
  refine ⟨hpar, full, hp, hrec, ?_, hsave⟩
  intro hlen
  rw [hrec, List.take_of_length_le hlen]

/-- C18 witness: the state after `mkdir docs`, `cd docs`, `mkdir sub` and a
load of a text with the record `DIR /docs/sub/deep/`. -/
theorem C18_witness :
    ∃ st, run_pops docs_pops init_pstate = some st ∧
      st.root.parent = none ∧
      (∀ p d, getP st.root p = some d → path_of_addr d.addr st.root = some p) ∧
      (∀ q i pd c, getP st.root q = some pd → pd.subdirs[i]? = some c →
        c.parent = some pd.addr ∧
        ∃ full, (∀ fuel, q.length + 1 < fuel →
            print_path_recursive_p fuel st.root c = some full) ∧
          dir_record_path (erase st.root) ['/'] (q ++ [i]) = some (full.take 1023) ∧
          (full.length ≤ 1023 →
            dir_record_path (erase st.root) ['/'] (q ++ [i]) = some full) ∧
          ∃ pre post, save_filesystem (erase st.root) =
            pre ++ (['D', 'I', 'R', ' '] ++ full.take 1023 ++ ['\n'] ++
              save_dir_to_file (erase c) (full.take 1023)) ++ post) :=
  ⟨_, rfl, C18_parent_links docs_pops _ rfl (by decide!)⟩

/-! ## Notepad save -/

theorem script_code_not_print (code : CStr)
    (h : strncmp_eq code "SCRIPT:NOTEPAD".toList = true) :
    strncmp_eq code "PRINT:".toList = false := by
  cases code with
  | nil => simp [strncmp_eq] at h
  | cons x xs =>
    have hx : x = 'S' := by
      simp only [strncmp_eq, String.toList, List.isPrefixOf, Bool.and_eq_true,
        beq_iff_eq] at h
      exact h.1.symm
    subst hx
    rfl

/-- C21, as stated, fails for a long file name: the built-in notepad with the
name of 64 bytes `a` and the text `x` in the empty root appends a file whose
name is the first 63 bytes, not the name given; a second save under the same
name finds no file of that name (the lookup compares all 64 bytes) and appends
a second file instead of replacing the content of the first. -/
theorem C21_counterexample :
    (cur_dir (app_builtin_notepad (List.replicate 64 'a') "\nx\nEND\n".toList
      init_state)).map Directory.files = some [⟨name63, "x\n".toList⟩] ∧
    (cur_dir (app_builtin_notepad (List.replicate 64 'a') "\ny\nEND\n".toList
      (app_builtin_notepad (List.replicate 64 'a') "\nx\nEND\n".toList
        init_state))).map Directory.files =
      some [⟨name63, "x\n".toList⟩, ⟨name63, "y\n".toList⟩] := by
  decide!

/-- C21 (amended): saving through the notepad path with file name `n` and text
`c`, i.e. `app_builtin_notepad` and the `SCRIPT:NOTEPAD` runner, which both
end in `notepad_save` with the text read up to `END`.  If the current
directory has a file named `n`, the first such file gets exactly `c` as
content and the file list keeps its length, order, names and every other
content.  Otherwise, when the current directory holds fewer than `MAX_FILES`
files (the store is not guarded), exactly one new file is appended at the end
of the file list, with content `c` and the first 63 bytes of `n` as name: the
file (`n`, `c`) when `n` has at most 63 bytes.  In both cases the subdirectories, the
current directory and the registry are unchanged. -/
theorem C21_notepad_save (n c : CStr) (st : State) (d : Directory)
    (h : cur_dir st = some d) :
    (∀ stdin, app_builtin_notepad n stdin st = notepad_save n (read_content stdin) st) ∧
    (∀ code stdin,
      n = ((code.drop 14).take 255).dropWhile (fun x => x = ' ' || x = '\t') → n ≠ [] →
      run_installed_notepad code stdin st = notepad_save n (read_content stdin) st) ∧
    (∀ name a stdin, find_app_by_name name st.apps = some a → a.builtin ≠ 0 →
      a.code = "BUILTIN_NOTEPAD".toList →
      run_app_command name n stdin st = notepad_save n (read_content stdin) st) ∧
    (∀ name a word stdin, find_app_by_name name st.apps = some a → a.builtin = 0 →
      strncmp_eq a.code "SCRIPT:NOTEPAD".toList = true →
      n = ((a.code.drop 14).take 255).dropWhile (fun x => x = ' ' || x = '\t') → n ≠ [] →
      run_app_command name word stdin st = notepad_save n (read_content stdin) st) ∧
    (∀ pre f post, d.files = pre ++ f :: post → f.name = n →
      (∀ g ∈ pre, g.name ≠ n) →
      cur_dir (notepad_save n c st) =
        some (Directory.mk d.name d.subdirs (pre ++ ⟨n, c⟩ :: post))) ∧
    ((∀ g ∈ d.files, g.name ≠ n) → d.file_count < MAX_FILES →
      cur_dir (notepad_save n c st) =
        some (Directory.mk d.name d.subdirs (d.files ++ [⟨n.take 63, c⟩])) ∧
      (n.length ≤ 63 →
        cur_dir (notepad_save n c st) =
          some (Directory.mk d.name d.subdirs (d.files ++ [⟨n, c⟩])))) ∧
    (notepad_save n c st).current_dir = st.current_dir ∧
    (notepad_save n c st).apps = st.apps := by
  refine ⟨fun _ => rfl, ?_, ?_, ?_, ?_, ?_, ?_, ?_⟩
  · intro code stdin hn hne
    simp only [run_installed_notepad, ← hn, hne, if_false]
  · intro name a stdin ha hb hcode
    have hcalc : ¬ "BUILTIN_NOTEPAD".toList = "BUILTIN_CALC".toList := by decide
    simp only [run_app_command, ha, hb, hcalc, hcode, ne_eq, not_false_eq_true, if_true,
      if_false, app_builtin_notepad]
  · intro name a word stdin ha hb hscript hn hne
    have hprint : strncmp_eq a.code "PRINT:".toList = false := script_code_not_print a.code hscript
    simp only [run_app_command, ha, hb, hprint, hscript, ne_eq, not_true_eq_false, if_true,
      if_false, Bool.false_eq_true, run_installed_notepad, ← hn, hne]
  · intro pre f post hd hf hpre
    have hfind : find_file n d.files = some pre.length := by
      rw [hd]; exact find_file_split n pre post f hf hpre
    have hst : notepad_save n c st =
        { st with root := modifyDir (overwrite_file_at pre.length c) st.root st.current_dir } := by
      simp [notepad_save, h, hfind]
    have hget : d.files[pre.length]? = some f := by
      rw [hd, List.getElem?_append_right (le_refl _)]; simp
    rw [hst, cur_dir_modify _ st d h]
    simp only [overwrite_file_at, hget, hf]
    simp [hd]
  · intro hnone _
    have hst : notepad_save n c st =
        { st with root := modifyDir (push_file (create_file n c)) st.root st.current_dir } := by
      simp [notepad_save, h, find_file_none n d.files hnone]
    have h1 : cur_dir (notepad_save n c st) =
        some (Directory.mk d.name d.subdirs (d.files ++ [⟨n.take 63, c⟩])) := by
      rw [hst, cur_dir_modify _ st d h]
      rfl
    refine ⟨h1, fun hlen => ?_⟩
    rw [h1, List.take_of_length_le hlen]
  · simp only [notepad_save, h]
    cases find_file n d.files <;> rfl
  · simp only [notepad_save, h]
    cases find_file n d.files <;> rfl

/-- C21 witness: with the files `a`, `b`, `a`, saving `a` with the text `new`
replaces the content of the first `a` only, and saving `c` appends the file
`c`. -/
theorem C21_witness :
    cur_dir (notepad_save ['a'] "new".toList files_aba_state) =
      some (Directory.mk ['/'] [Directory.mk ['d'] [] []]
        [⟨['a'], "new".toList⟩, ⟨['b'], ['2']⟩, ⟨['a'], ['3']⟩]) ∧
    cur_dir (notepad_save ['c'] "new".toList files_aba_state) =
      some (Directory.mk ['/'] [Directory.mk ['d'] [] []]
        [⟨['a'], ['1']⟩, ⟨['b'], ['2']⟩, ⟨['a'], ['3']⟩, ⟨['c'], "new".toList⟩]) :=
  ⟨(C21_notepad_save ['a'] "new".toList files_aba_state files_aba_state.root rfl).2.2.2.2.1
      [] ⟨['a'], ['1']⟩ [⟨['b'], ['2']⟩, ⟨['a'], ['3']⟩] rfl rfl (by decide),
    ((C21_notepad_save ['c'] "new".toList files_aba_state files_aba_state.root
      rfl).2.2.2.2.2.1 (by decide) (by decide)).2 (by decide)⟩

/-! ## Wipe and the registry -/

/-- C22: after a confirmed wipe, for every prior registry, the registry is the
prior one filtered on the builtin flag: exactly the records with a non-zero
flag (the test `!apps[i].builtin` of the removal loop), in their original
order; it holds no record with flag 0, and when every flag is 0 or 1, as
`register_app` is called, these are exactly the records whose flag was 1.
Runs of consecutive installed records are removed whole. -/
theorem C22_wipe_purges_installed (st : State) :
    (cmd_wipe "yes".toList st).apps = st.apps.filter (fun a => decide (a.builtin ≠ 0)) ∧
    (∀ a ∈ (cmd_wipe "yes".toList st).apps, a.builtin ≠ 0) ∧
    ((∀ a ∈ st.apps, a.builtin = 0 ∨ a.builtin = 1) →
      (cmd_wipe "yes".toList st).apps = st.apps.filter (fun a => decide (a.builtin = 1))) ∧
    ∀ (pre run post : List App), st.apps = pre ++ run ++ post → (∀ a ∈ run, a.builtin = 0) →
      (cmd_wipe "yes".toList st).apps =
        pre.filter (fun a => decide (a.builtin ≠ 0)) ++
          post.filter (fun a => decide (a.builtin ≠ 0)) := by
  have h0 : (cmd_wipe "yes".toList st).apps =
      st.apps.filter (fun a => decide (a.builtin ≠ 0)) := by
    have hy : ¬ ("yes".toList ≠ ['y', 'e', 's']) := by decide
    simp only [cmd_wipe, hy, if_false]
    exact purge_installed_eq_filter st.apps
  refine ⟨h0, ?_, ?_, ?_⟩
  · intro a ha
    rw [h0] at ha
    simpa using (List.mem_filter.mp ha).2
  · intro hflags
    rw [h0]
    apply List.filter_congr
    intro a ha
    rcases hflags a ha with h | h <;> simp [h]
  · intro pre run post hsplit hrun
    rw [h0, hsplit, List.filter_append, List.filter_append]
    have : run.filter (fun a => decide (a.builtin ≠ 0)) = [] := by
      rw [List.filter_eq_nil_iff]
      intro a ha
      simp [hrun a ha]
    rw [this, List.append_nil]

/-- C22 witness: a registry with a builtin record, two consecutive installed
records, a builtin record and an installed record. -/
theorem C22_witness :
    (cmd_wipe "yes".toList
      { init_state with
        apps := [⟨['a'], [], [], 1⟩, ⟨['b'], [], [], 0⟩, ⟨['c'], [], [], 0⟩, ⟨['d'], [], [], 1⟩,
          ⟨['e'], [], [], 0⟩] }).apps =
      [⟨['a'], [], [], 1⟩, ⟨['d'], [], [], 1⟩] :=
  ((C22_wipe_purges_installed
    { init_state with
      apps := [⟨['a'], [], [], 1⟩, ⟨['b'], [], [], 0⟩, ⟨['c'], [], [], 0⟩, ⟨['d'], [], [], 1⟩,
        ⟨['e'], [], [], 0⟩] }).2.2.1 (by decide)).trans (by decide)

/-! ## Loading the installed apps -/

theorem load_apps_from_files_eq (files : List File) (apps : List App) :
    load_apps_from_files files apps = apps ++ files.filterMap savapp_record := by
  induction files generalizing apps with
  | nil => simp [load_apps_from_files]
  | cons f fs ih =>
    simp only [load_apps_from_files, List.filterMap_cons, savapp_record]
    by_cases h1 : ext_is_savapp f.name = true
    · by_cases h2 : (parse_savapp_lines (strtok_all '\n' f.content) [] []).1.length > 0
      · simp only [h1, h2, and_self, if_true, ih, register_app, List.append_assoc,
          List.singleton_append]
      · simp only [h1, h2, and_false, if_false, if_true, ih]
    · simp only [h1, false_and, if_false, ih, Bool.false_eq_true]

theorem strrchr_split_eq (c : Char) (s : CStr) (r : CStr × CStr)
    (h : strrchr_split c s = some r) : s = r.1 ++ c :: r.2 := by
  induction s generalizing r with
  | nil => simp [strrchr_split] at h
  | cons x xs ih =>
    simp only [strrchr_split] at h
    cases hr : strrchr_split c xs with
    | some r2 =>
      simp only [hr, Option.some.injEq] at h
      subst h
      simp [← ih r2 hr]
    | none =>
      simp only [hr] at h
      by_cases hx : x = c
      · simp only [hx, if_true, Option.some.injEq] at h
        subst h
        simp [hx]
      · simp [hx] at h

theorem ext_is_savapp_iff (name : CStr) :
    ext_is_savapp name = true ↔ ∃ base, name = base ++ ".savapp".toList := by
  constructor
  · intro h
    simp only [ext_is_savapp] at h
    cases hr : strrchr_split '.' name with
    | none => simp [hr] at h
    | some r =>
      simp only [hr, decide_eq_true_eq] at h
      refine ⟨r.1, ?_⟩
      rw [strrchr_split_eq '.' name r hr, h]
      rfl
  · rintro ⟨base, rfl⟩
    exact ext_is_savapp_append base

theorem parse_savapp_no_name (ls : List CStr) (name desc : CStr)
    (h : ∀ line ∈ ls, strncmp_eq line "APP_NAME=".toList = false) :
    (parse_savapp_lines ls name desc).1 = name := by
  induction ls generalizing name desc with
  | nil => rfl
  | cons l ls ih =>
    simp only [List.mem_cons, forall_eq_or_imp] at h
    simp only [parse_savapp_lines, h.1, Bool.false_eq_true, if_false]
    split
    · exact ih _ _ h.2
    · split
      · rfl
      · exact ih _ _ h.2

theorem apps_tokens : strtok_all '/' ("/apps".toList.take 1023) = ["apps".toList] := by
  decide

/-- What `load_installed_apps_from_vfs` does in the model, which follows the
code while the registry has room (`register_app` tests no counter) and the
root has room for `/apps`: it leaves the records already in the
registry as they are and appends, in the stored order of the files directly
inside `/apps` (the first child of the root named `apps`), one record for
every file whose name ends in `.savapp` and whose content yields a non-empty
`APP_NAME` value, and nothing for any other file: a file with another
extension and a file with no line that begins with `APP_NAME=` give no record.
Each record has the builtin flag 0.  The tree is unchanged; when the root has
no child named `apps`, that directory is created empty and no record is
added. -/
theorem load_installed_apps_spec (st : State) :
    (∀ i c, find_subdir "apps".toList st.root.subdirs = some i → st.root.subdirs[i]? = some c →
      (load_installed_apps_from_vfs st).apps = st.apps ++ c.files.filterMap savapp_record ∧
      (load_installed_apps_from_vfs st).root = st.root) ∧
    (find_subdir "apps".toList st.root.subdirs = none →
      (load_installed_apps_from_vfs st).apps = st.apps ∧
      (load_installed_apps_from_vfs st).root =
        push_subdir (create_dir "apps".toList) st.root) ∧
    (∀ f : File, (savapp_record f).isSome = true ↔
      (∃ base, f.name = base ++ ".savapp".toList) ∧
        (parse_savapp_lines (strtok_all '\n' f.content) [] []).1 ≠ []) ∧
    (∀ f : File, (∀ line ∈ strtok_all '\n' f.content,
        strncmp_eq line "APP_NAME=".toList = false) → savapp_record f = none) ∧
    (∀ (f : File) (a : App), savapp_record f = some a →
      a.builtin = 0 ∧
      a.name = (parse_savapp_lines (strtok_all '\n' f.content) [] []).1.take 63) := by
  have hres : find_or_create_dir_by_path "/apps".toList st.root =
      resolve_below ["apps".toList] st.root := by
    rw [find_or_create_dir_by_path_resolve, apps_tokens]
  refine ⟨?_, ?_, ?_, ?_, ?_⟩
  · intro i c hf hc
    have h1 : resolve_below ["apps".toList] st.root = (st.root, [i]) := by
      simp only [resolve_below, hf, hc]
      rw [list_set_eq_self _ _ _ hc, Directory.mk_eta]
    have hg : getDir st.root [i] = some c := by simp [getDir, hc]
    simp only [load_installed_apps_from_vfs, hres, h1, hg, load_apps_from_files_eq]
    exact ⟨trivial, trivial⟩
  · intro hf
    have h1 : resolve_below ["apps".toList] st.root =
        (push_subdir (create_dir "apps".toList) st.root, [st.root.dir_count]) := by
      simp only [resolve_below, hf, push_subdir]
    have hg : getDir (push_subdir (create_dir "apps".toList) st.root) [st.root.dir_count] =
        some (create_dir "apps".toList) := by
      simp [getDir, push_subdir, Directory.dir_count]
    simp only [load_installed_apps_from_vfs, hres, h1, hg, load_apps_from_files_eq]
    exact ⟨by simp [create_dir], trivial⟩
  · intro f
    simp only [savapp_record, ← ext_is_savapp_iff]
    by_cases h1 : ext_is_savapp f.name = true
    · by_cases h2 : (parse_savapp_lines (strtok_all '\n' f.content) [] []).1.length > 0
      · simp [h1, h2, List.ne_nil_of_length_pos h2]
      · have h3 : (parse_savapp_lines (strtok_all '\n' f.content) [] []).1 = [] :=
          List.length_eq_zero.mp (by omega)
        simp [h1, h3]
    · simp [h1]
  · intro f hno
    have h3 := parse_savapp_no_name (strtok_all '\n' f.content) [] [] hno
    simp [savapp_record, h3]
  · intro f a ha
    simp only [savapp_record] at ha
    split at ha
    · simp only [Option.some.injEq] at ha
      subst ha
      exact ⟨rfl, rfl⟩
    · simp at ha

/-- The case where `/apps` holds `hello.savapp` with the content
`APP_NAME=hello`, `APP_DESC=x`, `CODE=PRINT:hi`, `ENDAPP`. -/
theorem load_installed_apps_spec_hello :
    (load_installed_apps_from_vfs hello_app_state).apps =
      [⟨"hello".toList, ['x'], "PRINT:hi\n".toList, 0⟩] ∧
    (load_installed_apps_from_vfs hello_app_state).root = hello_app_state.root :=
  ⟨(((load_installed_apps_spec hello_app_state).1 0 _ rfl rfl).1).trans (by decide),
    ((load_installed_apps_spec hello_app_state).1 0 _ rfl rfl).2⟩

/-- C23: the code does not do what the claim says.  `many_apps_state` is the
state of `main` after `load_filesystem` on `many_apps_text` (a text within the
buffers, whose tree is within the arrays: `/apps` with 253 files `a.savapp`)
and `init_builtin_apps` (four records).  Each of the 253 files yields a
record, so `load_installed_apps_from_vfs` calls `register_app` 253 times: the
registry ends with 257 records, the last one stored at `apps[256]`, one past
the array `apps[256]`, because `register_app` tests no counter.  And when the
root is full and has no child `apps`, the directory `/apps` is stored as its
129th subdirectory. -/
theorem C23_store_past_registry :
    text_fits many_apps_text = true ∧
    (load_filesystem (some many_apps_text) init_state.root).map Directory.name =
      some many_apps_state.root.name ∧
    (load_filesystem (some many_apps_text) init_state.root).map
      (fun r => (r.files, r.subdirs.map (fun d => (d.name, d.dir_count, d.files)))) =
      some (many_apps_state.root.files,
        many_apps_state.root.subdirs.map (fun d => (d.name, d.dir_count, d.files))) ∧
    within_bounds many_apps_state.root = true ∧
    many_apps_state.apps = init_builtin_apps [] ∧
    many_apps_state.apps.length = 4 ∧
    (getDir many_apps_state.root [0]).map
      (fun d => (d.files.length, (d.files.filterMap savapp_record).length)) =
        some (253, 253) ∧
    (load_installed_apps_from_vfs many_apps_state).apps.length = 257 ∧
    full_state.root.dir_count = MAX_DIRS ∧
    find_subdir "apps".toList full_state.root.subdirs = none ∧
    (load_installed_apps_from_vfs full_state).root.dir_count = MAX_DIRS + 1 := by
  refine ⟨by decide!, by decide!, by decide!, by decide!, rfl, by decide!, by decide!,
    by decide!, by decide!, by decide!, by decide!⟩

/-! ## Capacity of the child arrays -/

/-- C24: the code does not do what the claim says.  `full_root` is within the
bounds, with 128 subdirectories and 256 files.  `cmd_mkdir` and `cmd_write`
test the counters and store nothing there; but `find_or_create_dir_by_path`
stores a 129th subdirectory, `load_filesystem` a 129th subdirectory and a
257th file, the notepad save a 257th file, and `install_app_command` a 129th
subdirectory of the root (or a 257th file of a full `/apps`), none of them
testing a counter.  The last line is a session from startup: `rmdir apps`, 128
times `mkdir d`, then `install hello` leaves the root with 129
subdirectories. -/
theorem C24_unguarded_stores :
    within_bounds full_root = true ∧
    (cmd_mkdir ['x'] full_state).root.dir_count = 128 ∧
    (cmd_write ['g'] "\nt\nEND\n".toList full_state).root.file_count = 256 ∧
    (find_or_create_dir_by_path "/x".toList full_root).1.dir_count = 129 ∧
    within_bounds (find_or_create_dir_by_path "/x".toList full_root).1 = false ∧
    (load_filesystem (some "DIR /x/\nFILE /g\nEND\n".toList) full_root).map
      (fun r => (r.dir_count, r.file_count)) = some (129, 257) ∧
    (notepad_save ['g'] ['t'] full_state).root.file_count = 257 ∧
    (install_app_command "hello".toList full_state).root.dir_count = 129 ∧
    within_bounds full_apps_state.root = true ∧
    (getDir (install_app_command "hello".toList full_apps_state).root [0]).map
      Directory.file_count = some 257 ∧
    (run_shell fill_root_cmds startup_state).root.dir_count = 129 := by
  refine ⟨by decide!, by decide!, by decide!, by decide!, by decide!, by decide!, by decide!,
    by decide!, by decide!, by decide!, by decide!⟩

/-! ## The current directory stays in the tree -/

theorem sub_tree_getDir (s t : Directory) (q : List Nat) (x : Directory)
    (h : sub_tree s t) (hx : getDir s q = some x) : ∃ y, getDir t q = some y := by
  induction q generalizing s t with
  | nil => exact ⟨t, rfl⟩
  | cons i q ih =>
    rw [getDir_cons] at hx ⊢
    cases hc : s.subdirs[i]? with
    | none => simp [hc] at hx
    | some c =>
      simp only [hc, Option.some_bind] at hx
      obtain ⟨c2, hc2, hsub⟩ :=
        sub_tree_list_getElem s.subdirs t.subdirs i c ((sub_tree_iff s t).mp h).2 hc
      simp only [hc2, Option.some_bind]
      exact ih c c2 hsub hx

theorem sub_tree_modifyDir (f : Directory → Directory) (hf : ∀ x, sub_tree x (f x))
    (d : Directory) (p : List Nat) : sub_tree d (modifyDir f d p) := by
  induction p generalizing d with
  | nil => exact hf d
  | cons i p ih =>
    simp only [modifyDir]
    cases hc : d.subdirs[i]? with
    | none => exact sub_tree_refl d
    | some c =>
      rw [sub_tree_iff]
      exact ⟨rfl, sub_tree_list_set_self d.subdirs i c _ hc (ih c)⟩

theorem sub_tree_remove_file_at (i : Nat) (x : Directory) : sub_tree x (remove_file_at i x) := by
  rw [sub_tree_iff]
  exact ⟨rfl, sub_tree_list_refl _⟩

theorem sub_tree_find_or_create (path : CStr) (root : Directory) :
    sub_tree root (find_or_create_dir_by_path path root).1 := by
  rw [find_or_create_dir_by_path_resolve]
  exact sub_tree_resolve_below _ root

theorem getDir_dropLast (root : Directory) (p : List Nat) (d : Directory)
    (h : getDir root p = some d) : ∃ x, getDir root p.dropLast = some x := by
  cases p using List.reverseRecOn with
  | nil => exact ⟨d, h⟩
  | append_singleton q i =>
    rw [getDir_append] at h
    rw [List.dropLast_concat]
    cases hq : getDir root q with
    | none => simp [hq] at h
    | some x => exact ⟨x, rfl⟩

theorem load_installed_sub_tree (st : State) :
    (load_installed_apps_from_vfs st).current_dir = st.current_dir ∧
      sub_tree st.root (load_installed_apps_from_vfs st).root := by
  unfold load_installed_apps_from_vfs
  split <;> exact ⟨rfl, sub_tree_find_or_create _ _⟩

theorem install_sub_tree (packname : CStr) (st : State) :
    (install_app_command packname st).current_dir = st.current_dir ∧
      sub_tree st.root (install_app_command packname st).root := by
  unfold install_app_command
  split
  · exact ⟨rfl, sub_tree_find_or_create _ _⟩
  · split
    · exact ⟨rfl, sub_tree_find_or_create _ _⟩
    · split
      · exact ⟨rfl, sub_tree_find_or_create _ _⟩
      · refine ⟨(load_installed_sub_tree _).1, ?_⟩
        refine sub_tree_trans _ _ _ ?_ (load_installed_sub_tree _).2
        exact sub_tree_trans _ _ _ (sub_tree_find_or_create _ _) (sub_tree_push_file _ _ _)

theorem uninstall_sub_tree (appname : CStr) (st : State) :
    (uninstall_app_command appname st).current_dir = st.current_dir ∧
      sub_tree st.root (uninstall_app_command appname st).root := by
  unfold uninstall_app_command
  split
  · exact ⟨rfl, sub_tree_find_or_create _ _⟩
  · split
    · exact ⟨rfl, sub_tree_find_or_create _ _⟩
    · refine ⟨rfl, ?_⟩
      exact sub_tree_trans _ _ _ (sub_tree_find_or_create _ _)
        (sub_tree_modifyDir _ (sub_tree_remove_file_at _) _ _)

theorem cmd_back_valid (st : State) (h : ∃ d, cur_dir st = some d) :
    ∃ d, cur_dir (cmd_back st) = some d := by
  obtain ⟨d, hd⟩ := h
  unfold cmd_back
  split
  · exact ⟨d, hd⟩
  · exact getDir_dropLast st.root st.current_dir d hd

theorem run_shell_cmd_valid (st : State) (c : ShellCmd) (h : ∃ d, cur_dir st = some d) :
    ∃ d, cur_dir (run_shell_cmd st c) = some d := by
  obtain ⟨d, hd⟩ := h
  cases c with
  | cd name =>
    simp only [run_shell_cmd, cmd_cd]
    split
    · exact cmd_back_valid st ⟨d, hd⟩
    · simp only [hd]
      cases hf : find_subdir name d.subdirs with
      | none => exact ⟨d, hd⟩
      | some i =>
        obtain ⟨c, hc, -, -⟩ := find_subdir_some name d.subdirs i hf
        refine ⟨c, ?_⟩
        simp only [cur_dir] at hd ⊢
        rw [getDir_append, hd]
        simp [getDir, hc]
  | back => exact cmd_back_valid st ⟨d, hd⟩
  | mkdir name =>
    simp only [run_shell_cmd, cmd_mkdir, hd]
    split
    · exact ⟨d, hd⟩
    · exact ⟨_, cur_dir_modify _ st d hd⟩
  | rmdir name =>
    simp only [run_shell_cmd, cmd_rmdir, hd]
    split
    · exact ⟨_, cur_dir_modify _ st d hd⟩
    · exact ⟨d, hd⟩
  | write name stdin =>
    simp only [run_shell_cmd, cmd_write, hd]
    split
    · exact ⟨d, hd⟩
    · exact ⟨_, cur_dir_modify _ st d hd⟩
  | rm name =>
    simp only [run_shell_cmd, cmd_rm, hd]
    split
    · exact ⟨_, cur_dir_modify _ st d hd⟩
    · exact ⟨d, hd⟩
  | wipe confirm =>
    simp only [run_shell_cmd, cmd_wipe]
    split
    · exact ⟨d, hd⟩
    · exact ⟨_, rfl⟩
  | install packname =>
    obtain ⟨h1, h2⟩ := install_sub_tree packname st
    simp only [run_shell_cmd, cur_dir, h1]
    exact sub_tree_getDir _ _ _ d h2 hd
  | uninstall appname =>
    obtain ⟨h1, h2⟩ := uninstall_sub_tree appname st
    simp only [run_shell_cmd, cur_dir, h1]
    exact sub_tree_getDir _ _ _ d h2 hd

theorem run_shell_valid (cmds : List ShellCmd) (st : State) (h : ∃ d, cur_dir st = some d) :
    ∃ d, cur_dir (run_shell cmds st) = some d := by
  induction cmds generalizing st with
  | nil => exact h
  | cons c cmds ih =>
    simp only [run_shell, List.foldl_cons]
    exact ih _ (run_shell_cmd_valid st c h)

/-- The current directory in the model, which follows the code while no
store goes past an array: in every state reached from a state whose current
directory is the root through any sequence of the commands `cd`, `back`,
`mkdir`, `rmdir`, `write`, `rm`, `wipe`, `install` and `uninstall`, the
current directory is a directory of the tree rooted at `root`. -/
theorem current_dir_present (cmds : List ShellCmd) (st : State)
    (h : st.current_dir = []) :
    ∃ d, getDir (run_shell cmds st).root (run_shell cmds st).current_dir = some d :=
  run_shell_valid cmds st ⟨st.root, by simp [cur_dir, h, getDir]⟩

/-- From startup: `mkdir a`, `cd a`, `mkdir b`, `cd b`, `back`, `rmdir b`,
`install hello`, `write f`, `rm f`, `uninstall hello`. -/
theorem current_dir_present_session :
    startup_state.current_dir = [] ∧
    ∃ d, getDir (run_shell [ShellCmd.mkdir ['a'], ShellCmd.cd ['a'], ShellCmd.mkdir ['b'],
        ShellCmd.cd ['b'], ShellCmd.back, ShellCmd.rmdir ['b'],
        ShellCmd.install "hello".toList, ShellCmd.write ['f'] "\nt\nEND\n".toList,
        ShellCmd.rm ['f'], ShellCmd.uninstall "hello".toList] startup_state).root
      (run_shell [ShellCmd.mkdir ['a'], ShellCmd.cd ['a'], ShellCmd.mkdir ['b'],
        ShellCmd.cd ['b'], ShellCmd.back, ShellCmd.rmdir ['b'],
        ShellCmd.install "hello".toList, ShellCmd.write ['f'] "\nt\nEND\n".toList,
        ShellCmd.rm ['f'], ShellCmd.uninstall "hello".toList] startup_state).current_dir =
      some d :=
  ⟨rfl, current_dir_present _ startup_state rfl⟩

/-! ## Stores past the arrays -/

theorem run_shell_mkdir_replicate (k : Nat) (name : CStr) (st : State)
    (hcur : st.current_dir = []) (hroom : st.root.dir_count + k ≤ MAX_DIRS) :
    run_shell (List.replicate k (ShellCmd.mkdir name)) st =
      { st with
        root := Directory.mk st.root.name
          (st.root.subdirs ++ List.replicate k (create_dir name)) st.root.files } := by
  induction k generalizing st with
  | zero =>
    cases st with
    | mk root cur apps =>
      simp only [List.replicate_zero, run_shell, List.foldl_nil, List.append_nil]
      rw [Directory.mk_eta]
  | succ k ih =>
    have hcd : cur_dir st = some st.root := by simp [cur_dir, hcur, getDir]
    have hguard : ¬ st.root.dir_count ≥ MAX_DIRS := by omega
    have hstep : cmd_mkdir name st =
        { st with root := push_subdir (create_dir name) st.root } := by
      simp only [cmd_mkdir, hcd, hguard, if_false, hcur, modifyDir]
    simp only [List.replicate_succ, run_shell, List.foldl_cons, run_shell_cmd]
    rw [hstep]
    have h2 := ih { st with root := push_subdir (create_dir name) st.root } hcur (by
      simp only [push_subdir, Directory.dir_count, Directory.subdirs_mk, List.length_append,
        List.length_singleton] at hroom ⊢
      omega)
    simp only [run_shell] at h2
    rw [h2]
    simp [push_subdir]

theorem full_dirs_session_state :
    run_shell full_dirs_session startup_state =
      { root := Directory.mk ['/'] (List.replicate 128 (Directory.mk ['d'] [] []))
          [⟨['f'], "text\n".toList⟩],
        current_dir := [], apps := init_builtin_apps [] } := by
  have h0 : cmd_rmdir "apps".toList startup_state =
      { root := Directory.mk ['/'] [] [], current_dir := [], apps := init_builtin_apps [] } := rfl
  have h1 := run_shell_mkdir_replicate 128 ['d']
    { root := Directory.mk ['/'] [] [], current_dir := [], apps := init_builtin_apps [] } rfl
    (by decide)
  simp only [full_dirs_session, run_shell, List.foldl_cons, List.foldl_append, run_shell_cmd,
    h0, List.foldl_nil] at h1 ⊢
  rw [h1]
  rfl

/-- C6: the code does not do what the claim says.  After `rmdir apps`, 128
times `mkdir d` and `write f`, the root has `MAX_DIRS` subdirectories, none
named `x`, and the file `f`.  `find_or_create_dir_by_path("/x")` tests no
counter: it stores the new directory at `subdirs[128]`, one past the array
`subdirs[MAX_DIRS]`, raises `dir_count` to 129 and returns that entry.  In the
`struct` the array `files` follows `subdirs`, so the store lands on `files[0]`:
the file list of an existing directory is changed. -/
theorem C6_store_past_subdirs :
    (run_shell full_dirs_session startup_state).root.dir_count = MAX_DIRS ∧
    (run_shell full_dirs_session startup_state).root.files = [⟨['f'], "text\n".toList⟩] ∧
    find_subdir ['x'] (run_shell full_dirs_session startup_state).root.subdirs = none ∧
    (find_or_create_dir_by_path "/x".toList
      (run_shell full_dirs_session startup_state).root).1.dir_count = MAX_DIRS + 1 ∧
    (find_or_create_dir_by_path "/x".toList
      (run_shell full_dirs_session startup_state).root).2 = [MAX_DIRS] := by
  rw [full_dirs_session_state]
  refine ⟨by decide!, by decide!, by decide!, by decide!, by decide!⟩

/-- C25: the code does not do what the claim says.  After `rmdir apps`, 128
times `mkdir d` and `write f`, the current directory is the root, which has
`MAX_DIRS` subdirectories, none named `apps`, and the file `f`.  `install
hello` resolves `/apps` with `find_or_create_dir_by_path`, which tests no
counter: the new directory, named `apps`, is stored at `subdirs[128]`, one past
the array, and `dir_count` becomes 129.  In the `struct` that entry is
`files[0]`, so the root now lists the directory node `/apps` as its first
file, with the bytes of its `parent` pointer, the address of the root, in the
place of `content`; a following `rm apps` matches that entry and `free_file`
frees its `content`, that is the root, while the current directory still
points to it. -/
theorem C25_install_stores_past_subdirs :
    (run_shell full_dirs_session startup_state).current_dir = [] ∧
    (run_shell full_dirs_session startup_state).root.dir_count = MAX_DIRS ∧
    (run_shell full_dirs_session startup_state).root.files = [⟨['f'], "text\n".toList⟩] ∧
    find_subdir "apps".toList (run_shell full_dirs_session startup_state).root.subdirs = none ∧
    (run_shell_cmd (run_shell full_dirs_session startup_state)
      (ShellCmd.install "hello".toList)).root.dir_count = MAX_DIRS + 1 ∧
    ((run_shell_cmd (run_shell full_dirs_session startup_state)
      (ShellCmd.install "hello".toList)).root.subdirs[MAX_DIRS]?).map Directory.name =
        some "apps".toList ∧
    (run_shell_cmd (run_shell full_dirs_session startup_state)
      (ShellCmd.install "hello".toList)).current_dir = [] := by
  rw [full_dirs_session_state]
  refine ⟨by decide!, by decide!, by decide!, by decide!, by decide!, by decide!, by decide!⟩

end GR4V1TYOS
